import Mathlib

/-!
Beam search (`src/translator/beam_search.h`).

A shallow embedding of `BeamSearch::toHyps`, `BeamSearch::pruneBeam` and
`BeamSearch::search`.

Conventions of the embedding:

* indices, token ids and sizes are natural numbers (the `int` temporaries of the
  source hold values far below `2^31`; narrowing is not modelled);
* costs, scores, weights and the `float` options have the type `F32` below, a
  model of IEEE-754 binary32: every sum, product and conversion rounds to the
  nearest representable value (ties to even) and overflows to an infinity;
* a `Ptr<Hypothesis>` is modelled by the value it points to; the one in-place
  mutation of the source (`GetCostBreakdown().resize` on a parent inside
  `toHyps`) is threaded explicitly through the loop state;
* an access outside a vector and a division by zero have no defined behaviour in
  the source; the embedding returns `none` there.
-/

namespace Marian

/-! ## The type `float`

Costs, scores, weights and the length factor have the C++ type `float`
(IEEE-754 binary32, round to nearest, ties to even). A finite value is
represented by the rational number it denotes (the two zeros are identified);
every operation rounds its exact result to the nearest representable value. -/

/-- A value of type `float`: a finite number, an infinity, or not-a-number. -/
inductive F32 where
  | fin (value : ℚ)
  | pinf
  | ninf
  | nan

namespace F32

/-- The rational `2 ^ e`. -/
def pow2 (e : Int) : ℚ :=
  if 0 ≤ e then ((2 ^ e.toNat : Nat) : ℚ) else 1 / ((2 ^ (-e).toNat : Nat) : ℚ)

/-- Bisection for the exponent: with `2 ^ lo ≤ a < 2 ^ hi` it narrows the
interval `fuel` times. -/
def expoSearch (a : ℚ) : Nat → Int → Int → Int
  | 0, lo, _ => lo
  | fuel + 1, lo, hi =>
    if pow2 ((lo + hi) / 2) ≤ a then expoSearch a fuel ((lo + hi) / 2) hi
    else expoSearch a fuel lo ((lo + hi) / 2)

/-- Exponent of the binade of `a` for `0 < a < 2 ^ 128`: the `e` with
`2 ^ e ≤ a < 2 ^ (e + 1)`, and `-126` for the subnormal range below
`2 ^ (-126)`. -/
def expo (a : ℚ) : Int := expoSearch a 8 (-126) 128

/-- Nearest integer, ties to the even one. -/
def roundHalfEven (y : ℚ) : Int :=
  if y - ⌊y⌋ < 1 / 2 then ⌊y⌋
  else if 1 / 2 < y - ⌊y⌋ then ⌊y⌋ + 1
  else if ⌊y⌋ % 2 = 0 then ⌊y⌋ else ⌊y⌋ + 1

/-- Magnitude of the rounded value of `a` for `0 < a < 2 ^ 128`: the nearest
multiple of the unit in the last place (24 significant bits). -/
def roundMag (a : ℚ) : ℚ :=
  (roundHalfEven (a / pow2 (expo a - 23)) : ℚ) * pow2 (expo a - 23)

/-- Rounding of an exact result to `float`; a magnitude that rounds to `2 ^ 128`
or more overflows to an infinity. -/
def round (q : ℚ) : F32 :=
  if 0 < q then
    (if q < pow2 128 ∧ roundMag q < pow2 128 then fin (roundMag q) else pinf)
  else if q < 0 then
    (if -q < pow2 128 ∧ roundMag (-q) < pow2 128 then fin (-roundMag (-q)) else ninf)
  else fin 0

/-- The sum `a + b` of two `float`s. -/
def add : F32 → F32 → F32
  | fin a, fin b => round (a + b)
  | fin _, pinf => pinf
  | fin _, ninf => ninf
  | pinf, fin _ => pinf
  | ninf, fin _ => ninf
  | pinf, pinf => pinf
  | ninf, ninf => ninf
  | _, _ => nan

/-- The product `a * b` of two `float`s. -/
def mul : F32 → F32 → F32
  | fin a, fin b => round (a * b)
  | fin a, pinf => if 0 < a then pinf else if a < 0 then ninf else nan
  | fin a, ninf => if 0 < a then ninf else if a < 0 then pinf else nan
  | pinf, fin b => if 0 < b then pinf else if b < 0 then ninf else nan
  | ninf, fin b => if 0 < b then ninf else if b < 0 then pinf else nan
  | pinf, pinf => pinf
  | ninf, ninf => pinf
  | pinf, ninf => ninf
  | ninf, pinf => ninf
  | _, _ => nan

/-- The comparison `a >= b` of two `float`s (false when either is not a
number). -/
def ge : F32 → F32 → Bool
  | fin a, fin b => decide (b ≤ a)
  | nan, _ => false
  | _, nan => false
  | pinf, _ => true
  | _, ninf => true
  | _, _ => false

/-- The comparison `a > b` of two `float`s. -/
def gt : F32 → F32 → Bool
  | fin a, fin b => decide (b < a)
  | nan, _ => false
  | _, nan => false
  | pinf, pinf => false
  | ninf, ninf => false
  | pinf, _ => true
  | _, ninf => true
  | _, _ => false

/-- Test whether two `float`s are the same value (unlike `==`, not-a-number is
the same as itself). -/
def same : F32 → F32 → Bool
  | fin a, fin b => decide (a ≤ b) && decide (b ≤ a)
  | pinf, pinf => true
  | ninf, ninf => true
  | nan, nan => true
  | _, _ => false

/-- The conversion of an unsigned integer (`size_t`) to `float`. -/
def ofNat (n : Nat) : F32 := round (n : ℚ)

/-- The conversion of a signed integer to `float`. -/
def ofInt (i : Int) : F32 := round (i : ℚ)

/-- The `float` nearest to a decimal literal or option value. -/
def ofRat (q : ℚ) : F32 := round q

/-- Equality of `float` values, decided through `same`. -/
@[instance] def decEq : DecidableEq F32 := fun a b =>
  if h : same a b = true then
    isTrue (by
      cases a <;> cases b <;> simp only [same, Bool.and_eq_true, decide_eq_true_eq] at h <;>
        first
        | rfl
        | exact congrArg fin (le_antisymm h.1 h.2)
        | exact absurd h (by simp))
  else
    isFalse (by
      intro hab
      subst hab
      apply h
      cases a <;> simp [same])

/-- The number that a finite `float` denotes (0 for the others). -/
def toRat : F32 → ℚ
  | fin q => q
  | _ => 0

/-- A `float` that is a number: neither an infinity nor not-a-number. -/
def isFinite : F32 → Bool
  | fin _ => true
  | _ => false

/-- The `float`s proper: a finite value of the model that rounding leaves
unchanged, an infinity, or not-a-number. Every operation of the model returns
one. -/
def IsValue : F32 → Prop
  | fin q => round q = fin q
  | _ => True

end F32

/-! ## Data model -/

/-- One node of the search trellis: `prevHyp_`, `word_`, `prevIndex_`, `cost_`
and `costBreakdown_` of the class `Hypothesis`. -/
inductive Hypothesis where
  | mk (prevHyp : Option Hypothesis) (word : Nat) (prevIndex : Nat) (cost : F32)
      (costBreakdown : List F32) : Hypothesis

namespace Hypothesis

/-- Parent accessor, `GetPrevHyp()`. -/
def GetPrevHyp : Hypothesis → Option Hypothesis
  | mk p _ _ _ _ => p

/-- Token accessor, `GetWord()`. -/
def GetWord : Hypothesis → Nat
  | mk _ w _ _ _ => w

/-- Back-pointer accessor, `GetPrevStateIndex()`. -/
def GetPrevStateIndex : Hypothesis → Nat
  | mk _ _ i _ _ => i

/-- Cost accessor, `GetCost()`. -/
def GetCost : Hypothesis → F32
  | mk _ _ _ c _ => c

/-- Breakdown accessor, `GetCostBreakdown()`. -/
def GetCostBreakdown : Hypothesis → List F32
  | mk _ _ _ _ b => b

end Hypothesis

/-- A `Beam` is `std::vector<Ptr<Hypothesis>>`. -/
abbrev Beam := List Hypothesis

/-- The type `Beams` is `std::vector<Beam>`, one beam per sentence. -/
abbrev Beams := List Beam

/-! ## `pruneBeam` -/

/-- Inner loop of `pruneBeam` (lines 94-99): push every hypothesis whose word is
not the end-of-sequence id. -/
def pruneOne (trgEosId : Nat) (beam : Beam) : Beam :=
  beam.foldl (fun newBeam hyp => if hyp.GetWord ≠ trgEosId then newBeam ++ [hyp] else newBeam) []

/-- The method `BeamSearch::pruneBeam` (lines 91-103). -/
def pruneBeam (trgEosId : Nat) (beams : Beams) : Beams :=
  beams.foldl (fun newBeams beam => newBeams ++ [pruneOne trgEosId beam]) []

/-! ## Collaborators of the search (declared outside this file in the source) -/

/-- Modelled from the spec: a cost tensor of rank 4 (the tensor library of
`marian.h` is not part of the sources at hand), given by its shape and its entry
at each coordinate; `flat` below gives the row-major view that `val()` hands to
the selector. -/
structure Tensor where
  d0 : Nat
  d1 : Nat
  d2 : Nat
  d3 : Nat
  get : Nat → Nat → Nat → Nat → F32

/-- The capability `ScorerState`: `getProbs()`, `breakDown(i)` and
`blacklist(totalCosts, batch)` (the latter as a function on the cost tensor). -/
structure ScorerState where
  getProbs : Tensor
  breakDown : Nat → F32
  blacklist : Tensor → Tensor

/-- The capability `Scorer`: `getWeight()`, `getShortlist()` (the reverse map when
a shortlist is set), `startState(graph, batch)` and
`step(graph, state, hypIndices, embIndices, dimBatch, beamSize)`. -/
structure Scorer where
  getWeight : F32
  getShortlist : Option (Nat → Nat)
  startState : ScorerState
  step : ScorerState → List Nat → List Nat → Nat → Nat → ScorerState

/-! ## `toHyps` -/

/-- The call `std::vector<float>::resize(n, 0)`. -/
def resize (l : List F32) (n : Nat) : List F32 :=
  l.take n ++ List.replicate (n - l.length) (F32.fin 0)

/-- Effect of `GetCostBreakdown().resize(n, 0)` on a hypothesis (line 77). -/
def Hypothesis.resizeBreakdown (n : Nat) : Hypothesis → Hypothesis
  | .mk p w i c b => .mk p w i c (resize b n)

/-- Lines 62-65: the transposed index `hypIdxTrans`. -/
def hypIdxTrans (hypIdx beamSize numBeams : Nat) (first : Bool) : Nat :=
  if first then hypIdx else hypIdx / beamSize + hypIdx % beamSize * numBeams

/-- Lines 67-72: the slot `beamHypIdx` of the parent inside the previous beam of
size `beamLen`. -/
def beamHypIdx (hypIdx beamSize beamLen : Nat) (first : Bool) : Nat :=
  if first then 0
  else if hypIdx % beamSize ≥ beamLen then hypIdx % beamSize % beamLen
  else hypIdx % beamSize

/-- Lines 45-53: `embIdx`, remapped through the shortlist of the first scorer
when there is one. -/
def embIdxOf (shortlist : Option (Nat → Nat)) (key vocabSize : Nat) : Nat :=
  match shortlist with
  | some reverseMap => reverseMap (key % vocabSize)
  | none => key % vocabSize

/-- Lines 76-83: the breakdown of a new hypothesis; `parentBreakdown` is the
parent's breakdown after its `resize(states.size(), 0)`, so both lists have one
entry per scorer state. -/
def breakDownOf (states : List ScorerState) (key : Nat) (parentBreakdown : List F32) :
    List F32 :=
  List.zipWith (fun state pb => F32.add (state.breakDown key) pb) states parentBreakdown

/-- One pass through the body of the `for` loop of `toHyps` (lines 41-87) for
rank `i`. The state is the pair (previous beams, new beams); the previous beams
are part of the state because line 77 resizes the breakdown of the parent in
place. A new hypothesis stores its parent as it is after that resize (the
parent is shared by pointer). -/
def toHypsBody (scorers : List Scorer) (nBest : Bool) (keys : List Nat) (costs : List F32)
    (vocabSize : Nat) (states : List ScorerState) (beamSize : Nat) (first : Bool)
    (st : Beams × Beams) (i : Nat) : Option (Beams × Beams) :=
  match keys[i]? with
  | none => none
  | some key =>
    if vocabSize = 0 then none
    else if beamSize = 0 then none
    else
      let beamIdx := i / beamSize
      match scorers[0]? with
      | none => none
      | some scorer0 =>
        let embIdx := embIdxOf scorer0.getShortlist key vocabSize
        match st.2[beamIdx]?, st.1[beamIdx]? with
        | some newBeam, some beam =>
          if newBeam.length < beam.length then
            let hypIdx := key / vocabSize
            match costs[i]? with
            | none => none
            | some cost =>
              let trans := hypIdxTrans hypIdx beamSize st.1.length first
              let slot := beamHypIdx hypIdx beamSize beam.length first
              match beam[slot]? with
              | none => none
              | some parent =>
                if nBest then
                  let parent1 := parent.resizeBreakdown states.length
                  let breakDown := breakDownOf states (embIdx + trans * vocabSize)
                    parent1.GetCostBreakdown
                  let hyp := Hypothesis.mk (some parent1) embIdx trans cost breakDown
                  some ((st.1.set beamIdx (beam.set slot parent1)),
                        (st.2.set beamIdx (newBeam ++ [hyp])))
                else
                  let hyp := Hypothesis.mk (some parent) embIdx trans cost []
                  some (st.1, st.2.set beamIdx (newBeam ++ [hyp]))
          else some st
        | _, _ => none

/-- The `for` loop of `toHyps` run over the ranks `0 .. n-1`, starting from
`newBeams(beams.size())` (line 40). -/
def toHypsLoop (scorers : List Scorer) (nBest : Bool) (keys : List Nat) (costs : List F32)
    (vocabSize : Nat) (beams : Beams) (states : List ScorerState) (beamSize : Nat)
    (first : Bool) (n : Nat) : Option (Beams × Beams) :=
  (List.range n).foldlM (toHypsBody scorers nBest keys costs vocabSize states beamSize first)
    (beams, List.replicate beams.length [])

/-- The method `BeamSearch::toHyps` (lines 33-89): the new beams. -/
def toHyps (scorers : List Scorer) (nBest : Bool) (keys : List Nat) (costs : List F32)
    (vocabSize : Nat) (beams : Beams) (states : List ScorerState) (beamSize : Nat)
    (first : Bool) : Option Beams :=
  (toHypsLoop scorers nBest keys costs vocabSize beams states beamSize first keys.length).map
    Prod.snd

/-- The previous beams as `toHyps` leaves them (the parents whose breakdown was
resized). -/
def toHypsPrev (scorers : List Scorer) (nBest : Bool) (keys : List Nat) (costs : List F32)
    (vocabSize : Nat) (beams : Beams) (states : List ScorerState) (beamSize : Nat)
    (first : Bool) : Option Beams :=
  (toHypsLoop scorers nBest keys costs vocabSize beams states beamSize first keys.length).map
    Prod.fst

/-! ## Specification vocabulary for `toHyps` -/

/-- Parent as line 77 leaves it. -/
def touch (nBest : Bool) (n : Nat) (h : Hypothesis) : Hypothesis :=
  if nBest then h.resizeBreakdown n else h

/-- Ranks below `n` that belong to sentence `j` (`i / beamSize = j`), cut after
the first `len` of them: the candidates that the guard of line 55 lets through
when the previous beam of the sentence has `len` entries. -/
def accepted (beamSize n j len : Nat) : List Nat :=
  ((List.range n).filter (fun i => i / beamSize = j)).take len

/-- The hypothesis `h` is the one that lines 59-85 build for rank `i` from the
previous beams `beams`. -/
def IsCandidate (shortlist : Option (Nat → Nat)) (nBest : Bool) (keys : List Nat)
    (costs : List F32) (vocabSize : Nat) (beams : Beams) (states : List ScorerState)
    (beamSize : Nat) (first : Bool) (i : Nat) (h : Hypothesis) : Prop :=
  ∃ key cost beam parent,
    keys[i]? = some key ∧ costs[i]? = some cost ∧ beams[i / beamSize]? = some beam ∧
    beam[beamHypIdx (key / vocabSize) beamSize beam.length first]? = some parent ∧
    h = Hypothesis.mk (some (touch nBest states.length parent))
          (embIdxOf shortlist key vocabSize)
          (hypIdxTrans (key / vocabSize) beamSize beams.length first) cost
          (if nBest then
            breakDownOf states
              (embIdxOf shortlist key vocabSize
                + hypIdxTrans (key / vocabSize) beamSize beams.length first * vocabSize)
              (resize parent.GetCostBreakdown states.length)
           else [])

/-- Relation between the previous beams before and during the loop: same shape,
and every hypothesis is either untouched or has had its breakdown resized. -/
def Touched (nBest : Bool) (n : Nat) (B pb : Beams) : Prop :=
  List.Forall₂ (List.Forall₂ (fun h h' => h' = h ∨ h' = touch nBest n h)) B pb

/-- Loop invariant of `toHyps` after the ranks `0 .. n-1`. -/
structure ToHypsInv (shortlist : Option (Nat → Nat)) (nBest : Bool) (keys : List Nat)
    (costs : List F32) (vocabSize : Nat) (beams : Beams) (states : List ScorerState)
    (beamSize : Nat) (first : Bool) (n : Nat) (st : Beams × Beams) : Prop where
  prev : Touched nBest states.length beams st.1
  len : st.2.length = beams.length
  built : ∀ j beam, beams[j]? = some beam → ∃ nbj, st.2[j]? = some nbj ∧
    List.Forall₂ (IsCandidate shortlist nBest keys costs vocabSize beams states beamSize first)
      (accepted beamSize n j beam.length) nbj

/-- The shortlist that line 51 reads from `scorers_[0]` (none when it has no
shortlist; the loop body is not reached without a first scorer). -/
def firstShortlist (scorers : List Scorer) : Option (Nat → Nat) :=
  match scorers[0]? with
  | some scorer0 => scorer0.getShortlist
  | none => none

/-! ## Tensor expressions used by `search`

The expression graph (`marian.h`) is not part of the sources at hand. The
operations that `search` applies to cost tensors are given the element-wise
meaning that the specification describes: a previous cost broadcast to all
candidates, `totalCost = previousCost + Σ weight_i * score_i`, and the swap of
the sentence and beam-slot axes. -/

/-- Modelled from the spec: row-major view of a tensor, the layout of `val()`
that the selector indexes with its keys (`flatIndex = slot * vocabSize + token`
inside the block of a sentence). -/
def Tensor.flat (t : Tensor) (n : Nat) : F32 :=
  t.get (n / (t.d1 * t.d2 * t.d3)) (n / (t.d2 * t.d3) % t.d1) (n / t.d3 % t.d2) (n % t.d3)

/-- Modelled from the spec: the constant
`graph->constant({1, 1, 1, 1}, inits::from_value(v))`, a scalar that is broadcast
to all candidates. -/
def Tensor.fromValue (v : F32) : Tensor := ⟨1, 1, 1, 1, fun _ _ _ _ => v⟩

/-- Modelled from the spec: the constant
`graph->constant({d0, d1, d2, d3}, inits::from_vector(v))`, filled in row-major
order. -/
def Tensor.fromVector (d0 d1 d2 d3 : Nat) (v : List F32) : Tensor :=
  ⟨d0, d1, d2, d3, fun i j k l => v.getD (((i * d1 + j) * d2 + k) * d3 + l) (F32.fin 0)⟩

/-- Modelled from the spec: the coordinate read by a broadcasting operation along
an axis of extent `d`. -/
def bcast (d i : Nat) : Nat := if d = 1 then 0 else i

/-- Modelled from the spec: `a + b` on expressions, the element-wise sum with
broadcasting of axes of extent 1. -/
def Tensor.add (a b : Tensor) : Tensor :=
  ⟨max a.d0 b.d0, max a.d1 b.d1, max a.d2 b.d2, max a.d3 b.d3,
   fun i j k l => F32.add (a.get (bcast a.d0 i) (bcast a.d1 j) (bcast a.d2 k) (bcast a.d3 l))
     (b.get (bcast b.d0 i) (bcast b.d1 j) (bcast b.d2 k) (bcast b.d3 l))⟩

/-- Modelled from the spec: `w * a` on expressions, the product of a weight and
a tensor. -/
def Tensor.scale (w : F32) (a : Tensor) : Tensor :=
  ⟨a.d0, a.d1, a.d2, a.d3, fun i j k l => F32.mul w (a.get i j k l)⟩

/-- Modelled from the spec: the call `transpose(t, {2, 1, 0, 3})`, which swaps
the beam-slot axis 0 and the sentence axis 2. -/
def Tensor.transpose2103 (a : Tensor) : Tensor :=
  ⟨a.d2, a.d1, a.d0, a.d3, fun i j k l => a.get k j i l⟩

/-! ## `History`, options, batch -/

/-- Modelled from the spec: `History` (`translator/history.h` is not part of the
sources at hand) is the per-sentence append-only sequence of beam snapshots, each
with its final marker, plus the sentence id and the length-normalisation
parameters. -/
structure History where
  sentId : Nat
  normalize : F32
  wordPenalty : F32
  snapshots : List (Beam × Bool)

/-- Modelled from the spec: `History::Add(beam, trgEosId, last)` appends one
snapshot, marked final when `last` is set. -/
def History.Add (h : History) (beam : Beam) (_trgEosId : Nat) (last : Bool) : History :=
  { h with snapshots := h.snapshots ++ [(beam, last)] }

/-- Modelled from the spec: `History::size()` is the number of snapshots. -/
def History.size (h : History) : Nat := h.snapshots.length

/-- The options that `BeamSearch` reads. `beamSize` and `allowUnk` are `none`
when `has(...)` is false. -/
structure Options where
  beamSize : Option Nat
  normalize : F32
  wordPenalty : F32
  nBest : Bool
  allowUnk : Option Bool
  maxLengthFactor : F32

/-- What `search` reads of a `CorpusBatch`: `size()`, `getSentenceIds()` and
`front()->batchWidth()`. -/
structure Batch where
  size : Nat
  getSentenceIds : List Nat
  batchWidth : Nat

/-- The value `-1` of type `Word` (lines 18-19). -/
def noWord : Nat := 2 ^ 64 - 1

/-- Collaborators created or called inside `search`: the selector returned by
`New<NthElementCPU>(beamSize, dimBatch)` with its `getNBestList(beamSizes, costs,
first)` giving `(outCosts, outKeys)`, the helper `suppressWord`, and the
hypothesis made by `New<Hypothesis>()`. -/
structure Collaborators where
  newNthElement : Nat → Nat → List Nat → Tensor → Bool → List F32 × List Nat
  suppressWord : Tensor → Nat → Tensor
  newHypothesis : Hypothesis

/-- The members of `BeamSearch` (lines 15-19). -/
structure BeamSearch where
  options : Options
  scorers : List Scorer
  beamSize : Nat
  trgEosId : Nat
  trgUnkId : Nat

/-- The constructor (lines 22-31): the beam size defaults to 3. -/
def BeamSearch.new (options : Options) (scorers : List Scorer) (trgEosId trgUnkId : Nat) :
    BeamSearch :=
  { options := options, scorers := scorers,
    beamSize := match options.beamSize with
      | some b => b
      | none => 3,
    trgEosId := trgEosId, trgUnkId := trgUnkId }

/-! ## `search` -/

/-- The variables of `search` that live across iterations of the `do` loop. -/
structure SearchState where
  histories : List History
  beams : Beams
  states : List ScorerState
  localBeamSize : Nat
  first : Bool
  final : Bool

/-- Lines 160-174: the vectors `hypIndices`, `embIndices` and `beamCosts`, filled
slot by slot and, within a slot, sentence by sentence. -/
def costAssembly (localBeamSize : Nat) (beams : Beams) : List Nat × List Nat × List F32 :=
  (List.range localBeamSize).foldl
    (fun acc i =>
      beams.foldl
        (fun acc beam =>
          match beam[i]? with
          | some hyp =>
            (acc.1 ++ [hyp.GetPrevStateIndex], acc.2.1 ++ [hyp.GetWord],
              acc.2.2 ++ [hyp.GetCost])
          | none => (acc.1 ++ [0], acc.2.1 ++ [0], acc.2.2 ++ [F32.fin (-9999)]))
        acc)
    ([], [], [])

/-- Lines 185-195: every scorer advances its state and its weighted scores are
added to the running total. The states are paired with the scorers positionally
(`states[i]` with `scorers_[i]`; both vectors have one entry per scorer). -/
def stepScorers (hypIndices embIndices : List Nat) (dimBatch localBeamSize : Nat) :
    List Scorer → List ScorerState → Tensor → List ScorerState × Tensor
  | scorer :: scorers, state :: states, totalCosts =>
    let state1 := scorer.step state hypIndices embIndices dimBatch localBeamSize
    let totalCosts1 :=
      if scorer.getWeight ≠ F32.fin 1 then totalCosts.add (Tensor.scale scorer.getWeight state1.getProbs)
      else totalCosts.add state1.getProbs
    let r := stepScorers hypIndices embIndices dimBatch localBeamSize scorers states totalCosts1
    (state1 :: r.1, r.2)
  | _, states, totalCosts => (states, totalCosts)

/-- The length-cap test of line 229,
`size >= options_->get<float>("max-length-factor") * batch->front()->batchWidth()`. -/
def capReached (maxLengthFactor : F32) (batchWidth : Nat) (size : Nat) : Bool :=
  F32.ge (F32.ofNat size) (F32.mul maxLengthFactor (F32.ofNat batchWidth))

/-- Lines 226-232, one pass of the loop over the sentences: the state is the
flag `final` and the histories. -/
def historyBody (maxLengthFactor : F32) (batchWidth : Nat) (trgEosId : Nat)
    (beams prunedBeams : Beams) (st : Bool × List History) (i : Nat) :
    Option (Bool × List History) :=
  match beams[i]? with
  | none => none
  | some beam =>
    if ¬ beam.isEmpty then
      match st.2[i]?, prunedBeams[i]? with
      | some history, some prunedBeam =>
        let final := st.1 || capReached maxLengthFactor batchWidth history.size
        some (final, st.2.set i (history.Add beam trgEosId (prunedBeam.isEmpty || final)))
      | _, _ => none
    else some st

/-- Lines 236-239: the largest size among the beams. -/
def maxBeamSize (beams : Beams) : Nat :=
  beams.foldl (fun maxBeam beam => if beam.length > maxBeam then beam.length else maxBeam) 0

/-- Lines 149-178: the constant `prevCosts`, together with the vectors
`hypIndices` and `embIndices` that go to the scorers. -/
def prevCostsOf (batch : Batch) (s : SearchState) : List Nat × List Nat × Tensor :=
  if s.first then ([], [], Tensor.fromValue (F32.fin 0))
  else
    let assembled := costAssembly s.localBeamSize s.beams
    (assembled.1, assembled.2.1, Tensor.fromVector s.localBeamSize 1 batch.size 1 assembled.2.2)

/-- Lines 182-195: the advanced scorer states and `totalCosts` as the sum of the
previous costs and the weighted scores. -/
def steppedCosts (bs : BeamSearch) (batch : Batch) (s : SearchState) :
    List ScorerState × Tensor :=
  let prev := prevCostsOf batch s
  stepScorers prev.1 prev.2.1 batch.size s.localBeamSize bs.scorers s.states prev.2.2

/-- Lines 197-199: `totalCosts` after the transpose that makes the block of each
sentence contiguous. -/
def transposedCosts (bs : BeamSearch) (batch : Batch) (s : SearchState) : Tensor :=
  let stepped := steppedCosts bs batch s
  if batch.size > 1 ∧ s.localBeamSize > 1 then stepped.2.transpose2103 else stepped.2

/-- A collaborator that overwrites entries of a tensor in place: the shape stays,
the entries are the ones the collaborator leaves. -/
def inPlace (f : Tensor → Tensor) (t : Tensor) : Tensor :=
  ⟨t.d0, t.d1, t.d2, t.d3, (f t).get⟩

/-- Lines 197-211: `totalCosts` as the selector receives it, after the transpose,
`suppressWord` and the blacklists of the scorer states (both write into the
tensor in place). -/
def maskedCosts (bs : BeamSearch) (env : Collaborators) (batch : Batch) (s : SearchState) :
    Tensor :=
  let stepped := steppedCosts bs batch s
  let totalCosts1 := transposedCosts bs batch s
  let totalCosts2 :=
    if bs.trgUnkId ≠ noWord ∧ bs.options.allowUnk = some false
    then inPlace (fun t => env.suppressWord t bs.trgUnkId) totalCosts1 else totalCosts1
  stepped.1.foldl (fun t state => inPlace state.blacklist t) totalCosts2

/-- Lines 147-221 up to the call of the selector: the new scorer states, the
outputs `(outCosts, outKeys)` of `getNBestList`, and `dimTrgVoc`. -/
def selectStep (bs : BeamSearch) (env : Collaborators) (batch : Batch) (s : SearchState) :
    List ScorerState × (List F32 × List Nat) × Nat :=
  let totalCosts := maskedCosts bs env batch s
  let beamSizes := List.replicate batch.size s.localBeamSize
  ((steppedCosts bs batch s).1,
    env.newNthElement bs.beamSize batch.size beamSizes totalCosts s.first, totalCosts.d3)

/-- Lines 221-223: the beams returned by `toHyps` in this pass, before pruning. -/
def unprunedBeams (bs : BeamSearch) (env : Collaborators) (batch : Batch) (s : SearchState) :
    Option Beams :=
  let sel := selectStep bs env batch s
  toHyps bs.scorers bs.options.nBest sel.2.1.2 sel.2.1.1 sel.2.2 s.beams sel.1
    s.localBeamSize s.first

/-- One pass through the body of the `do` loop (lines 147-242). -/
def searchStep (bs : BeamSearch) (env : Collaborators) (batch : Batch) (s : SearchState) :
    Option SearchState :=
  let sel := selectStep bs env batch s
  match unprunedBeams bs env batch s with
  | none => none
  | some beams =>
    let prunedBeams := pruneBeam bs.trgEosId beams
    match (List.range batch.size).foldlM
        (historyBody bs.options.maxLengthFactor batch.batchWidth bs.trgEosId beams prunedBeams)
        (s.final, s.histories) with
    | none => none
    | some (final, histories) =>
      some { histories := histories, beams := prunedBeams, states := sel.1,
             localBeamSize := if ¬ s.first then maxBeamSize prunedBeams else s.localBeamSize,
             first := false, final := final }

/-- Lines 108-113: one `History` per sentence, created from its sentence id. -/
def newHistories (bs : BeamSearch) (batch : Batch) : Option (List History) :=
  (List.range batch.size).foldlM
    (fun histories i =>
      match batch.getSentenceIds[i]? with
      | none => none
      | some sentId =>
        some (histories ++ [⟨sentId, bs.options.normalize, bs.options.wordPenalty, []⟩]))
    []

/-- Lines 106-144: the state in which the `do` loop is entered. Every beam is
seeded with `beamSize_` copies of one empty hypothesis (lines 126-128) and is
recorded as the first snapshot of its history (lines 133-134). -/
def searchInit (bs : BeamSearch) (env : Collaborators) (batch : Batch) : Option SearchState :=
  match newHistories bs batch with
  | none => none
  | some histories =>
    let beams : Beams :=
      List.replicate batch.size (List.replicate bs.beamSize env.newHypothesis)
    some { histories := histories.map (fun history =>
             history.Add (List.replicate bs.beamSize env.newHypothesis) bs.trgEosId false),
           beams := beams,
           states := bs.scorers.map (fun scorer => scorer.startState),
           localBeamSize := bs.beamSize, first := true, final := false }

/-- The loop condition of line 244. -/
def continues (s : SearchState) : Bool := s.localBeamSize ≠ 0 && !s.final

/-- Outcome of running the `do` loop with a bound on the number of passes. -/
inductive Outcome where
  | done (histories : List History) (last : SearchState)
  | undefinedBehaviour
  | outOfFuel

/-- The `do ... while` loop of lines 146-244 with at most `fuel` passes. -/
def searchLoop (bs : BeamSearch) (env : Collaborators) (batch : Batch) :
    Nat → SearchState → Outcome
  | 0, _ => Outcome.outOfFuel
  | fuel + 1, s =>
    match searchStep bs env batch s with
    | none => Outcome.undefinedBehaviour
    | some s1 => if continues s1 then searchLoop bs env batch fuel s1 else Outcome.done s1.histories s1

/-- The method `BeamSearch::search` (lines 105-247) with at most `fuel` passes
through the loop. -/
def search (bs : BeamSearch) (env : Collaborators) (batch : Batch) (fuel : Nat) : Outcome :=
  match searchInit bs env batch with
  | none => Outcome.undefinedBehaviour
  | some s => searchLoop bs env batch fuel s

/-- The state in which pass number `n` (counted from 0) of the loop starts, when
the search gets that far. -/
def stateBefore (bs : BeamSearch) (env : Collaborators) (batch : Batch) :
    Nat → Option SearchState
  | 0 => searchInit bs env batch
  | n + 1 =>
    match stateBefore bs env batch n with
    | none => none
    | some s =>
      match searchStep bs env batch s with
      | none => none
      | some s1 => if continues s1 then some s1 else none

/-! ## Vocabulary for the cost of a new hypothesis -/

/-- Number of beam slots per sentence in the cost tensor of a pass: one on the
first pass, the working beam width afterwards. -/
def effectiveSlots (s : SearchState) : Nat := if s.first then 1 else s.localBeamSize

/-- Lines 185-195 at one entry of the cost tensor: the running total `total`
after every scorer has added its weighted score of the candidate (slot `b` of
sentence `s`, token `v`), in the order of the scorers; a weight of 1 is not
multiplied in. -/
def addScores : List Scorer → List ScorerState → Nat → Nat → Nat → F32 → F32
  | scorer :: scorers, state :: states, b, s, v, total =>
    addScores scorers states b s v
      (if scorer.getWeight ≠ F32.fin 1
       then F32.add total (F32.mul scorer.getWeight (state.getProbs.get b 0 s v))
       else F32.add total (state.getProbs.get b 0 s v))
  | _, _, _, _, _, total => total

/-- What the selector owes for rank `i` of sentence `j`, whose previous beam has
`beamLen` hypotheses: the key is an index into the cost tensor (vocabulary size
`V`), it lies in the block of sentence `j`, in a slot that holds a hypothesis,
and the cost returned with it is the entry of the summed cost tensor at the key
(so the entry was not masked). -/
def rankContract (bs : BeamSearch) (env : Collaborators) (batch : Batch) (s : SearchState)
    (V j beamLen i : Nat) : Bool :=
  match (selectStep bs env batch s).2.1.2[i]?, (selectStep bs env batch s).2.1.1[i]? with
  | some key, some cost =>
    decide (key < batch.size * effectiveSlots s * V) &&
    decide (key / V / effectiveSlots s = j) &&
    decide (key / V % effectiveSlots s < beamLen) &&
    decide (cost = (transposedCosts bs batch s).flat key)
  | _, _ => false

/-- What a pass of `search` that starts in state `s` owes for the cost
bookkeeping of its new hypotheses: every scorer state has a score tensor of the
shape of the pass (slots, 1, sentences, `V`) and a `breakDown` that reads that
tensor at a flat index, and every accepted rank meets `rankContract`. -/
def PassContract (bs : BeamSearch) (env : Collaborators) (batch : Batch) (s : SearchState)
    (V : Nat) : Prop :=
  (∀ st ∈ (steppedCosts bs batch s).1,
    (st.getProbs.d0 = effectiveSlots s ∧ st.getProbs.d1 = 1 ∧ st.getProbs.d2 = batch.size ∧
      st.getProbs.d3 = V) ∧ ∀ k, st.breakDown k = st.getProbs.flat k) ∧
  ∀ (j : Nat) (beam : Beam), s.beams[j]? = some beam →
    ∀ i ∈ accepted s.localBeamSize (selectStep bs env batch s).2.1.2.length j beam.length,
      rankContract bs env batch s V j beam.length i = true

/-! ## A host-resident selector and sample collaborators -/

/-- Insert a (cost, key) pair into a list sorted by descending cost, after the
entries of equal cost. -/
def insertDesc (x : F32 × Nat) : List (F32 × Nat) → List (F32 × Nat)
  | [] => [x]
  | y :: ys => if F32.gt x.1 y.1 then x :: y :: ys else y :: insertDesc x ys

/-- Sort (cost, key) pairs by descending cost. -/
def sortDesc (l : List (F32 × Nat)) : List (F32 × Nat) :=
  l.foldl (fun acc x => insertDesc x acc) []

/-- Modelled from the spec: the host-resident `TopKSelector`
(`translator/nth_element.h` is not part of the sources at hand). For sentence
`i` it returns the `beamSizes[i]` highest entries of the block of that sentence
in the flattened cost tensor, best first, each with its flat index as key; on
the first step the block of a sentence is a single beam slot. -/
def nthElementCPU (_beamSize _dimBatch : Nat) (beamSizes : List Nat) (scores : Tensor)
    (first : Bool) : List F32 × List Nat :=
  let r := beamSizes.foldl
    (fun (acc : Nat × Nat × List (F32 × Nat)) k =>
      let start := (if first then acc.1 else acc.2.1) * scores.d3
      let len := (if first then 1 else k) * scores.d3
      let block := (List.range len).map (fun o => (scores.flat (start + o), start + o))
      (acc.1 + 1, acc.2.1 + k, acc.2.2 ++ (sortDesc block).take k))
    (0, 0, [])
  (r.2.2.map Prod.fst, r.2.2.map Prod.snd)

/-- Sample scorer state over a vocabulary of `vocab` tokens: the score of token
`v` continuing slot `b` of sentence `s` is `table b s v`. -/
def sampleState (slots dimBatch vocab : Nat) (table : Nat → Nat → Nat → Int) : ScorerState :=
  let probs : Tensor := ⟨slots, 1, dimBatch, vocab, fun b _ s v => F32.ofInt (table b s v)⟩
  { getProbs := probs, breakDown := fun k => probs.flat k, blacklist := fun t => t }

/-- Sample scorer with the given weight whose every step yields `sampleState`
for the current beam width (one slot on the first step, recognised by the
empty index vectors). -/
def sampleScorer (weight : Int) (vocab : Nat) (table : Nat → Nat → Nat → Int) : Scorer :=
  { getWeight := F32.ofInt weight, getShortlist := none,
    startState := sampleState 1 1 vocab table,
    step := fun _ hypIndices _ dimBatch localBeamSize =>
      sampleState (if hypIndices.isEmpty then 1 else localBeamSize) dimBatch vocab table }

/-- Sample collaborators: the host-resident selector, a `suppressWord` that is
never reached with `trgUnkId = -1`, and an empty hypothesis without parent. -/
def sampleEnv : Collaborators :=
  { newNthElement := nthElementCPU, suppressWord := fun t _ => t,
    newHypothesis := Hypothesis.mk none 0 0 (F32.fin 0) [] }

/-- Sample options: beam size `k`, factor `f`, n-best as given. -/
def sampleOptions (k : Nat) (f : ℚ) (nBest : Bool) : Options :=
  { beamSize := some k, normalize := F32.fin 0, wordPenalty := F32.fin 0, nBest := nBest,
    allowUnk := none, maxLengthFactor := F32.ofRat f }

/-- Sample table: token `v` scores `-(v + 1)`, whatever the slot and sentence. -/
def sampleTable : Nat → Nat → Nat → Int := fun _ _ v => -((v : Int) + 1)

/-- Sample search: one scorer of weight 1 over 3 tokens, end-of-sequence id 1,
beam size 2, length factor 3. -/
def sampleSearch : BeamSearch :=
  BeamSearch.new (sampleOptions 2 3 false) [sampleScorer 1 3 sampleTable] 1 noWord

/-- Sample batch of two sentences of width 1. -/
def sampleBatch : Batch := { size := 2, getSentenceIds := [10, 11], batchWidth := 1 }

/-- Histories returned by a finished search. -/
def Outcome.histories : Outcome → Option (List History)
  | Outcome.done histories _ => some histories
  | _ => none

/-- Contract of a selector as far as the indexing in `toHyps` depends on it: it
returns no more keys than were requested over all sentences, a cost for every
key, and keys only when the tensor has a non-empty vocabulary axis. -/
def WellFormedSelector (env : Collaborators) : Prop :=
  ∀ (beamSize dimBatch : Nat) (beamSizes : List Nat) (scores : Tensor) (first : Bool),
    (env.newNthElement beamSize dimBatch beamSizes scores first).2.length
        ≤ (env.newNthElement beamSize dimBatch beamSizes scores first).1.length ∧
    (env.newNthElement beamSize dimBatch beamSizes scores first).2.length ≤ beamSizes.sum ∧
    ((env.newNthElement beamSize dimBatch beamSizes scores first).2 ≠ [] → scores.d3 ≠ 0)

/-- Sample search with length factor 0. -/
def zeroFactorSearch : BeamSearch :=
  BeamSearch.new (sampleOptions 2 0 false) [sampleScorer 1 3 sampleTable] 1 noWord

/-- Sample table in which sentence 1 prefers the end-of-sequence token 1. -/
def earlyTable : Nat → Nat → Nat → Int :=
  fun _ s v => if s = 1 then (if v = 1 then 0 else -5) else -((v : Int) + 1)

/-- Sample search of beam size 1 in which sentence 1 finishes in the first pass. -/
def earlySearch : BeamSearch :=
  BeamSearch.new (sampleOptions 1 3 false) [sampleScorer 1 3 earlyTable] 1 noWord

/-- Sample table for a beam that shrinks below the working width: on slot 0
token 0 scores `-20000` and the end-of-sequence token 1 scores `-1`; on slot 1
token `v` scores `-(v + 1)`. -/
def padTable : Nat → Nat → Nat → Int :=
  fun b _ v => if b = 0 then (if v = 0 then -20000 else -1) else -((v : Int) + 1)

/-- Sample search of beam size 2 over 2 tokens with `padTable`. -/
def padSearch : BeamSearch :=
  BeamSearch.new (sampleOptions 2 3 false) [sampleScorer 1 2 padTable] 1 noWord

/-- Sample batch of one sentence of width 1. -/
def padBatch : Batch := { size := 1, getSentenceIds := [7], batchWidth := 1 }

/-- Sample search with n-best output and one scorer of weight 2. -/
def weightedSearch : BeamSearch :=
  BeamSearch.new (sampleOptions 1 2 true) [sampleScorer 2 3 sampleTable] 1 noWord

/-- A search state without sentences, the fallback of the sample states below. -/
def emptyState : SearchState :=
  { histories := [], beams := [], states := [], localBeamSize := 0, first := true,
    final := false }

/-- The state in which the second pass of the sample search starts. -/
def sampleSecondPass : SearchState :=
  (stateBefore sampleSearch sampleEnv sampleBatch 1).getD emptyState

/-- The state in which the second pass of the sample search with `padTable`
starts. -/
def padSecondPass : SearchState :=
  (stateBefore padSearch sampleEnv padBatch 1).getD emptyState

/-- The beams that `toHyps` returns in the second pass of the sample search with
`padTable`. -/
def padSecondBeams : Beams :=
  (unprunedBeams padSearch sampleEnv padBatch padSecondPass).getD []

/-- The first hypothesis of sentence 0 among `padSecondBeams`. -/
def padChild : Hypothesis :=
  ((padSecondBeams[0]?.getD [])[0]?).getD sampleEnv.newHypothesis

/-- The state in which the first pass of the sample search of weight 2 starts. -/
def weightedFirstPass : SearchState :=
  (stateBefore weightedSearch sampleEnv sampleBatch 0).getD emptyState

/-- The state in which the second pass of the sample search of weight 2 starts. -/
def weightedSecondPass : SearchState :=
  (stateBefore weightedSearch sampleEnv sampleBatch 1).getD emptyState

/-- The beams that `toHyps` returns in the first pass of the sample search of
weight 2. -/
def weightedFirstBeams : Beams :=
  (unprunedBeams weightedSearch sampleEnv sampleBatch weightedFirstPass).getD []

/-- The first hypothesis of sentence 0 among `weightedFirstBeams`. -/
def weightedChild : Hypothesis :=
  ((weightedFirstBeams[0]?.getD [])[0]?).getD sampleEnv.newHypothesis

/-- Sample scorer state whose `breakDown(k)` is `k` itself, so that a breakdown
entry shows the flat index that was read. -/
def echoState : ScorerState :=
  { getProbs := Tensor.fromValue (F32.fin 0), breakDown := fun k => F32.ofNat k,
    blacklist := fun t => t }

/-- Sample scorer with a shortlist that maps the local id `j` to the full id
`j + 100`. -/
def shortlistScorer : Scorer :=
  { sampleScorer 1 5 sampleTable with getShortlist := some (fun j => j + 100) }

/-- The state in which the third pass of the sample search starts. -/
def sampleThirdPass : SearchState :=
  (stateBefore sampleSearch sampleEnv sampleBatch 2).getD emptyState

/-- Sample table in which every sentence prefers the end-of-sequence token 1. -/
def eosTable : Nat → Nat → Nat → Int := fun _ _ v => if v = 1 then 0 else -5

/-- Sample search of beam size 1 in which every sentence finishes in the first
pass. -/
def eosSearch : BeamSearch :=
  BeamSearch.new (sampleOptions 1 3 false) [sampleScorer 1 3 eosTable] 1 noWord

/-- Last state of a finished search. -/
def Outcome.lastState : Outcome → Option SearchState
  | Outcome.done _ last => some last
  | _ => none

/-- Line 218: the vector `beamSizes(dimBatch, localBeamSize)` of the counts
requested from the selector, one per sentence. -/
def beamSizes (batch : Batch) (s : SearchState) : List Nat :=
  List.replicate batch.size s.localBeamSize

/-- The state in which the second pass of the sample search `earlySearch`
starts. -/
def earlySecondPass : SearchState :=
  (stateBefore earlySearch sampleEnv sampleBatch 1).getD emptyState

/-- Sample search configured with a beam width of zero. -/
def zeroWidthSearch : BeamSearch :=
  BeamSearch.new (sampleOptions 0 3 false) [sampleScorer 1 3 sampleTable] 1 noWord

/-- Sample search with the length factor 0.1. -/
def tenthFactorSearch : BeamSearch :=
  BeamSearch.new (sampleOptions 2 (1 / 10) false) [sampleScorer 1 3 sampleTable] 1 noWord

/-- Sample batch of one sentence of width 10. -/
def wideBatch : Batch := { size := 1, getSentenceIds := [7], batchWidth := 10 }

/-- Sample costs returned with four keys. -/
def sampleCosts : List F32 := [F32.fin 10, F32.fin 9, F32.fin 8, F32.fin 7]

/-! ## Vocabulary for the cost breakdown of a new hypothesis -/

/-- The exact weighted sum `Σ weight_i * breakdown_i` of a cost breakdown, over
the numbers that the `float`s denote. -/
def weightedSum (scorers : List Scorer) (breakdown : List F32) : ℚ :=
  (List.zipWith (fun scorer x => scorer.getWeight.toRat * x.toRat) scorers breakdown).sum

/-- The `float` results that lines 185-195 compute at one entry of the cost
tensor, in the order of `addScores`: for every scorer the product with its
weight (when the weight is not 1) and the new running total. -/
def addScoresResults : List Scorer → List ScorerState → Nat → Nat → Nat → F32 → List F32
  | scorer :: scorers, state :: states, b, s, v, total =>
    if scorer.getWeight ≠ F32.fin 1 then
      F32.mul scorer.getWeight (state.getProbs.get b 0 s v) ::
        F32.add total (F32.mul scorer.getWeight (state.getProbs.get b 0 s v)) ::
        addScoresResults scorers states b s v
          (F32.add total (F32.mul scorer.getWeight (state.getProbs.get b 0 s v)))
    else
      F32.add total (state.getProbs.get b 0 s v) ::
        addScoresResults scorers states b s v (F32.add total (state.getProbs.get b 0 s v))
  | _, _, _, _, _, _ => []

/-- A `float` that is a number of magnitude at most `M`. -/
def F32.within (M : ℚ) (x : F32) : Bool := x.isFinite && decide (|x.toRat| ≤ M)

/-- The rounding allowance of one `float` result of magnitude at most `M`: half
a unit in the last place, `2 ^ (-24)` of the magnitude or `2 ^ (-150)` in the
subnormal range. -/
def F32.allowance (M : ℚ) : ℚ := M / 2 ^ 24 + 1 / 2 ^ 150

/-- For rank `i` of sentence `j`: every product and running total that the
scorers compute for the selected candidate, starting from the cost of the
hypothesis in the selected slot, is a number of magnitude at most `M`. -/
def rankBounded (M : ℚ) (bs : BeamSearch) (env : Collaborators) (batch : Batch)
    (s : SearchState) (V j : Nat) (beam : Beam) (i : Nat) : Bool :=
  match (selectStep bs env batch s).2.1.2[i]? with
  | some key =>
    match beam[key / V % effectiveSlots s]? with
    | some parent =>
      (addScoresResults bs.scorers (steppedCosts bs batch s).1 (key / V % effectiveSlots s) j
        (key % V) parent.GetCost).all (F32.within M)
    | none => true
  | none => true

/-- No overflow in a pass of `search` that starts in state `s`: the `float`s
computed for the accepted ranks and the breakdown entries of the new
hypotheses are numbers of magnitude at most `M`. -/
def PassBounded (M : ℚ) (bs : BeamSearch) (env : Collaborators) (batch : Batch)
    (s : SearchState) (V : Nat) : Prop :=
  (∀ (j : Nat) (beam : Beam), s.beams[j]? = some beam →
    ∀ i ∈ accepted s.localBeamSize (selectStep bs env batch s).2.1.2.length j beam.length,
      rankBounded M bs env batch s V j beam i = true) ∧
  ∀ nb, unprunedBeams bs env batch s = some nb → ∀ beam ∈ nb, ∀ hyp ∈ beam,
    ∀ x ∈ hyp.GetCostBreakdown, F32.within M x = true


/-- Sample table for a sum that is rounded: token 0 scores `-(2 ^ 24)`, every
other token `-(2 ^ 25)`. -/
def bigTable : Nat → Nat → Nat → Int := fun _ _ v => if v = 0 then -16777216 else -33554432

/-- Sample table: token 0 scores `-1`, every other token `-2`. -/
def unitTable : Nat → Nat → Nat → Int := fun _ _ v => if v = 0 then -1 else -2

/-- Sample search with n-best output and two scorers of weight 1 over 2 tokens,
the first with `bigTable`, the second with `unitTable`. -/
def roundingSearch : BeamSearch :=
  BeamSearch.new (sampleOptions 1 3 true)
    [sampleScorer 1 2 bigTable, sampleScorer 1 2 unitTable] 1 noWord

/-- The beams that `toHyps` returns in the first pass of `roundingSearch`. -/
def roundingFirstBeams : Beams :=
  (unprunedBeams roundingSearch sampleEnv padBatch
    ((stateBefore roundingSearch sampleEnv padBatch 0).getD emptyState)).getD []

/-- The first hypothesis of sentence 0 among `roundingFirstBeams`. -/
def roundingChild : Hypothesis :=
  ((roundingFirstBeams[0]?.getD [])[0]?).getD sampleEnv.newHypothesis

/-! ## Invariants of `search` -/

/-- State of the history loop after the sentences `0 .. n-1`, when the cap test
gives the same answer `c` for every sentence with a non-empty beam. -/
structure HistInv (trgEosId : Nat) (c : Bool) (beams prunedBeams : Beams)
    (hs0 : List History) (n : Nat) (st : Bool × List History) : Prop where
  len : st.2.length = hs0.length
  fin_imp : st.1 = true → c = true
  fin_of : c = true → (∃ i beam, i < n ∧ beams[i]? = some beam ∧ beam ≠ []) → st.1 = true
  fin_only : st.1 = true → ∃ i beam, i < n ∧ beams[i]? = some beam ∧ beam ≠ []
  hist : ∀ i beam hist pb, beams[i]? = some beam → hs0[i]? = some hist →
    prunedBeams[i]? = some pb →
    st.2[i]? = some (if i < n ∧ 0 < beam.length then hist.Add beam trgEosId (pb.isEmpty || c)
      else hist)

/-- Invariant of the `do` loop of `search` at the start of pass `n`. -/
structure LoopInv (bs : BeamSearch) (batch : Batch) (n : Nat) (s : SearchState) : Prop where
  final : s.final = false
  first : s.first = decide (n = 0)
  lenB : s.beams.length = batch.size
  lenH : s.histories.length = batch.size
  width : ∀ beam ∈ s.beams, beam.length ≤ bs.beamSize
  active : ∀ (i : Nat) (hist : History) (beam : Beam), s.histories[i]? = some hist →
    s.beams[i]? = some beam → beam ≠ [] →
    hist.size = n + 1 ∧ ∀ snap ∈ hist.snapshots, snap.2 = false
  lbs1 : n ≤ 1 → s.localBeamSize = bs.beamSize
  lbs2 : 2 ≤ n → s.localBeamSize = maxBeamSize s.beams
  cap : ∀ beam ∈ s.beams, beam ≠ [] → 1 ≤ n →
    capReached bs.options.maxLengthFactor batch.batchWidth n = false

/-! ## Theorems -/

/-! ### Rounding to `float` -/

theorem F32.pow2_eq (e : Int) : F32.pow2 e = (2 : ℚ) ^ e := by
  unfold F32.pow2
  split
  · rename_i h
    rw [Nat.cast_pow, Nat.cast_ofNat, ← zpow_natCast, Int.toNat_of_nonneg h]
  · rename_i h
    have h1 : 0 ≤ -e := by omega
    rw [Nat.cast_pow, Nat.cast_ofNat, one_div, ← zpow_natCast, Int.toNat_of_nonneg h1, zpow_neg,
      inv_inv]

theorem F32.pow2_pos (e : Int) : 0 < F32.pow2 e := by
  rw [F32.pow2_eq]
  exact zpow_pos (by norm_num) e

theorem F32.pow2_le_pow2 (e1 e2 : Int) (h : e1 ≤ e2) : F32.pow2 e1 ≤ F32.pow2 e2 := by
  rw [F32.pow2_eq, F32.pow2_eq]
  exact zpow_le_zpow_right₀ (by norm_num) h

theorem F32.pow2_add (e1 e2 : Int) : F32.pow2 (e1 + e2) = F32.pow2 e1 * F32.pow2 e2 := by
  rw [F32.pow2_eq, F32.pow2_eq, F32.pow2_eq]
  exact zpow_add₀ (by norm_num) e1 e2

theorem F32.expoSearch_spec (a : ℚ) (fuel : Nat) (lo hi : Int)
    (hlo : lo = -126 ∨ F32.pow2 lo ≤ a) (hhi : a < F32.pow2 hi) (hle : lo ≤ hi)
    (h126 : -126 ≤ lo) (hw : hi - lo ≤ ((2 ^ fuel : Nat) : Int)) :
    -126 ≤ F32.expoSearch a fuel lo hi ∧
    (F32.expoSearch a fuel lo hi = -126 ∨ F32.pow2 (F32.expoSearch a fuel lo hi) ≤ a) ∧
    a < F32.pow2 (F32.expoSearch a fuel lo hi + 1) := by
  induction fuel generalizing lo hi with
  | zero =>
    simp only [F32.expoSearch]
    refine ⟨h126, hlo, lt_of_lt_of_le hhi (F32.pow2_le_pow2 _ _ ?_)⟩
    simp only [pow_zero, Nat.cast_one] at hw
    omega
  | succ fuel ih =>
    simp only [F32.expoSearch]
    have hp : ((2 ^ (fuel + 1) : Nat) : Int) = 2 * ((2 ^ fuel : Nat) : Int) := by
      rw [pow_succ]; push_cast; ring
    rw [hp] at hw
    split
    · rename_i hm
      exact ih ((lo + hi) / 2) hi (Or.inr hm) hhi (by omega) (by omega) (by omega)
    · rename_i hm
      exact ih lo ((lo + hi) / 2) hlo (lt_of_not_le hm) (by omega) h126 (by omega)

/-- The exponent of a positive number below `2 ^ 128`. -/
theorem F32.expo_spec (a : ℚ) (h : a < F32.pow2 128) :
    -126 ≤ F32.expo a ∧ (F32.expo a = -126 ∨ F32.pow2 (F32.expo a) ≤ a) ∧
    a < F32.pow2 (F32.expo a + 1) :=
  F32.expoSearch_spec a 8 (-126) 128 (Or.inl rfl) h (by decide) (le_refl _) (by decide)

theorem F32.expo_mono (a b : ℚ) (hab : a ≤ b) (hb : b < F32.pow2 128) :
    F32.expo a ≤ F32.expo b := by
  obtain ⟨a1, a2, _⟩ := F32.expo_spec a (lt_of_le_of_lt hab hb)
  obtain ⟨_, _, b3⟩ := F32.expo_spec b hb
  by_contra hlt
  have hlt : F32.expo b + 1 ≤ F32.expo a := by omega
  rcases a2 with a2 | a2
  · omega
  · have := F32.pow2_le_pow2 _ _ hlt
    linarith

theorem F32.roundHalfEven_le (y : ℚ) (N : Int) (h : y ≤ N) : F32.roundHalfEven y ≤ N := by
  have h1 := Int.floor_le y
  have hf : ⌊y⌋ ≤ N := by exact_mod_cast le_trans h1 h
  unfold F32.roundHalfEven
  have hstep : 0 < y - ⌊y⌋ → ⌊y⌋ + 1 ≤ N := by
    intro hpos
    have : (⌊y⌋ : ℚ) < N := by linarith
    have : ⌊y⌋ < N := by exact_mod_cast this
    omega
  split
  · exact hf
  · rename_i hlt
    have hpos : 0 < y - ⌊y⌋ := by linarith
    split
    · exact hstep hpos
    · split
      · exact hf
      · exact hstep hpos

theorem F32.le_roundHalfEven (y : ℚ) (N : Int) (h : (N : ℚ) ≤ y) : N ≤ F32.roundHalfEven y := by
  have h2 := Int.lt_floor_add_one y
  have hf : N ≤ ⌊y⌋ := by
    have : (N : ℚ) < ((⌊y⌋ + 1 : Int) : ℚ) := by push_cast; linarith
    have : N < ⌊y⌋ + 1 := by exact_mod_cast this
    omega
  unfold F32.roundHalfEven
  split
  · exact hf
  · split
    · omega
    · split
      · exact hf
      · omega

theorem F32.roundHalfEven_mono (y z : ℚ) (h : y ≤ z) :
    F32.roundHalfEven y ≤ F32.roundHalfEven z := by
  have hf : ⌊y⌋ ≤ ⌊z⌋ := Int.floor_mono h
  rcases lt_or_eq_of_le hf with hlt | heq
  · have h1 : F32.roundHalfEven y ≤ ⌊y⌋ + 1 := by
      apply F32.roundHalfEven_le
      push_cast
      exact le_of_lt (Int.lt_floor_add_one y)
    have h2 : ⌊z⌋ ≤ F32.roundHalfEven z := F32.le_roundHalfEven z _ (Int.floor_le z)
    omega
  · unfold F32.roundHalfEven
    rw [← heq]
    split_ifs <;> first | omega | (exfalso; linarith)

theorem F32.roundHalfEven_sub_abs (y : ℚ) : |(F32.roundHalfEven y : ℚ) - y| ≤ 1 / 2 := by
  have h1 := Int.floor_le y
  have h2 := Int.lt_floor_add_one y
  unfold F32.roundHalfEven
  rw [abs_le]
  split_ifs <;> push_cast <;> constructor <;> linarith

theorem F32.roundHalfEven_intCast (n : Int) : F32.roundHalfEven (n : ℚ) = n := by
  unfold F32.roundHalfEven
  simp

theorem F32.roundMag_le (a : ℚ) (N : Int) (h : a ≤ N * F32.pow2 (F32.expo a - 23)) :
    F32.roundMag a ≤ N * F32.pow2 (F32.expo a - 23) := by
  have hu := F32.pow2_pos (F32.expo a - 23)
  unfold F32.roundMag
  apply mul_le_mul_of_nonneg_right _ (le_of_lt hu)
  have : F32.roundHalfEven (a / F32.pow2 (F32.expo a - 23)) ≤ N :=
    F32.roundHalfEven_le _ _ ((div_le_iff₀ hu).mpr h)
  exact_mod_cast this

theorem F32.le_roundMag (a : ℚ) (N : Int) (h : N * F32.pow2 (F32.expo a - 23) ≤ a) :
    N * F32.pow2 (F32.expo a - 23) ≤ F32.roundMag a := by
  have hu := F32.pow2_pos (F32.expo a - 23)
  unfold F32.roundMag
  apply mul_le_mul_of_nonneg_right _ (le_of_lt hu)
  have : N ≤ F32.roundHalfEven (a / F32.pow2 (F32.expo a - 23)) :=
    F32.le_roundHalfEven _ _ ((le_div_iff₀ hu).mpr h)
  exact_mod_cast this

theorem F32.pow2_split (e : Int) (k : Nat) :
    F32.pow2 (e - 23 + k) = ((2 ^ k : Nat) : Int) * F32.pow2 (e - 23) := by
  rw [F32.pow2_add, mul_comm]
  congr 1

theorem F32.roundMag_nonneg (a : ℚ) (h : 0 ≤ a) : 0 ≤ F32.roundMag a := by
  have := F32.le_roundMag a 0 (by simpa using h)
  simpa using this

theorem F32.roundMag_le_pow2 (a : ℚ) (h : a < F32.pow2 128) :
    F32.roundMag a ≤ F32.pow2 (F32.expo a + 1) := by
  obtain ⟨_, _, h3⟩ := F32.expo_spec a h
  have e : F32.expo a + 1 = F32.expo a - 23 + (24 : Nat) := by push_cast; ring
  rw [e, F32.pow2_split] at h3 ⊢
  exact F32.roundMag_le a _ (le_of_lt h3)

theorem F32.pow2_le_roundMag (a : ℚ) (h : F32.pow2 (F32.expo a) ≤ a) :
    F32.pow2 (F32.expo a) ≤ F32.roundMag a := by
  have e : F32.expo a = F32.expo a - 23 + (23 : Nat) := by push_cast; ring
  rw [e, F32.pow2_split] at h ⊢
  exact F32.le_roundMag a _ h

theorem F32.roundMag_mono (a b : ℚ) (hab : a ≤ b) (hb : b < F32.pow2 128) :
    F32.roundMag a ≤ F32.roundMag b := by
  have ha : a < F32.pow2 128 := lt_of_le_of_lt hab hb
  have he := F32.expo_mono a b hab hb
  rcases lt_or_eq_of_le he with hlt | heq
  · obtain ⟨b1, b2, _⟩ := F32.expo_spec b hb
    obtain ⟨a1, _, _⟩ := F32.expo_spec a ha
    have hb2 : F32.pow2 (F32.expo b) ≤ b := by
      rcases b2 with b2 | b2
      · omega
      · exact b2
    calc F32.roundMag a ≤ F32.pow2 (F32.expo a + 1) := F32.roundMag_le_pow2 a ha
      _ ≤ F32.pow2 (F32.expo b) := F32.pow2_le_pow2 _ _ (by omega)
      _ ≤ F32.roundMag b := F32.pow2_le_roundMag b hb2
  · have hu := F32.pow2_pos (F32.expo b - 23)
    unfold F32.roundMag
    rw [heq]
    apply mul_le_mul_of_nonneg_right _ (le_of_lt hu)
    have := F32.roundHalfEven_mono (a / F32.pow2 (F32.expo b - 23))
      (b / F32.pow2 (F32.expo b - 23)) (div_le_div_of_nonneg_right hab (le_of_lt hu))
    exact_mod_cast this

theorem F32.round_of_nonneg (y : ℚ) (hy : 0 ≤ y) :
    F32.round y = F32.pinf ∨ ∃ r, F32.round y = F32.fin r ∧ 0 ≤ r := by
  unfold F32.round
  split
  · split
    · exact Or.inr ⟨_, rfl, F32.roundMag_nonneg y hy⟩
    · exact Or.inl rfl
  · rw [if_neg (by linarith)]
    exact Or.inr ⟨0, rfl, le_refl _⟩

theorem F32.round_of_nonpos (x : ℚ) (hx : x ≤ 0) :
    F32.round x = F32.ninf ∨ ∃ r, F32.round x = F32.fin r ∧ r ≤ 0 := by
  unfold F32.round
  rw [if_neg (by linarith)]
  split
  · split
    · refine Or.inr ⟨_, rfl, ?_⟩
      have := F32.roundMag_nonneg (-x) (by linarith)
      linarith
    · exact Or.inl rfl
  · exact Or.inr ⟨0, rfl, le_refl _⟩

/-- Rounding is monotone below a non-negative number: the rounded value of a
number that is not greater does not compare greater. -/
theorem F32.round_ge_round (x y : ℚ) (hxy : x ≤ y) (hy : 0 ≤ y) :
    F32.ge (F32.round y) (F32.round x) = true := by
  by_cases hx : 0 < x
  · have hy0 : 0 < y := lt_of_lt_of_le hx hxy
    unfold F32.round
    rw [if_pos hx, if_pos hy0]
    by_cases hyb : y < F32.pow2 128 ∧ F32.roundMag y < F32.pow2 128
    · have hmono := F32.roundMag_mono x y hxy hyb.1
      rw [if_pos hyb, if_pos ⟨lt_of_le_of_lt hxy hyb.1, lt_of_le_of_lt hmono hyb.2⟩]
      simpa [F32.ge] using hmono
    · rw [if_neg hyb]
      split <;> rfl
  · have hx0 : x ≤ 0 := le_of_not_lt hx
    rcases F32.round_of_nonneg y hy with h1 | ⟨r, h1, hr⟩ <;>
      rcases F32.round_of_nonpos x hx0 with h2 | ⟨t, h2, ht⟩ <;> rw [h1, h2]
    · rfl
    · rfl
    · rfl
    · simp only [F32.ge, decide_eq_true_eq]
      linarith

/-- Integers up to `2 ^ 24` are `float`s: the conversion is exact. -/
theorem F32.ofNat_exact (n : Nat) (h : n ≤ 2 ^ 24) : F32.ofNat n = F32.fin n := by
  unfold F32.ofNat F32.round
  by_cases h0 : n = 0
  · subst h0
    simp
  have hpos : (0 : ℚ) < n := by exact_mod_cast Nat.pos_of_ne_zero h0
  have hle : (n : ℚ) ≤ F32.pow2 24 := by
    rw [F32.pow2_eq]
    have : (n : ℚ) ≤ (2 : ℚ) ^ (24 : ℕ) := by exact_mod_cast h
    exact_mod_cast this
  have hlt : (n : ℚ) < F32.pow2 128 :=
    lt_of_le_of_lt hle (by rw [F32.pow2_eq, F32.pow2_eq]; norm_num)
  obtain ⟨e1, e2, e3⟩ := F32.expo_spec n hlt
  have hu := F32.pow2_pos (F32.expo n - 23)
  have he24 : F32.expo n ≤ 24 := by
    rcases e2 with e2 | e2
    · omega
    · by_contra hc
      have h25 := F32.pow2_le_pow2 25 (F32.expo n) (by omega)
      have : F32.pow2 24 < F32.pow2 25 := by rw [F32.pow2_eq, F32.pow2_eq]; norm_num
      linarith
  have hint : ∃ m : Int, (n : ℚ) / F32.pow2 (F32.expo n - 23) = m := by
    by_cases he : F32.expo n ≤ 23
    · refine ⟨(n : Int) * ((2 ^ (23 - F32.expo n).toNat : Nat) : Int), ?_⟩
      have h1 : F32.pow2 (F32.expo n - 23) * F32.pow2 (23 - F32.expo n) = 1 := by
        rw [← F32.pow2_add, F32.pow2_eq]
        simp
      have h2 : F32.pow2 (23 - F32.expo n) = ((2 ^ (23 - F32.expo n).toNat : Nat) : ℚ) := by
        unfold F32.pow2
        rw [if_pos (by omega)]
      rw [div_eq_iff (ne_of_gt hu)]
      push_cast at h2 ⊢
      rw [← h2, mul_assoc, mul_comm (F32.pow2 (23 - F32.expo n)), h1, mul_one]
    · have he' : F32.expo n = 24 := by omega
      refine ⟨((2 ^ 23 : Nat) : Int), ?_⟩
      have hn : (n : ℚ) = F32.pow2 24 := by
        rcases e2 with e2 | e2
        · omega
        · rw [he'] at e2
          exact le_antisymm hle e2
      rw [he', hn, div_eq_iff (by rw [F32.pow2_eq]; norm_num), F32.pow2_eq, F32.pow2_eq]
      norm_num
  have hexact : F32.roundMag n = n := by
    obtain ⟨m, hm⟩ := hint
    unfold F32.roundMag
    rw [hm, F32.roundHalfEven_intCast, ← hm, div_mul_cancel₀ _ (ne_of_gt hu)]
  rw [if_pos hpos, hexact, if_pos ⟨hlt, hlt⟩]

/-- The cap test of line 229 is positive once the history length has reached
the exact product of the factor and the converted batch width. -/
theorem capReached_of_le (q wq : ℚ) (w n : Nat) (hw : F32.ofNat w = F32.fin wq)
    (h : q * wq ≤ n) : capReached (F32.fin q) w n = true := by
  unfold capReached
  rw [hw]
  exact F32.round_ge_round (q * wq) n h (Nat.cast_nonneg n)

theorem F32.roundMag_error (a : ℚ) (ha : 0 ≤ a) (h : a < F32.pow2 128) :
    |F32.roundMag a - a| ≤ F32.roundMag a / 2 ^ 24 + 1 / 2 ^ 150 := by
  obtain ⟨e1, e2, _⟩ := F32.expo_spec a h
  have hu := F32.pow2_pos (F32.expo a - 23)
  have hhalf : |F32.roundMag a - a| ≤ F32.pow2 (F32.expo a - 23) / 2 := by
    have hr := F32.roundHalfEven_sub_abs (a / F32.pow2 (F32.expo a - 23))
    have hmul : F32.roundMag a - a
        = ((F32.roundHalfEven (a / F32.pow2 (F32.expo a - 23)) : ℚ)
            - a / F32.pow2 (F32.expo a - 23)) * F32.pow2 (F32.expo a - 23) := by
      unfold F32.roundMag
      rw [sub_mul, div_mul_cancel₀ _ (ne_of_gt hu)]
    rw [hmul, abs_mul, abs_of_pos hu]
    calc |(F32.roundHalfEven (a / F32.pow2 (F32.expo a - 23)) : ℚ)
            - a / F32.pow2 (F32.expo a - 23)| * F32.pow2 (F32.expo a - 23)
        ≤ 1 / 2 * F32.pow2 (F32.expo a - 23) :=
          mul_le_mul_of_nonneg_right hr (le_of_lt hu)
      _ = F32.pow2 (F32.expo a - 23) / 2 := by ring
  by_cases hsub : F32.expo a = -126
  · have hnn : 0 ≤ F32.roundMag a := F32.roundMag_nonneg a ha
    rw [hsub] at hhalf
    have hval : F32.pow2 (-126 - 23) / 2 = 1 / 2 ^ 150 := by
      rw [F32.pow2_eq]
      norm_num
    rw [hval] at hhalf
    have : 0 ≤ F32.roundMag a / 2 ^ 24 := div_nonneg hnn (by positivity)
    linarith
  · have hp : F32.pow2 (F32.expo a) ≤ a := by
      rcases e2 with e2 | e2
      · exact absurd e2 hsub
      · exact e2
    have hrm := F32.pow2_le_roundMag a hp
    have hsplit : F32.pow2 (F32.expo a) = 2 ^ 23 * F32.pow2 (F32.expo a - 23) := by
      have e : F32.expo a = F32.expo a - 23 + (23 : Nat) := by push_cast; ring
      conv_lhs => rw [e, F32.pow2_split]
      push_cast
      rfl
    have : F32.pow2 (F32.expo a - 23) / 2 ≤ F32.roundMag a / 2 ^ 24 := by
      rw [hsplit] at hrm
      have e : F32.pow2 (F32.expo a - 23) / 2
          = 2 ^ 23 * F32.pow2 (F32.expo a - 23) / 2 ^ 24 := by ring
      rw [e]
      exact div_le_div_of_nonneg_right hrm (by positivity)
    have h150 : (0 : ℚ) ≤ 1 / 2 ^ 150 := by positivity
    linarith

/-- A finite result of rounding differs from the exact number by at most half a
unit in the last place: `2 ^ (-24)` of its magnitude, or `2 ^ (-150)` in the
subnormal range. -/
theorem F32.round_error (x r : ℚ) (h : F32.round x = F32.fin r) :
    |r - x| ≤ |r| / 2 ^ 24 + 1 / 2 ^ 150 := by
  unfold F32.round at h
  by_cases hpos : 0 < x
  · rw [if_pos hpos] at h
    split at h
    · rename_i hc
      injection h with h
      subst h
      rw [abs_of_nonneg (F32.roundMag_nonneg x (le_of_lt hpos))]
      exact F32.roundMag_error x (le_of_lt hpos) hc.1
    · exact absurd h (by simp)
  · rw [if_neg hpos] at h
    by_cases hneg : x < 0
    · rw [if_pos hneg] at h
      split at h
      · rename_i hc
        injection h with h
        subst h
        have hnn := F32.roundMag_nonneg (-x) (by linarith)
        have := F32.roundMag_error (-x) (by linarith) hc.1
        rw [abs_neg, abs_of_nonneg hnn]
        have e : -F32.roundMag (-x) - x = -(F32.roundMag (-x) - -x) := by ring
        rw [e, abs_neg]
        exact this
      · exact absurd h (by simp)
    · rw [if_neg hneg] at h
      injection h with h
      subst h
      have hx : x = 0 := le_antisymm (le_of_not_lt hpos) (le_of_not_lt hneg)
      subst hx
      simp

theorem F32.add_eq_fin (a b : F32) (r : ℚ) (h : F32.add a b = F32.fin r) :
    ∃ x y, a = F32.fin x ∧ b = F32.fin y ∧ F32.round (x + y) = F32.fin r := by
  cases a <;> cases b <;> simp only [F32.add, reduceCtorEq] at h
  exact ⟨_, _, rfl, rfl, h⟩

theorem F32.mul_eq_fin (a b : F32) (r : ℚ) (h : F32.mul a b = F32.fin r) :
    ∃ x y, a = F32.fin x ∧ b = F32.fin y ∧ F32.round (x * y) = F32.fin r := by
  cases a <;> cases b <;> simp only [F32.mul, reduceCtorEq] at h
  · exact ⟨_, _, rfl, rfl, h⟩
  all_goals (split at h <;> try split at h) <;> exact absurd h (by simp)

theorem F32.expo_unique (a : ℚ) (k : Int) (h : a < F32.pow2 128) (hk : -126 ≤ k)
    (hlo : k = -126 ∨ F32.pow2 k ≤ a) (hhi : a < F32.pow2 (k + 1)) : F32.expo a = k := by
  obtain ⟨a1, a2, a3⟩ := F32.expo_spec a h
  rcases lt_trichotomy (F32.expo a) k with hlt | heq | hgt
  · exfalso
    rcases hlo with hlo | hlo
    · omega
    · have := F32.pow2_le_pow2 (F32.expo a + 1) k (by omega)
      linarith
  · exact heq
  · exfalso
    rcases a2 with a2 | a2
    · omega
    · have := F32.pow2_le_pow2 (k + 1) (F32.expo a) (by omega)
      linarith

theorem F32.roundMag_of_scaled (r : ℚ) (m k : Int) (hr : r = (m : ℚ) * F32.pow2 (k - 23))
    (he : F32.expo r = k) : F32.roundMag r = r := by
  have hu := F32.pow2_pos (k - 23)
  have hdef : F32.roundMag r
      = ((F32.roundHalfEven (r / F32.pow2 (F32.expo r - 23)) : Int) : ℚ)
        * F32.pow2 (F32.expo r - 23) := rfl
  rw [hdef, he]
  have hq : r / F32.pow2 (k - 23) = (m : ℚ) := by
    rw [hr, mul_div_assoc, div_self (ne_of_gt hu), mul_one]
  rw [hq, F32.roundHalfEven_intCast, ← hr]

/-- Rounding a magnitude twice is rounding it once. -/
theorem F32.roundMag_idem (a : ℚ) (h : a < F32.pow2 128)
    (hr : F32.roundMag a < F32.pow2 128) : F32.roundMag (F32.roundMag a) = F32.roundMag a := by
  obtain ⟨a1, a2, a3⟩ := F32.expo_spec a h
  have hup := F32.roundMag_le_pow2 a h
  have hlow : F32.expo a = -126 ∨ F32.pow2 (F32.expo a) ≤ F32.roundMag a := by
    rcases a2 with a2 | a2
    · exact Or.inl a2
    · exact Or.inr (F32.pow2_le_roundMag a a2)
  rcases lt_or_eq_of_le hup with hlt | heq
  · exact F32.roundMag_of_scaled _ _ _ rfl (F32.expo_unique _ _ hr a1 hlow hlt)
  · have he : F32.expo (F32.roundMag a) = F32.expo a + 1 := by
      apply F32.expo_unique _ _ hr (by omega) (Or.inr (le_of_eq heq.symm))
      rw [heq]
      have := F32.pow2_add (F32.expo a + 1) 1
      have h1 : F32.pow2 1 = 2 := by rw [F32.pow2_eq]; norm_num
      rw [h1] at this
      rw [this]
      linarith [F32.pow2_pos (F32.expo a + 1)]
    have e : F32.expo a + 1 = F32.expo a + 1 - 23 + (23 : Nat) := by push_cast; ring
    have hsplit : F32.pow2 (F32.expo a + 1)
        = (((2 ^ 23 : Nat) : Int) : ℚ) * F32.pow2 (F32.expo a + 1 - 23) := by
      conv_lhs => rw [e]
      exact F32.pow2_split (F32.expo a + 1) 23
    exact F32.roundMag_of_scaled _ _ _ (heq.trans hsplit) he

/-- Rounding returns a `float` proper: rounding it again leaves it unchanged. -/
theorem F32.round_isValue (q : ℚ) : (F32.round q).IsValue := by
  have key : ∀ a : ℚ, 0 < a → a < F32.pow2 128 → F32.roundMag a < F32.pow2 128 →
      F32.round (F32.roundMag a) = F32.fin (F32.roundMag a) ∧
      F32.round (-F32.roundMag a) = F32.fin (-F32.roundMag a) := by
    intro a ha h hr
    have h0 := F32.roundMag_nonneg a (le_of_lt ha)
    have hid := F32.roundMag_idem a h hr
    rcases lt_or_eq_of_le h0 with hpos | hz
    · constructor
      · unfold F32.round
        rw [if_pos hpos, if_pos ⟨hr, by rw [hid]; exact hr⟩, hid]
      · unfold F32.round
        rw [if_neg (by linarith), if_pos (by linarith), neg_neg,
          if_pos ⟨hr, by rw [hid]; exact hr⟩, hid]
    · rw [← hz]
      constructor
      · unfold F32.round
        simp
      · unfold F32.round
        simp
  unfold F32.round
  split
  · rename_i hq
    split
    · rename_i hc
      exact (key q hq hc.1 hc.2).1
    · trivial
  · split
    · rename_i hq
      split
      · rename_i hc
        exact (key (-q) (by linarith) hc.1 hc.2).2
      · trivial
    · show F32.round 0 = F32.fin 0
      unfold F32.round
      simp

/-- Sums and products of the model are `float`s proper. -/
theorem F32.add_isValue (a b : F32) : (F32.add a b).IsValue := by
  cases a <;> cases b <;> simp only [F32.add] <;>
    first | exact F32.round_isValue _ | trivial

theorem F32.mul_isValue (a b : F32) : (F32.mul a b).IsValue := by
  cases a <;> cases b <;> simp only [F32.mul] <;>
    first | exact F32.round_isValue _ | trivial | (split <;> first | trivial | (split <;> trivial))

/-! ### `pruneBeam` -/

theorem foldl_push_filter (p : Hypothesis → Bool) (beam acc : Beam) :
    beam.foldl (fun nb hyp => if p hyp then nb ++ [hyp] else nb) acc = acc ++ beam.filter p := by
  induction beam generalizing acc with
  | nil => simp
  | cons h t ih =>
    simp only [List.foldl_cons, List.filter_cons]
    by_cases hp : p h = true
    · simp [hp, ih]
    · simp [hp, ih]

theorem pruneOne_eq_filter (trgEosId : Nat) (beam : Beam) :
    pruneOne trgEosId beam = beam.filter (fun h => decide (h.GetWord ≠ trgEosId)) := by
  have h := foldl_push_filter (fun h => decide (h.GetWord ≠ trgEosId)) beam []
  simp only [decide_eq_true_eq, List.nil_append] at h
  simpa [pruneOne] using h

theorem foldl_push_map {α β : Type} (f : α → β) (l : List α) (acc : List β) :
    l.foldl (fun nb x => nb ++ [f x]) acc = acc ++ l.map f := by
  induction l generalizing acc with
  | nil => simp
  | cons h t ih => simp [ih]

theorem pruneBeam_eq_map (trgEosId : Nat) (beams : Beams) :
    pruneBeam trgEosId beams = beams.map (pruneOne trgEosId) := by
  simpa [pruneBeam] using foldl_push_map (pruneOne trgEosId) beams []

/-- C1: `pruneBeam` keeps the number and the order of the beams; output beam `j`
is input beam `j` filtered to the hypotheses whose token differs from the
end-of-sequence id (a filter keeps the relative order), and a beam consisting of
end-of-sequence hypotheses only is kept as an empty beam. -/
theorem pruneBeam_spec (trgEosId : Nat) (beams : Beams) :
    (pruneBeam trgEosId beams).length = beams.length ∧
    pruneBeam trgEosId beams
      = beams.map (fun beam => beam.filter (fun h => decide (h.GetWord ≠ trgEosId))) ∧
    (∀ j (hj : j < beams.length) (hj2 : j < (pruneBeam trgEosId beams).length),
      (pruneBeam trgEosId beams)[j]
          = (beams[j]).filter (fun h => decide (h.GetWord ≠ trgEosId)) ∧
      List.Sublist ((pruneBeam trgEosId beams)[j]) (beams[j]) ∧
      ((∀ h ∈ beams[j], h.GetWord = trgEosId) → (pruneBeam trgEosId beams)[j] = [])) := by
  have hmap : pruneBeam trgEosId beams
      = beams.map (fun beam => beam.filter (fun h => decide (h.GetWord ≠ trgEosId))) := by
    rw [pruneBeam_eq_map]
    exact List.map_congr_left (fun b _ => pruneOne_eq_filter trgEosId b)
  refine ⟨by simp [hmap], hmap, ?_⟩
  intro j hj hj2
  have hget : (pruneBeam trgEosId beams)[j]
      = (beams[j]).filter (fun h => decide (h.GetWord ≠ trgEosId)) := by
    simp [hmap]
  refine ⟨hget, ?_, ?_⟩
  · rw [hget]; exact List.filter_sublist _
  · intro hall
    rw [hget, List.filter_eq_nil_iff]
    intro h hm
    simp [hall h hm]

/-! ### The loop of `toHyps` -/

theorem resize_length (l : List F32) (n : Nat) : (resize l n).length = n := by
  simp [resize]; omega

theorem resize_resize (l : List F32) (n : Nat) : resize (resize l n) n = resize l n := by
  have h := resize_length l n
  unfold resize at h ⊢
  rw [h, Nat.sub_self, List.replicate_zero, List.append_nil]
  rw [List.take_of_length_le (by omega)]

theorem touch_touch (nBest : Bool) (n : Nat) (h : Hypothesis) :
    touch nBest n (touch nBest n h) = touch nBest n h := by
  cases h with
  | mk p w i c b =>
    cases nBest <;> simp [touch, Hypothesis.resizeBreakdown, resize_resize]

theorem forall₂_getElem? {α β : Type} {R : α → β → Prop} {l : List α} {l' : List β}
    (h : List.Forall₂ R l l') (i : Nat) (a : α) (ha : l[i]? = some a) :
    ∃ b, l'[i]? = some b ∧ R a b := by
  induction h generalizing i with
  | nil => simp at ha
  | cons hab _ ih =>
    cases i with
    | zero => simp at ha; subst ha; exact ⟨_, by simp, hab⟩
    | succ i => simp at ha; simpa using ih i ha

theorem forall₂_getElem?_right {α β : Type} {R : α → β → Prop} {l : List α} {l' : List β}
    (h : List.Forall₂ R l l') (i : Nat) (b : β) (hb : l'[i]? = some b) :
    ∃ a, l[i]? = some a ∧ R a b := by
  induction h generalizing i with
  | nil => simp at hb
  | cons hab _ ih =>
    cases i with
    | zero => simp at hb; subst hb; exact ⟨_, by simp, hab⟩
    | succ i => simp at hb; simpa using ih i hb

theorem forall₂_set_right {α β : Type} {R : α → β → Prop} {l : List α} {l' : List β}
    (h : List.Forall₂ R l l') (i : Nat) (a : α) (b : β) (ha : l[i]? = some a) (hab : R a b) :
    List.Forall₂ R l (l'.set i b) := by
  induction h generalizing i with
  | nil => simp at ha
  | cons hxy hrest ih =>
    cases i with
    | zero => simp at ha; subst ha; exact List.Forall₂.cons hab hrest
    | succ i => simp at ha; exact List.Forall₂.cons hxy (ih i ha)

theorem accepted_succ_other (beamSize n j len : Nat) (h : n / beamSize ≠ j) :
    accepted beamSize (n + 1) j len = accepted beamSize n j len := by
  simp [accepted, List.range_succ, List.filter_append, h]

theorem accepted_length_le (beamSize n j len : Nat) : (accepted beamSize n j len).length ≤ len := by
  simp [accepted]

theorem accepted_succ_full (beamSize n len : Nat)
    (h : len ≤ (accepted beamSize n (n / beamSize) len).length) :
    accepted beamSize (n + 1) (n / beamSize) len = accepted beamSize n (n / beamSize) len := by
  simp only [accepted, List.length_take] at h ⊢
  simp only [List.range_succ, List.filter_append]
  rw [List.take_append_of_le_length (by omega)]

theorem accepted_succ_push (beamSize n len : Nat)
    (h : (accepted beamSize n (n / beamSize) len).length < len) :
    accepted beamSize (n + 1) (n / beamSize) len
      = accepted beamSize n (n / beamSize) len ++ [n] := by
  simp only [accepted, List.length_take] at h ⊢
  simp only [List.range_succ, List.filter_append]
  have h1 : ((List.range n).filter (fun i => decide (i / beamSize = n / beamSize))).length < len := by
    omega
  rw [List.take_of_length_le (by simp; omega), List.take_of_length_le (by omega)]
  simp

theorem toHypsInv_init (shortlist : Option (Nat → Nat)) (nBest : Bool) (keys : List Nat)
    (costs : List F32) (vocabSize : Nat) (beams : Beams) (states : List ScorerState)
    (beamSize : Nat) (first : Bool) :
    ToHypsInv shortlist nBest keys costs vocabSize beams states beamSize first 0
      (beams, List.replicate beams.length []) := by
  refine ⟨?_, by simp, ?_⟩
  · exact List.forall₂_same.mpr (fun b _ => List.forall₂_same.mpr (fun h _ => Or.inl rfl))
  · intro j beam hj
    have hlt : j < beams.length := (List.getElem?_eq_some_iff.mp hj).1
    refine ⟨[], ?_, ?_⟩
    · simp [List.getElem?_replicate, hlt]
    · simp [accepted]

theorem toHypsBody_inv (scorers : List Scorer) (sc : Scorer) (hsc : scorers[0]? = some sc)
    (nBest : Bool) (keys : List Nat)
    (costs : List F32) (vocabSize : Nat) (beams : Beams) (states : List ScorerState)
    (beamSize : Nat) (first : Bool) (i : Nat) (st st' : Beams × Beams)
    (hinv : ToHypsInv sc.getShortlist nBest keys costs vocabSize beams states beamSize first i st)
    (hstep : toHypsBody scorers nBest keys costs vocabSize states beamSize first st i = some st') :
    ToHypsInv sc.getShortlist nBest keys costs vocabSize beams states beamSize first (i + 1) st' := by
  obtain ⟨hprev, hlen, hbuilt⟩ := hinv
  unfold toHypsBody at hstep
  rw [hsc] at hstep
  split at hstep
  · exact absurd hstep (by simp)
  · rename_i key hkey
    split at hstep
    · exact absurd hstep (by simp)
    · split at hstep
      · exact absurd hstep (by simp)
      · split at hstep
        · rename_i hno; exact absurd hno (by simp)
        rename_i sc0 hsc0
        cases hsc0
        simp only at hstep
        split at hstep
        · rename_i newBeam beam hnb hb
          -- the original beam at this index
          obtain ⟨obeam, hob, hrel⟩ := forall₂_getElem?_right hprev _ _ hb
          obtain ⟨nbj, hnbj, hcand⟩ := hbuilt _ _ hob
          rw [hnb] at hnbj
          cases hnbj
          have hlenb : beam.length = obeam.length := hrel.length_eq.symm
          have hacclen := hcand.length_eq
          split at hstep
          · rename_i hguard
            split at hstep
            · exact absurd hstep (by simp)
            · rename_i cost hcost
              split at hstep
              · exact absurd hstep (by simp)
              · rename_i parent hparent
                obtain ⟨oparent, hop, hpar⟩ := forall₂_getElem?_right hrel _ _ hparent
                have hNlen : st.1.length = beams.length := hprev.length_eq.symm
                have hpush := accepted_succ_push beamSize i obeam.length (by omega)
                -- the candidate built at this rank
                have hisc : ∀ hyp, hyp = Hypothesis.mk (some (touch nBest states.length oparent))
                      (embIdxOf sc.getShortlist key vocabSize)
                      (hypIdxTrans (key / vocabSize) beamSize beams.length first) cost
                      (if nBest then
                        breakDownOf states
                          (embIdxOf sc.getShortlist key vocabSize
                            + hypIdxTrans (key / vocabSize) beamSize beams.length first * vocabSize)
                          (resize oparent.GetCostBreakdown states.length)
                       else []) →
                    IsCandidate sc.getShortlist nBest keys costs vocabSize beams states beamSize
                      first i hyp := by
                  intro hyp hh
                  exact ⟨key, cost, obeam, oparent, hkey, hcost, hob, by rw [← hlenb]; exact hop, hh⟩
                have hbuilt' : ∀ hyp pb', IsCandidate sc.getShortlist nBest keys costs vocabSize beams states beamSize
                      first i hyp → st' = (pb', st.2.set (i / beamSize) (newBeam ++ [hyp])) →
                    ∀ j beam, beams[j]? = some beam → ∃ nbj, st'.2[j]? = some nbj ∧
                      List.Forall₂ (IsCandidate sc.getShortlist nBest keys costs vocabSize beams states beamSize first)
                        (accepted beamSize (i + 1) j beam.length) nbj := by
                  intro hyp pb' hic hst' j bj hj
                  subst hst'
                  by_cases hji : i / beamSize = j
                  · subst hji
                    rw [hob] at hj; cases hj
                    refine ⟨newBeam ++ [hyp], ?_, ?_⟩
                    · have : i / beamSize < st.2.length := (List.getElem?_eq_some_iff.mp hnb).1
                      simp [List.getElem?_set, this]
                    · rw [hpush]
                      exact List.rel_append hcand (List.Forall₂.cons hic List.Forall₂.nil)
                  · obtain ⟨nbj, h1, h2⟩ := hbuilt j bj hj
                    refine ⟨nbj, ?_, ?_⟩
                    · simp [List.getElem?_set, hji, h1]
                    · rw [accepted_succ_other _ _ _ _ hji]; exact h2
                cases nBest with
                | true =>
                  simp only [if_true] at hstep
                  cases hstep
                  have hp1 : parent.resizeBreakdown states.length = touch true states.length oparent := by
                    rcases hpar with h | h
                    · rw [h]; simp [touch]
                    · rw [h]; exact touch_touch true states.length oparent
                  refine ⟨?_, by simp [hlen], ?_⟩
                  · refine forall₂_set_right hprev _ _ _ hob ?_
                    exact forall₂_set_right hrel _ _ _ hop (Or.inr hp1)
                  · refine hbuilt' _ _ (hisc _ ?_) rfl
                    rw [hp1, hNlen]
                    cases oparent with
                    | mk p w ix c b =>
                      simp [touch, Hypothesis.resizeBreakdown, Hypothesis.GetCostBreakdown]
                | false =>
                  simp only [Bool.false_eq_true, if_false] at hstep
                  cases hstep
                  have hp1 : parent = oparent := by
                    rcases hpar with h | h
                    · exact h
                    · rw [h]; simp [touch]
                  refine ⟨hprev, by simp [hlen], ?_⟩
                  refine hbuilt' _ _ (hisc _ ?_) rfl
                  rw [hp1, hNlen]
                  simp [touch]
          · rename_i hguard
            cases hstep
            refine ⟨hprev, hlen, ?_⟩
            intro j bj hj
            by_cases hji : i / beamSize = j
            · subst hji
              rw [hob] at hj; cases hj
              refine ⟨newBeam, hnb, ?_⟩
              rw [accepted_succ_full _ _ _ (by omega)]
              exact hcand
            · obtain ⟨nbj, h1, h2⟩ := hbuilt j bj hj
              exact ⟨nbj, h1, by rw [accepted_succ_other _ _ _ _ hji]; exact h2⟩
        · exact absurd hstep (by simp)

theorem toHypsLoop_succ (scorers : List Scorer) (nBest : Bool) (keys : List Nat)
    (costs : List F32) (vocabSize : Nat) (beams : Beams) (states : List ScorerState)
    (beamSize : Nat) (first : Bool) (n : Nat) :
    toHypsLoop scorers nBest keys costs vocabSize beams states beamSize first (n + 1)
      = (toHypsLoop scorers nBest keys costs vocabSize beams states beamSize first n).bind
          (fun st => toHypsBody scorers nBest keys costs vocabSize states beamSize first st n) := by
  simp only [toHypsLoop, List.range_succ, List.foldlM_append]
  cases (List.foldlM (toHypsBody scorers nBest keys costs vocabSize states beamSize first)
      (beams, List.replicate (List.length beams) []) (List.range n)) with
  | none => rfl
  | some st =>
    simp only [List.foldlM, Option.bind_eq_bind, Option.some_bind, bind_pure, Option.pure_def]
    cases toHypsBody scorers nBest keys costs vocabSize states beamSize first st n <;> rfl

theorem toHypsLoop_inv (scorers : List Scorer) (sc : Scorer) (hsc : scorers[0]? = some sc)
    (nBest : Bool) (keys : List Nat)
    (costs : List F32) (vocabSize : Nat) (beams : Beams) (states : List ScorerState)
    (beamSize : Nat) (first : Bool) (n : Nat) (st : Beams × Beams)
    (h : toHypsLoop scorers nBest keys costs vocabSize beams states beamSize first n = some st) :
    ToHypsInv sc.getShortlist nBest keys costs vocabSize beams states beamSize first n st := by
  induction n generalizing st with
  | zero =>
    simp [toHypsLoop] at h
    subst h
    exact toHypsInv_init _ _ _ _ _ _ _ _ _
  | succ n ih =>
    rw [toHypsLoop_succ] at h
    obtain ⟨st0, h0, h1⟩ := Option.bind_eq_some.mp h
    exact toHypsBody_inv scorers sc hsc nBest keys costs vocabSize beams states beamSize first n
      st0 st (ih st0 h0) h1

theorem beamHypIdx_lt (hypIdx beamSize beamLen : Nat) (first : Bool) (h : 0 < beamLen) :
    beamHypIdx hypIdx beamSize beamLen first < beamLen := by
  unfold beamHypIdx
  split
  · exact h
  · split
    · exact Nat.mod_lt _ h
    · omega

theorem toHypsBody_isSome (scorers : List Scorer) (sc : Scorer) (hsc : scorers[0]? = some sc)
    (nBest : Bool) (keys : List Nat)
    (costs : List F32) (vocabSize : Nat) (beams : Beams) (states : List ScorerState)
    (beamSize : Nat) (first : Bool) (i : Nat) (st : Beams × Beams)
    (hinv : ToHypsInv sc.getShortlist nBest keys costs vocabSize beams states beamSize first i st)
    (hV : vocabSize ≠ 0) (hK : beamSize ≠ 0) (hi : i < keys.length) (hc : i < costs.length)
    (hN : i / beamSize < beams.length) :
    ∃ st', toHypsBody scorers nBest keys costs vocabSize states beamSize first st i = some st' := by
  obtain ⟨hprev, hlen, _⟩ := hinv
  have hlen1 : st.1.length = beams.length := hprev.length_eq.symm
  unfold toHypsBody
  rw [List.getElem?_eq_getElem hi, hsc]
  simp only [hV, hK, if_false]
  rw [List.getElem?_eq_getElem (by omega : i / beamSize < st.2.length),
    List.getElem?_eq_getElem (by omega : i / beamSize < st.1.length)]
  simp only
  split
  · rename_i hg
    rw [List.getElem?_eq_getElem hc]
    simp only
    have hpos : 0 < (st.1[i / beamSize]).length := by omega
    rw [List.getElem?_eq_getElem (beamHypIdx_lt _ _ _ _ hpos)]
    simp only
    split <;> exact ⟨_, rfl⟩
  · exact ⟨_, rfl⟩

theorem toHypsLoop_isSome (scorers : List Scorer) (sc : Scorer) (hsc : scorers[0]? = some sc)
    (nBest : Bool) (keys : List Nat)
    (costs : List F32) (vocabSize : Nat) (beams : Beams) (states : List ScorerState)
    (beamSize : Nat) (first : Bool)
    (hV : vocabSize ≠ 0) (hK : beamSize ≠ 0) (hc : keys.length ≤ costs.length)
    (hN : keys.length ≤ beams.length * beamSize) (n : Nat) (hn : n ≤ keys.length) :
    ∃ st, toHypsLoop scorers nBest keys costs vocabSize beams states beamSize first n = some st := by
  induction n with
  | zero => exact ⟨(beams, List.replicate beams.length []), by simp [toHypsLoop]⟩
  | succ n ih =>
    obtain ⟨st0, h0⟩ := ih (by omega)
    rw [toHypsLoop_succ, h0]
    simp only [Option.some_bind]
    refine toHypsBody_isSome scorers sc hsc nBest keys costs vocabSize beams states beamSize first n
      st0 (toHypsLoop_inv scorers sc hsc nBest keys costs vocabSize beams states beamSize first n
        st0 h0) hV hK (by omega) (by omega) ?_
    rw [Nat.div_lt_iff_lt_mul (Nat.pos_of_ne_zero hK)]
    omega

theorem toHypsBody_no_scorer (scorers : List Scorer) (hsc : scorers[0]? = none)
    (nBest : Bool) (keys : List Nat) (costs : List F32) (vocabSize : Nat)
    (states : List ScorerState) (beamSize : Nat) (first : Bool) (i : Nat) (st : Beams × Beams) :
    toHypsBody scorers nBest keys costs vocabSize states beamSize first st i = none := by
  unfold toHypsBody
  rw [hsc]
  split
  · rfl
  · split
    · rfl
    · split <;> rfl

theorem toHypsLoop_inv_general (scorers : List Scorer)
    (nBest : Bool) (keys : List Nat)
    (costs : List F32) (vocabSize : Nat) (beams : Beams) (states : List ScorerState)
    (beamSize : Nat) (first : Bool) (n : Nat) (st : Beams × Beams)
    (h : toHypsLoop scorers nBest keys costs vocabSize beams states beamSize first n = some st) :
    ToHypsInv (firstShortlist scorers) nBest keys costs vocabSize beams states beamSize first n
      st := by
  cases hsc : scorers[0]? with
  | some sc =>
    have := toHypsLoop_inv scorers sc hsc nBest keys costs vocabSize beams states beamSize first
      n st h
    simpa [firstShortlist, hsc] using this
  | none =>
    cases n with
    | zero =>
      simp [toHypsLoop] at h
      subst h
      exact toHypsInv_init _ _ _ _ _ _ _ _ _
    | succ n =>
      rw [toHypsLoop_succ] at h
      obtain ⟨st0, _, h1⟩ := Option.bind_eq_some.mp h
      rw [toHypsBody_no_scorer scorers hsc] at h1
      exact absurd h1 (by simp)

/-- Shape of the result of `toHyps`: one beam per sentence, and the beam of
sentence `j` lists, in rank order, the hypotheses built for the accepted ranks. -/
theorem toHyps_built (scorers : List Scorer) (nBest : Bool) (keys : List Nat)
    (costs : List F32) (vocabSize : Nat) (beams : Beams) (states : List ScorerState)
    (beamSize : Nat) (first : Bool) (nb : Beams)
    (h : toHyps scorers nBest keys costs vocabSize beams states beamSize first = some nb) :
    nb.length = beams.length ∧
    ∀ j beam, beams[j]? = some beam → ∃ nbj, nb[j]? = some nbj ∧
      List.Forall₂
        (IsCandidate (firstShortlist scorers) nBest keys costs vocabSize beams states beamSize
          first)
        (accepted beamSize keys.length j beam.length) nbj := by
  unfold toHyps at h
  obtain ⟨st, hst, hnb⟩ := Option.map_eq_some'.mp h
  subst hnb
  have hinv := toHypsLoop_inv_general scorers nBest keys costs vocabSize beams states beamSize
    first keys.length st hst
  exact ⟨hinv.len, hinv.built⟩

theorem toHyps_isSome (scorers : List Scorer) (nBest : Bool) (keys : List Nat)
    (costs : List F32) (vocabSize : Nat) (beams : Beams) (states : List ScorerState)
    (beamSize : Nat) (first : Bool)
    (hS : scorers ≠ []) (hV : vocabSize ≠ 0) (hK : beamSize ≠ 0)
    (hc : keys.length ≤ costs.length) (hN : keys.length ≤ beams.length * beamSize) :
    ∃ nb, toHyps scorers nBest keys costs vocabSize beams states beamSize first = some nb := by
  obtain ⟨sc, hsc⟩ : ∃ sc, scorers[0]? = some sc := by
    cases scorers with
    | nil => exact absurd rfl hS
    | cons a t => exact ⟨a, by simp⟩
  obtain ⟨st, hst⟩ := toHypsLoop_isSome scorers sc hsc nBest keys costs vocabSize beams states
    beamSize first hV hK hc hN keys.length (le_refl _)
  exact ⟨st.2, by simp [toHyps, hst]⟩

theorem take_min_length {α : Type} (l : List α) (n : Nat) :
    l.take (min n l.length) = l.take n := by
  by_cases h : n ≤ l.length
  · rw [Nat.min_eq_left h]
  · rw [Nat.min_eq_right (by omega), List.take_length, List.take_of_length_le (by omega)]

/-- C3: on a well-formed call `toHyps` returns; whenever it returns, it returns
one beam per sentence, and the beam of sentence `j` consists of the hypotheses
built from the first `min |beams[j]| c` candidates of that sentence in rank
order, `c` being the number of ranks `i` with `i / beamSize = j`; the later
candidates of the sentence leave no trace, so the new beam is never longer than
the previous one and is empty when the previous one is. -/
theorem toHyps_occupancy (scorers : List Scorer) (nBest : Bool) (keys : List Nat)
    (costs : List F32) (vocabSize : Nat) (beams : Beams) (states : List ScorerState)
    (beamSize : Nat) (first : Bool) :
    (scorers ≠ [] → vocabSize ≠ 0 → beamSize ≠ 0 → keys.length ≤ costs.length →
      keys.length ≤ beams.length * beamSize →
      ∃ nb, toHyps scorers nBest keys costs vocabSize beams states beamSize first = some nb) ∧
    ∀ nb, toHyps scorers nBest keys costs vocabSize beams states beamSize first = some nb →
      nb.length = beams.length ∧
      ∀ j beam, beams[j]? = some beam → ∃ nbj, nb[j]? = some nbj ∧
        nbj.length = min beam.length
          ((List.range keys.length).filter (fun i => i / beamSize = j)).length ∧
        List.Forall₂
          (IsCandidate (firstShortlist scorers) nBest keys costs vocabSize beams states beamSize
            first)
          (((List.range keys.length).filter (fun i => i / beamSize = j)).take
            (min beam.length
              ((List.range keys.length).filter (fun i => i / beamSize = j)).length)) nbj ∧
        nbj.length ≤ beam.length ∧ (beam = [] → nbj = []) := by
  refine ⟨toHyps_isSome scorers nBest keys costs vocabSize beams states beamSize first, ?_⟩
  intro nb h
  obtain ⟨hlen, hb⟩ := toHyps_built scorers nBest keys costs vocabSize beams states beamSize
    first nb h
  refine ⟨hlen, ?_⟩
  intro j beam hj
  obtain ⟨nbj, hnbj, hF⟩ := hb j beam hj
  have hl : nbj.length = min beam.length
      ((List.range keys.length).filter (fun i => i / beamSize = j)).length := by
    rw [← hF.length_eq]; simp [accepted]
  refine ⟨nbj, hnbj, hl, ?_, ?_, ?_⟩
  · have : ((List.range keys.length).filter (fun i => i / beamSize = j)).take
        (min beam.length ((List.range keys.length).filter (fun i => i / beamSize = j)).length)
        = accepted beamSize keys.length j beam.length := by
      unfold accepted
      exact take_min_length _ _
    rw [this]; exact hF
  · rw [hl]; exact Nat.min_le_left _ _
  · intro he
    have : nbj.length = 0 := by rw [hl, he]; simp
    exact List.length_eq_zero.mp this

/-- C6: with the first-step flag set, the hypothesis built for an accepted rank
`i` has back-pointer `keys[i] / vocabSize` (no transpose, no wrap), and its
parent is slot 0 of the previous beam of its sentence (with the breakdown
resized to the number of scorer states when n-best is on, as line 77 does in
place; the very same value when n-best is off). -/
theorem toHyps_first_step (scorers : List Scorer) (nBest : Bool) (keys : List Nat)
    (costs : List F32) (vocabSize : Nat) (beams : Beams) (states : List ScorerState)
    (beamSize : Nat) (nb : Beams)
    (h : toHyps scorers nBest keys costs vocabSize beams states beamSize true = some nb) :
    ∀ j beam, beams[j]? = some beam → ∃ nbj, nb[j]? = some nbj ∧
      List.Forall₂
        (fun i hyp => ∃ key seed, keys[i]? = some key ∧ beam[0]? = some seed ∧
          hyp.GetPrevStateIndex = key / vocabSize ∧
          hyp.GetPrevHyp = some (touch nBest states.length seed) ∧
          (nBest = false → hyp.GetPrevHyp = some seed))
        (accepted beamSize keys.length j beam.length) nbj := by
  intro j beam hj
  obtain ⟨nbj, hnbj, hF⟩ := (toHyps_built scorers nBest keys costs vocabSize beams states
    beamSize true nb h).2 j beam hj
  refine ⟨nbj, hnbj, ?_⟩
  have hmem : ∀ i ∈ accepted beamSize keys.length j beam.length, i / beamSize = j := by
    intro i hi
    have := List.mem_of_mem_take hi
    simpa using (List.mem_filter.mp this).2
  refine List.Forall₂.imp ?_ ((List.forall₂_and_left _ _).mpr ⟨hmem, hF⟩)
  rintro i hyp ⟨hij, key, cost, beam', parent, hk, _, hb, hp, rfl⟩
  rw [hij, hj] at hb
  cases hb
  refine ⟨key, parent, hk, ?_, ?_, rfl, ?_⟩
  · simpa [beamHypIdx] using hp
  · simp [Hypothesis.GetPrevStateIndex, hypIdxTrans]
  · intro hn; subst hn; simp [Hypothesis.GetPrevHyp, touch]

/-- C7: the hypothesis built for an accepted rank `i` carries the token
`keys[i] % vocabSize` when the first scorer has no shortlist, and
`reverseMap (keys[i] % vocabSize)` when it has one. -/
theorem toHyps_token (scorers : List Scorer) (nBest : Bool) (keys : List Nat)
    (costs : List F32) (vocabSize : Nat) (beams : Beams) (states : List ScorerState)
    (beamSize : Nat) (first : Bool) (nb : Beams)
    (h : toHyps scorers nBest keys costs vocabSize beams states beamSize first = some nb) :
    ∀ j beam, beams[j]? = some beam → ∃ nbj, nb[j]? = some nbj ∧
      List.Forall₂
        (fun i hyp => ∃ key scorer0, keys[i]? = some key ∧ scorers[0]? = some scorer0 ∧
          (scorer0.getShortlist = none → hyp.GetWord = key % vocabSize) ∧
          (∀ reverseMap, scorer0.getShortlist = some reverseMap →
            hyp.GetWord = reverseMap (key % vocabSize)))
        (accepted beamSize keys.length j beam.length) nbj := by
  intro j beam hj
  obtain ⟨nbj, hnbj, hF⟩ := (toHyps_built scorers nBest keys costs vocabSize beams states
    beamSize first nb h).2 j beam hj
  refine ⟨nbj, hnbj, ?_⟩
  cases hsc : scorers[0]? with
  | none =>
    -- without a first scorer the loop body fails, so no rank was accepted
    have hk : keys.length = 0 := by
      by_contra hne
      obtain ⟨n, hn⟩ := Nat.exists_eq_succ_of_ne_zero hne
      unfold toHyps at h
      rw [hn, toHypsLoop_succ] at h
      obtain ⟨st, hst, _⟩ := Option.map_eq_some'.mp h
      obtain ⟨st0, _, h1⟩ := Option.bind_eq_some.mp hst
      rw [toHypsBody_no_scorer scorers hsc] at h1
      exact absurd h1 (by simp)
    rw [hk] at hF ⊢
    simp only [accepted, List.range_zero, List.filter_nil, List.take_nil] at hF ⊢
    cases hF
    exact List.Forall₂.nil
  | some sc =>
    refine List.Forall₂.imp ?_ hF
    rintro i hyp ⟨key, cost, beam', parent, hk, _, _, _, rfl⟩
    refine ⟨key, sc, hk, rfl, ?_, ?_⟩
    · intro hn
      simp [Hypothesis.GetWord, firstShortlist, hsc, hn, embIdxOf]
    · intro f hf
      simp [Hypothesis.GetWord, firstShortlist, hsc, hf, embIdxOf]

/-! ### The history loop of `search` -/

theorem foldlM_range_succ {α : Type} (f : α → Nat → Option α) (a : α) (n : Nat) :
    (List.range (n + 1)).foldlM f a = ((List.range n).foldlM f a).bind (fun x => f x n) := by
  simp only [List.range_succ, List.foldlM_append]
  cases (List.foldlM f a (List.range n)) with
  | none => rfl
  | some st =>
    simp only [List.foldlM, Option.bind_eq_bind, Option.some_bind, bind_pure, Option.pure_def]
    cases f st n <;> rfl

theorem historyBody_inv (mlf : F32) (w : Nat) (trgEosId : Nat) (c : Bool)
    (beams prunedBeams : Beams) (hs0 : List History)
    (hc : ∀ (i : Nat) (beam : Beam) (hist : History), beams[i]? = some beam → beam ≠ [] →
      hs0[i]? = some hist →
      capReached mlf w hist.size = c)
    (hlen1 : beams.length = hs0.length) (hlen2 : prunedBeams.length = hs0.length)
    (n : Nat) (hn : n < hs0.length) (st : Bool × List History)
    (hinv : HistInv trgEosId c beams prunedBeams hs0 n st) :
    ∃ st', historyBody mlf w trgEosId beams prunedBeams st n = some st' ∧
      HistInv trgEosId c beams prunedBeams hs0 (n + 1) st' := by
  obtain ⟨hl, hfi, hfo, hfonly, hh⟩ := hinv
  have hb : beams[n]? = some beams[n] := List.getElem?_eq_getElem (by omega)
  have hp : prunedBeams[n]? = some prunedBeams[n] := List.getElem?_eq_getElem (by omega)
  have h0 : hs0[n]? = some hs0[n] := List.getElem?_eq_getElem hn
  have hcur := hh n _ _ _ hb h0 hp
  simp only [lt_irrefl, false_and, if_false] at hcur
  unfold historyBody
  rw [hb]
  simp only
  by_cases hempty : beams[n] = []
  · simp only [hempty, List.isEmpty_nil, not_true, if_false]
    refine ⟨st, rfl, hl, hfi, ?_, ?_, ?_⟩
    · rintro hc' ⟨i, beam, hi, hbi, hne⟩
      refine hfo hc' ⟨i, beam, ?_, hbi, hne⟩
      rcases Nat.lt_succ_iff_lt_or_eq.mp hi with h | h
      · exact h
      · subst h; rw [hb] at hbi; cases hbi; exact absurd hempty hne
    · intro hf
      obtain ⟨i, beam, hi, r⟩ := hfonly hf
      exact ⟨i, beam, by omega, r⟩
    · intro i beam hist pb hbi hhi hpi
      rw [hh i beam hist pb hbi hhi hpi]
      by_cases hin : i = n
      · subst hin; rw [hb] at hbi; cases hbi; simp [hempty]
      · have : i < n + 1 ↔ i < n := by
          constructor <;> intro h <;> omega
        simp only [this]
  · have hne : ¬ (beams[n]).isEmpty = true := by simpa using hempty
    simp only [hne, not_false_eq_true, if_true]
    rw [hcur, hp]
    simp only
    have hcn := hc n _ _ hb hempty h0
    have hfin : (st.1 || capReached mlf w (hs0[n]).size) = c := by
      rw [hcn]
      cases hst : st.1 with
      | false => simp
      | true => simp [hfi hst]
    rw [hfin]
    refine ⟨_, rfl, by simp [hl], fun h => h, fun h _ => h, ?_, ?_⟩
    · intro _
      exact ⟨n, _, by omega, hb, hempty⟩
    · intro i beam hist pb hbi hhi hpi
      by_cases hin : i = n
      · subst hin
        rw [hb] at hbi; rw [h0] at hhi; rw [hp] at hpi
        cases hbi; cases hhi; cases hpi
        have : i < st.2.length := by omega
        have hpos : 0 < (beams[i]).length := List.length_pos.mpr hempty
        simp [List.getElem?_set, this, hpos]
      · have h1 : i < n + 1 ↔ i < n := by
          constructor <;> intro h <;> omega
        simp only [List.getElem?_set, if_neg (Ne.symm hin)]
        rw [hh i beam hist pb hbi hhi hpi]
        simp only [h1]

theorem historyLoop_inv (mlf : F32) (w : Nat) (trgEosId : Nat) (c : Bool)
    (beams prunedBeams : Beams) (hs0 : List History)
    (hc : ∀ (i : Nat) (beam : Beam) (hist : History), beams[i]? = some beam → beam ≠ [] →
      hs0[i]? = some hist →
      capReached mlf w hist.size = c)
    (hlen1 : beams.length = hs0.length) (hlen2 : prunedBeams.length = hs0.length)
    (n : Nat) (hn : n ≤ hs0.length) :
    ∃ st, (List.range n).foldlM (historyBody mlf w trgEosId beams prunedBeams) (false, hs0)
        = some st ∧ HistInv trgEosId c beams prunedBeams hs0 n st := by
  induction n with
  | zero =>
    refine ⟨(false, hs0), by simp, rfl, by simp, ?_, by simp, ?_⟩
    · rintro _ ⟨i, _, hi, _⟩; omega
    · intro i beam hist pb _ hhi _
      simpa using hhi
  | succ n ih =>
    obtain ⟨st, hst, hinv⟩ := ih (by omega)
    obtain ⟨st', hst', hinv'⟩ := historyBody_inv mlf w trgEosId c beams prunedBeams hs0 hc hlen1
      hlen2 n (by omega) st hinv
    exact ⟨st', by rw [foldlM_range_succ, hst]; exact hst', hinv'⟩

/-! ### One pass of the loop of `search` -/

theorem toHyps_length_le (scorers : List Scorer) (nBest : Bool) (keys : List Nat)
    (costs : List F32) (vocabSize : Nat) (beams : Beams) (states : List ScorerState)
    (beamSize : Nat) (first : Bool) (nb : Beams)
    (h : toHyps scorers nBest keys costs vocabSize beams states beamSize first = some nb) :
    nb.length = beams.length ∧
    ∀ (j : Nat) (b nbj : Beam), beams[j]? = some b → nb[j]? = some nbj →
      nbj.length ≤ b.length := by
  obtain ⟨hlen, hb⟩ := toHyps_built scorers nBest keys costs vocabSize beams states beamSize
    first nb h
  refine ⟨hlen, ?_⟩
  intro j b nbj hj hnbj
  obtain ⟨nbj', h1, hF⟩ := hb j b hj
  rw [hnbj] at h1
  cases h1
  rw [← hF.length_eq]
  exact accepted_length_le _ _ _ _

theorem pruneBeam_eq_map_filter (trgEosId : Nat) (beams : Beams) :
    pruneBeam trgEosId beams
      = beams.map (fun beam => beam.filter (fun h => decide (h.GetWord ≠ trgEosId))) := by
  rw [pruneBeam_eq_map]
  exact List.map_congr_left (fun b _ => pruneOne_eq_filter trgEosId b)

theorem pruneBeam_length (trgEosId : Nat) (beams : Beams) :
    (pruneBeam trgEosId beams).length = beams.length := by
  simp [pruneBeam_eq_map_filter]

theorem pruneBeam_getElem? (trgEosId : Nat) (beams : Beams) (j : Nat) :
    (pruneBeam trgEosId beams)[j]?
      = (beams[j]?).map (fun beam => beam.filter (fun h => decide (h.GetWord ≠ trgEosId))) := by
  simp [pruneBeam_eq_map_filter]

theorem pruneBeam_getElem?_le (trgEosId : Nat) (beams : Beams) (j : Nat) (pb : Beam)
    (h : (pruneBeam trgEosId beams)[j]? = some pb) :
    ∃ b, beams[j]? = some b ∧ pb.length ≤ b.length := by
  rw [pruneBeam_getElem?] at h
  obtain ⟨b, hb, rfl⟩ := Option.map_eq_some'.mp h
  exact ⟨b, hb, List.length_filter_le _ _⟩

theorem searchStep_facts (bs : BeamSearch) (env : Collaborators) (batch : Batch) (n : Nat)
    (s : SearchState) (hinv : LoopInv bs batch n s) (nb : Beams)
    (hnb : unprunedBeams bs env batch s = some nb) :
    ∃ s1, searchStep bs env batch s = some s1 ∧
      s1.beams = pruneBeam bs.trgEosId nb ∧ s1.first = false ∧
      s1.localBeamSize
        = (if n = 0 then s.localBeamSize else maxBeamSize (pruneBeam bs.trgEosId nb)) ∧
      HistInv bs.trgEosId (capReached bs.options.maxLengthFactor batch.batchWidth (n + 1)) nb
        (pruneBeam bs.trgEosId nb) s.histories batch.size (s1.final, s1.histories) := by
  have hle := toHyps_length_le _ _ _ _ _ _ _ _ _ nb hnb
  have hc : ∀ (i : Nat) (beam : Beam) (hist : History), nb[i]? = some beam → beam ≠ [] →
      s.histories[i]? = some hist →
      capReached bs.options.maxLengthFactor batch.batchWidth hist.size
        = capReached bs.options.maxLengthFactor batch.batchWidth (n + 1) := by
    intro i beam hist hbi hne hhi
    have hi : i < s.beams.length := by
      rw [← hle.1]; exact (List.getElem?_eq_some_iff.mp hbi).1
    have hsb : s.beams[i]? = some s.beams[i] := List.getElem?_eq_getElem hi
    have hlen := hle.2 i _ _ hsb hbi
    have hne' : s.beams[i] ≠ [] := by
      intro h0
      rw [h0] at hlen
      exact hne (List.length_eq_zero.mp (Nat.le_zero.mp hlen))
    rw [(hinv.active i hist _ hhi hsb hne').1]
  obtain ⟨st, hst, hH⟩ := historyLoop_inv bs.options.maxLengthFactor batch.batchWidth bs.trgEosId
    (capReached bs.options.maxLengthFactor batch.batchWidth (n + 1)) nb
    (pruneBeam bs.trgEosId nb) s.histories hc (by rw [hle.1, hinv.lenB, hinv.lenH])
    (by rw [pruneBeam_length, hle.1, hinv.lenB, hinv.lenH]) batch.size (by rw [hinv.lenH])
  unfold searchStep
  simp only [hnb, hinv.final, hst]
  refine ⟨_, rfl, rfl, rfl, ?_, hH⟩
  simp only [hinv.first]
  by_cases h0 : n = 0 <;> simp [h0]

theorem maxBeamSize_foldl_eq_zero (beams : Beams) (acc : Nat) :
    beams.foldl (fun maxBeam beam => if beam.length > maxBeam then beam.length else maxBeam) acc
      = 0 ↔ acc = 0 ∧ ∀ beam ∈ beams, beam = [] := by
  induction beams generalizing acc with
  | nil => simp
  | cons b t ih =>
    simp only [List.foldl_cons, ih, List.mem_cons, forall_eq_or_imp]
    constructor
    · rintro ⟨h1, h2⟩
      split at h1
      · rename_i hgt; omega
      · rename_i hgt
        refine ⟨h1, List.length_eq_zero.mp (by omega), h2⟩
    · rintro ⟨h1, h2, h3⟩
      subst h1 h2
      exact ⟨by simp, h3⟩

theorem maxBeamSize_eq_zero (beams : Beams) :
    maxBeamSize beams = 0 ↔ ∀ beam ∈ beams, beam = [] := by
  simp [maxBeamSize, maxBeamSize_foldl_eq_zero]

theorem newHistories_length (bs : BeamSearch) (batch : Batch) (hs : List History)
    (h : newHistories bs batch = some hs) :
    hs.length = batch.size ∧ ∀ hist ∈ hs, hist.snapshots = [] := by
  unfold newHistories at h
  generalize batch.size = n at h ⊢
  induction n generalizing hs with
  | zero => simp at h; subst h; simp
  | succ n ih =>
    rw [foldlM_range_succ] at h
    obtain ⟨hs0, h0, h1⟩ := Option.bind_eq_some.mp h
    obtain ⟨hl, he⟩ := ih hs0 h0
    split at h1
    · exact absurd h1 (by simp)
    · cases h1
      refine ⟨by simp [hl], ?_⟩
      intro hist hm
      rcases List.mem_append.mp hm with hm | hm
      · exact he hist hm
      · simp at hm; subst hm; rfl

theorem loopInv_init (bs : BeamSearch) (env : Collaborators) (batch : Batch) (s : SearchState)
    (h : searchInit bs env batch = some s) : LoopInv bs batch 0 s := by
  unfold searchInit at h
  split at h
  · exact absurd h (by simp)
  · rename_i hs hhs
    obtain ⟨hl, he⟩ := newHistories_length bs batch hs hhs
    cases h
    refine ⟨rfl, by simp, by simp, by simp [hl], ?_, ?_, fun _ => rfl, fun h => absurd h (by omega),
      fun _ _ _ h => absurd h (by omega)⟩
    · intro beam hb
      simp only [List.mem_replicate] at hb
      rw [hb.2]; simp
    · intro i hist beam hhi _ _
      simp only [List.getElem?_map] at hhi
      obtain ⟨h0, hh0, rfl⟩ := Option.map_eq_some'.mp hhi
      have hm : h0 ∈ hs := List.getElem?_mem hh0
      simp [History.size, History.Add, he h0 hm]

theorem loopInv_step (bs : BeamSearch) (env : Collaborators) (batch : Batch) (n : Nat)
    (s s1 : SearchState) (hinv : LoopInv bs batch n s)
    (hstep : searchStep bs env batch s = some s1) (hcont : continues s1 = true) :
    LoopInv bs batch (n + 1) s1 := by
  obtain ⟨nb, hnb⟩ : ∃ nb, unprunedBeams bs env batch s = some nb := by
    cases hu : unprunedBeams bs env batch s with
    | none => simp [searchStep, hu] at hstep
    | some nb => exact ⟨nb, rfl⟩
  obtain ⟨s1', hs1', hbeams, hfirst, hlbs, hH⟩ := searchStep_facts bs env batch n s hinv nb hnb
  rw [hstep] at hs1'
  cases hs1'
  have hle := toHyps_length_le _ _ _ _ _ _ _ _ _ nb hnb
  simp only [continues, Bool.and_eq_true, Bool.not_eq_true', decide_eq_true_eq] at hcont
  obtain ⟨hl0, hfin⟩ := hcont
  -- every pruned beam is bounded by the beam of the same sentence before the pass
  have hchain : ∀ (i : Nat) (pb : Beam), s1.beams[i]? = some pb →
      ∃ b ob, nb[i]? = some b ∧ s.beams[i]? = some ob ∧ pb.length ≤ b.length ∧
        b.length ≤ ob.length := by
    intro i pb hpb
    rw [hbeams] at hpb
    obtain ⟨b, hb, hlen⟩ := pruneBeam_getElem?_le _ _ _ _ hpb
    have hi : i < s.beams.length := by
      rw [← hle.1]; exact (List.getElem?_eq_some_iff.mp hb).1
    exact ⟨b, s.beams[i], hb, List.getElem?_eq_getElem hi, hlen,
      hle.2 i _ _ (List.getElem?_eq_getElem hi) hb⟩
  -- with a non-empty pruned beam the cap test of this pass was negative
  have hcfalse : ∀ (i : Nat) (pb : Beam), s1.beams[i]? = some pb → pb ≠ [] →
      capReached bs.options.maxLengthFactor batch.batchWidth (n + 1) = false := by
    intro i pb hpb hne
    obtain ⟨b, ob, hb, _, hlen, _⟩ := hchain i pb hpb
    have hbne : b ≠ [] := by
      intro h0; rw [h0] at hlen
      exact hne (List.length_eq_zero.mp (Nat.le_zero.mp hlen))
    by_contra hc
    have := hH.fin_of (by simpa using hc)
      ⟨i, b, by rw [← hinv.lenB, ← hle.1]; exact (List.getElem?_eq_some_iff.mp hb).1, hb, hbne⟩
    simp [hfin] at this
  refine ⟨hfin, by simp [hfirst], ?_, ?_, ?_, ?_, ?_, ?_, ?_⟩
  · rw [hbeams, pruneBeam_length, hle.1, hinv.lenB]
  · have := hH.len; simp only at this; rw [this, hinv.lenH]
  · intro beam hm
    obtain ⟨i, hi, hget⟩ := List.getElem_of_mem hm
    obtain ⟨b, ob, _, hob, h1, h2⟩ := hchain i beam (by rw [← hget]; exact List.getElem?_eq_getElem hi)
    have := hinv.width ob (List.getElem?_mem hob)
    omega
  · intro i hist pb hhi hpb hne
    obtain ⟨b, ob, hb, hob, h1, h2⟩ := hchain i pb hpb
    have hbne : b ≠ [] := by
      intro h0; rw [h0] at h1
      exact hne (List.length_eq_zero.mp (Nat.le_zero.mp h1))
    have hobne : ob ≠ [] := by
      intro h0; rw [h0] at h2
      exact hbne (List.length_eq_zero.mp (Nat.le_zero.mp h2))
    have hi : i < s.histories.length := by
      rw [hinv.lenH, ← hinv.lenB]; exact (List.getElem?_eq_some_iff.mp hob).1
    have hh0 : s.histories[i]? = some s.histories[i] := List.getElem?_eq_getElem hi
    have hnew := hH.hist i b _ pb hb hh0 (by rw [← hbeams]; exact hpb)
    simp only at hnew
    rw [hhi] at hnew
    have hin : i < batch.size := by rw [← hinv.lenH]; exact hi
    have hpos : 0 < b.length := List.length_pos.mpr hbne
    have hpe : pb.isEmpty = false := by
      cases pb with
      | nil => exact absurd rfl hne
      | cons _ _ => rfl
    simp only [hin, hpos, and_self, if_true, hcfalse i pb hpb hne, hpe, Bool.or_false,
      Option.some.injEq] at hnew
    obtain ⟨hsz, hnf⟩ := hinv.active i _ ob hh0 hob hobne
    subst hnew
    refine ⟨by simp [History.size, History.Add] at hsz ⊢; omega, ?_⟩
    intro snap hm
    simp only [History.Add, List.mem_append, List.mem_singleton] at hm
    rcases hm with hm | hm
    · exact hnf snap hm
    · rw [hm]
  · intro h1
    have : n = 0 := by omega
    rw [hlbs, if_pos this]
    exact hinv.lbs1 (by omega)
  · intro h2
    have : n ≠ 0 := by omega
    rw [hlbs, if_neg this, hbeams]
  · intro beam hm hne _
    obtain ⟨i, hi, hget⟩ := List.getElem_of_mem hm
    exact hcfalse i beam (by rw [← hget]; exact List.getElem?_eq_getElem hi) hne

/-! ### Invariants along the passes of `search` -/

theorem stateBefore_inv (bs : BeamSearch) (env : Collaborators) (batch : Batch) (n : Nat)
    (s : SearchState) (h : stateBefore bs env batch n = some s) : LoopInv bs batch n s := by
  induction n generalizing s with
  | zero => exact loopInv_init bs env batch s h
  | succ n ih =>
    simp only [stateBefore] at h
    split at h
    · exact absurd h (by simp)
    · rename_i s0 hs0
      split at h
      · exact absurd h (by simp)
      · rename_i s1 hs1
        split at h
        · rename_i hc
          cases h
          exact loopInv_step bs env batch n s0 s (ih s0 hs0) hs1 hc
        · exact absurd h (by simp)

theorem stateBefore_succ (bs : BeamSearch) (env : Collaborators) (batch : Batch) (n : Nat)
    (s1 : SearchState) (h : stateBefore bs env batch (n + 1) = some s1) :
    ∃ s, stateBefore bs env batch n = some s ∧ searchStep bs env batch s = some s1 ∧
      continues s1 = true := by
  simp only [stateBefore] at h
  split at h
  · exact absurd h (by simp)
  · rename_i s0 hs0
    split at h
    · exact absurd h (by simp)
    · rename_i s1' hs1
      split at h
      · rename_i hc
        cases h
        exact ⟨s0, hs0, hs1, hc⟩
      · exact absurd h (by simp)

/-- C2: at the start of every pass of the loop of `search` (pass 0 starts with
the seed beams) every beam has at most `beamSize_` hypotheses; so has every
beam that `toHyps` returns in that pass and every pruned beam, and a pruned
beam is never longer than the beam it was pruned from. -/
theorem search_beam_occupancy (bs : BeamSearch) (env : Collaborators) (batch : Batch) (n : Nat)
    (s : SearchState) (h : stateBefore bs env batch n = some s) :
    (∀ beam ∈ s.beams, beam.length ≤ bs.beamSize) ∧
    ∀ nb, unprunedBeams bs env batch s = some nb →
      (∀ beam ∈ nb, beam.length ≤ bs.beamSize) ∧
      (∀ beam ∈ pruneBeam bs.trgEosId nb, beam.length ≤ bs.beamSize) ∧
      ∀ (j : Nat) (b pb : Beam), nb[j]? = some b → (pruneBeam bs.trgEosId nb)[j]? = some pb →
        pb.length ≤ b.length := by
  have hinv := stateBefore_inv bs env batch n s h
  refine ⟨hinv.width, ?_⟩
  intro nb hnb
  have hle := toHyps_length_le _ _ _ _ _ _ _ _ _ nb hnb
  have hnbw : ∀ beam ∈ nb, beam.length ≤ bs.beamSize := by
    intro beam hm
    obtain ⟨i, hi, hget⟩ := List.getElem_of_mem hm
    have hi' : i < s.beams.length := by rw [← hle.1]; exact hi
    have h1 := hle.2 i _ beam (List.getElem?_eq_getElem hi')
      (by rw [← hget]; exact List.getElem?_eq_getElem hi)
    have h2 := hinv.width _ (List.getElem_mem hi')
    omega
  have hpr : ∀ (j : Nat) (b pb : Beam), nb[j]? = some b →
      (pruneBeam bs.trgEosId nb)[j]? = some pb → pb.length ≤ b.length := by
    intro j b pb hb hpb
    obtain ⟨b', hb', hlen⟩ := pruneBeam_getElem?_le _ _ _ _ hpb
    rw [hb] at hb'
    cases hb'
    exact hlen
  refine ⟨hnbw, ?_, hpr⟩
  intro beam hm
  obtain ⟨i, hi, hget⟩ := List.getElem_of_mem hm
  obtain ⟨b, hb, hlen⟩ := pruneBeam_getElem?_le _ _ _ _
    (by rw [← hget]; exact List.getElem?_eq_getElem hi : (pruneBeam bs.trgEosId nb)[i]? = some beam)
  have := hnbw b (List.getElem?_mem hb)
  omega

/-- A history that holds a final snapshot belongs to a sentence whose beam is
empty, and one pass leaves both as they are. -/
theorem final_history_frozen (bs : BeamSearch) (env : Collaborators) (batch : Batch) (n : Nat)
    (s : SearchState) (hinv : LoopInv bs batch n s) (i : Nat) (hist : History)
    (hh : s.histories[i]? = some hist) (hfin : ∃ snap ∈ hist.snapshots, snap.2 = true) :
    s.beams[i]? = some [] ∧
    ∀ s1, searchStep bs env batch s = some s1 →
      s1.histories[i]? = some hist ∧ s1.beams[i]? = some [] := by
  have hi : i < s.beams.length := by
    rw [hinv.lenB, ← hinv.lenH]; exact (List.getElem?_eq_some_iff.mp hh).1
  have hb : s.beams[i]? = some s.beams[i] := List.getElem?_eq_getElem hi
  have hempty : s.beams[i] = [] := by
    by_contra hne
    obtain ⟨snap, hm, ht⟩ := hfin
    have := (hinv.active i hist _ hh hb hne).2 snap hm
    rw [this] at ht
    exact absurd ht (by simp)
  refine ⟨by rw [hb, hempty], ?_⟩
  intro s1 hstep
  obtain ⟨nb, hnb⟩ : ∃ nb, unprunedBeams bs env batch s = some nb := by
    cases hu : unprunedBeams bs env batch s with
    | none => simp [searchStep, hu] at hstep
    | some nb => exact ⟨nb, rfl⟩
  obtain ⟨s1', hs1', hbeams, _, _, hH⟩ := searchStep_facts bs env batch n s hinv nb hnb
  rw [hstep] at hs1'
  cases hs1'
  have hle := toHyps_length_le _ _ _ _ _ _ _ _ _ nb hnb
  have hi2 : i < nb.length := by rw [hle.1]; exact hi
  have hnbi : nb[i]? = some nb[i] := List.getElem?_eq_getElem hi2
  have hnbe : nb[i] = [] := by
    have := hle.2 i _ _ hb hnbi
    rw [hempty] at this
    exact List.length_eq_zero.mp (Nat.le_zero.mp this)
  have hpi : (pruneBeam bs.trgEosId nb)[i]? = some [] := by
    rw [pruneBeam_getElem?, hnbi, hnbe]; rfl
  refine ⟨?_, by rw [hbeams]; exact hpi⟩
  have := hH.hist i _ hist _ hnbi hh hpi
  simpa [hnbe] using this

/-- C4: a history that holds a snapshot marked final at the start of a pass is
the same at the start of every later pass and after every later pass, and the
beam of its sentence is empty from then on: nothing is appended after a final
snapshot. -/
theorem search_final_is_last (bs : BeamSearch) (env : Collaborators) (batch : Batch) (n : Nat)
    (s : SearchState) (h : stateBefore bs env batch n = some s) (i : Nat) (hist : History)
    (hh : s.histories[i]? = some hist) (hfin : ∃ snap ∈ hist.snapshots, snap.2 = true) :
    ∀ m s', stateBefore bs env batch (n + m) = some s' →
      s'.histories[i]? = some hist ∧ s'.beams[i]? = some [] ∧
      ∀ s'', searchStep bs env batch s' = some s'' →
        s''.histories[i]? = some hist ∧ s''.beams[i]? = some [] := by
  intro m
  induction m with
  | zero =>
    intro s' hs'
    rw [Nat.add_zero, h] at hs'
    cases hs'
    have := final_history_frozen bs env batch n s (stateBefore_inv bs env batch n s h) i hist
      hh hfin
    exact ⟨hh, this.1, this.2⟩
  | succ m ih =>
    intro s' hs'
    obtain ⟨s0, hs0, hstep, _⟩ := stateBefore_succ bs env batch (n + m) s' hs'
    obtain ⟨_, _, hnext⟩ := ih s0 hs0
    obtain ⟨hh', hb'⟩ := hnext s' hstep
    have := final_history_frozen bs env batch (n + m + 1) s'
      (stateBefore_inv bs env batch _ s' hs') i hist hh' hfin
    exact ⟨hh', hb', this.2⟩

/-- C8 (amended): in every pass of the loop of `search`, the history of a
sentence whose unpruned beam (the one `toHyps` returned) is non-empty receives
exactly one snapshot, that unpruned beam, marked final exactly when the pruned
beam of the sentence is empty or the cap test of line 229 is positive: the
length of the history, converted to `float`, compares `>=` to the `float`
product of `max-length-factor` and the converted `batchWidth`; the history of a
sentence whose unpruned beam is empty is left as it is. -/
theorem search_history_update (bs : BeamSearch) (env : Collaborators) (batch : Batch) (n : Nat)
    (s : SearchState) (h : stateBefore bs env batch n = some s) (nb : Beams)
    (hnb : unprunedBeams bs env batch s = some nb) :
    ∃ s1, searchStep bs env batch s = some s1 ∧
      ∀ (i : Nat) (beam : Beam), nb[i]? = some beam →
        ∃ hist pb hist1, s.histories[i]? = some hist ∧
          (pruneBeam bs.trgEosId nb)[i]? = some pb ∧ s1.histories[i]? = some hist1 ∧
          (beam ≠ [] →
            hist1.snapshots = hist.snapshots ++
              [(beam, pb.isEmpty ||
                  capReached bs.options.maxLengthFactor batch.batchWidth hist.size)] ∧
            hist1.sentId = hist.sentId) ∧
          (beam = [] → hist1 = hist) := by
  have hinv := stateBefore_inv bs env batch n s h
  obtain ⟨s1, hs1, hbeams, _, _, hH⟩ := searchStep_facts bs env batch n s hinv nb hnb
  refine ⟨s1, hs1, ?_⟩
  intro i beam hbi
  have hle := toHyps_length_le _ _ _ _ _ _ _ _ _ nb hnb
  have hi : i < nb.length := (List.getElem?_eq_some_iff.mp hbi).1
  have hiB : i < s.beams.length := by rw [← hle.1]; exact hi
  have hiH : i < s.histories.length := by rw [hinv.lenH, ← hinv.lenB]; exact hiB
  have hh : s.histories[i]? = some s.histories[i] := List.getElem?_eq_getElem hiH
  have hiP : i < (pruneBeam bs.trgEosId nb).length := by rw [pruneBeam_length]; exact hi
  have hp : (pruneBeam bs.trgEosId nb)[i]? = some (pruneBeam bs.trgEosId nb)[i] :=
    List.getElem?_eq_getElem hiP
  have hnew := hH.hist i beam _ _ hbi hh hp
  simp only at hnew
  refine ⟨_, _, _, hh, hp, hnew, ?_, ?_⟩
  · intro hne
    have hpos : 0 < beam.length := List.length_pos.mpr hne
    have hin : i < batch.size := by rw [← hinv.lenH]; exact hiH
    have hsb : s.beams[i]? = some s.beams[i] := List.getElem?_eq_getElem hiB
    have hone : s.beams[i] ≠ [] := by
      intro h0
      have := hle.2 i _ _ hsb hbi
      rw [h0] at this
      exact hne (List.length_eq_zero.mp (Nat.le_zero.mp this))
    have hsz := (hinv.active i _ _ hh hsb hone).1
    simp only [hin, hpos, and_self, if_true, History.Add, hsz]
  · intro he
    simp [he]

/-! ### Termination of the loop of `search` -/

theorem searchLoop_ne_outOfFuel (bs : BeamSearch) (env : Collaborators) (batch : Batch)
    (fuel n : Nat) (s : SearchState) (hs : stateBefore bs env batch n = some s)
    (hend : stateBefore bs env batch (n + fuel) = none) :
    searchLoop bs env batch fuel s ≠ Outcome.outOfFuel := by
  induction fuel generalizing n s with
  | zero => rw [Nat.add_zero, hs] at hend; exact absurd hend (by simp)
  | succ fuel ih =>
    simp only [searchLoop]
    cases hstep : searchStep bs env batch s with
    | none => simp
    | some s1 =>
      simp only
      by_cases hc : continues s1 = true
      · simp only [hc, if_true]
        refine ih (n + 1) s1 ?_ (by rw [← hend]; congr 1; omega)
        simp [stateBefore, hs, hstep, hc]
      · simp [hc]

theorem searchLoop_done (bs : BeamSearch) (env : Collaborators) (batch : Batch)
    (hprog : ∀ m s, stateBefore bs env batch m = some s →
      ∃ s1, searchStep bs env batch s = some s1)
    (fuel n : Nat) (s : SearchState) (hs : stateBefore bs env batch n = some s)
    (hend : stateBefore bs env batch (n + fuel) = none) :
    ∃ hs last, searchLoop bs env batch fuel s = Outcome.done hs last := by
  induction fuel generalizing n s with
  | zero => rw [Nat.add_zero, hs] at hend; exact absurd hend (by simp)
  | succ fuel ih =>
    obtain ⟨s1, hstep⟩ := hprog n s hs
    simp only [searchLoop, hstep]
    by_cases hc : continues s1 = true
    · simp only [hc, if_true]
      refine ih (n + 1) s1 ?_ (by rw [← hend]; congr 1; omega)
      simp [stateBefore, hs, hstep, hc]
    · exact ⟨s1.histories, s1, by simp [hc]⟩

theorem pass_bound (bs : BeamSearch) (env : Collaborators) (batch : Batch) (q wq : ℚ)
    (hf : bs.options.maxLengthFactor = F32.fin q)
    (hw : F32.ofNat batch.batchWidth = F32.fin wq) (n : Nat)
    (s : SearchState) (h : stateBefore bs env batch n = some s) :
    n + 1 ≤ max 2 (Nat.ceil (q * wq)) ∧
    ((∃ beam ∈ s.beams, beam ≠ []) → n + 1 ≤ max 1 (Nat.ceil (q * wq))) := by
  have hinv := stateBefore_inv bs env batch n s h
  have hact : (∃ beam ∈ s.beams, beam ≠ []) → 1 ≤ n → n + 1 ≤ Nat.ceil (q * wq) := by
    rintro ⟨beam, hm, hne⟩ h1
    have hcap := hinv.cap beam hm hne h1
    rw [hf] at hcap
    apply Nat.lt_ceil.mpr
    by_contra hle
    rw [capReached_of_le q wq batch.batchWidth n hw (le_of_not_lt hle)] at hcap
    exact absurd hcap (by simp)
  have hsecond : (∃ beam ∈ s.beams, beam ≠ []) → n + 1 ≤ max 1 (Nat.ceil (q * wq)) := by
    intro hex
    by_cases h1 : 1 ≤ n
    · exact le_trans (hact hex h1) (le_max_right _ _)
    · have : n = 0 := by omega
      subst this
      exact le_max_left _ _
  refine ⟨?_, hsecond⟩
  by_cases h2 : 2 ≤ n
  · obtain ⟨m, rfl⟩ : ∃ m, n = m + 1 := ⟨n - 1, by omega⟩
    obtain ⟨s0, _, _, hc⟩ := stateBefore_succ bs env batch m s h
    simp only [continues, Bool.and_eq_true, Bool.not_eq_true', decide_eq_true_eq] at hc
    have hmax : maxBeamSize s.beams ≠ 0 := by rw [← hinv.lbs2 h2]; exact hc.1
    have hex : ∃ beam ∈ s.beams, beam ≠ [] := by
      by_contra hno
      push_neg at hno
      exact hmax ((maxBeamSize_eq_zero s.beams).mpr hno)
    exact le_trans (hact hex (by omega)) (le_max_right _ _)
  · have : n + 1 ≤ 2 := by omega
    exact le_trans this (le_max_left _ _)

theorem newHistories_isSome (bs : BeamSearch) (batch : Batch)
    (h : batch.size ≤ batch.getSentenceIds.length) :
    ∃ hs, newHistories bs batch = some hs := by
  unfold newHistories
  generalize batch.size = n at h
  induction n with
  | zero => exact ⟨[], by simp⟩
  | succ n ih =>
    obtain ⟨hs, hhs⟩ := ih (by omega)
    rw [foldlM_range_succ, hhs]
    simp only [Option.some_bind]
    rw [List.getElem?_eq_getElem (by omega : n < batch.getSentenceIds.length)]
    exact ⟨_, rfl⟩

theorem unprunedBeams_isSome (bs : BeamSearch) (env : Collaborators) (batch : Batch) (n : Nat)
    (s : SearchState) (hinv : LoopInv bs batch n s) (hwf : WellFormedSelector env)
    (hsc : bs.scorers ≠ []) : ∃ nb, unprunedBeams bs env batch s = some nb := by
  obtain ⟨h1, h2, h3⟩ := hwf bs.beamSize batch.size (List.replicate batch.size s.localBeamSize)
    (maskedCosts bs env batch s) s.first
  simp only [List.sum_replicate, smul_eq_mul] at h2
  unfold unprunedBeams
  simp only [selectStep]
  by_cases hk : (env.newNthElement bs.beamSize batch.size
      (List.replicate batch.size s.localBeamSize) (maskedCosts bs env batch s) s.first).2 = []
  · rw [hk]
    exact ⟨_, by simp [toHyps, toHypsLoop]; rfl⟩
  · have hpos : 0 < (env.newNthElement bs.beamSize batch.size
        (List.replicate batch.size s.localBeamSize) (maskedCosts bs env batch s) s.first).2.length :=
      List.length_pos.mpr hk
    have hK : s.localBeamSize ≠ 0 := by
      intro h0
      have hz : batch.size * s.localBeamSize = 0 := by rw [h0, Nat.mul_zero]
      rw [hz] at h2
      omega
    exact toHyps_isSome _ _ _ _ _ _ _ _ _ hsc (h3 hk) hK h1 (by rw [hinv.lenB]; exact h2)

/-- C5 (amended): let `q` be the number that the `float` option
`max-length-factor` denotes (a finite value) and `wq` the number that the
conversion of `batchWidth` to `float` denotes (`batchWidth` itself up to
`2 ^ 24`). A pass numbered `n` (from 0) of the loop of `search` starts only if
`n + 1 ≤ max 2 ⌈q * wq⌉`, and only if `n + 1 ≤ max 1 ⌈q * wq⌉` when some beam
still holds a hypothesis at its start, whatever the scorers and the selector
return; so with that many passes allowed the loop does not run out of passes,
and with a selector that respects its contract, a first scorer and a sentence
id for every sentence, `search` returns its histories. -/
theorem search_pass_bound (bs : BeamSearch) (env : Collaborators) (batch : Batch) (q wq : ℚ)
    (hf : bs.options.maxLengthFactor = F32.fin q)
    (hw : F32.ofNat batch.batchWidth = F32.fin wq) :
    (batch.batchWidth ≤ 2 ^ 24 → wq = batch.batchWidth) ∧
    (∀ n s, stateBefore bs env batch n = some s →
      n + 1 ≤ max 2 (Nat.ceil (q * wq)) ∧
      ((∃ beam ∈ s.beams, beam ≠ []) → n + 1 ≤ max 1 (Nat.ceil (q * wq)))) ∧
    (∀ fuel, max 2 (Nat.ceil (q * wq)) ≤ fuel →
      search bs env batch fuel ≠ Outcome.outOfFuel) ∧
    (WellFormedSelector env → bs.scorers ≠ [] → batch.size ≤ batch.getSentenceIds.length →
      ∀ fuel, max 2 (Nat.ceil (q * wq)) ≤ fuel →
        ∃ hs last, search bs env batch fuel = Outcome.done hs last) := by
  have hend : ∀ fuel, max 2 (Nat.ceil (q * wq)) ≤ fuel →
      stateBefore bs env batch (0 + fuel) = none := by
    intro fuel hfu
    cases hst : stateBefore bs env batch (0 + fuel) with
    | none => rfl
    | some s =>
      have := (pass_bound bs env batch q wq hf hw _ s hst).1
      omega
  refine ⟨?_, fun n s h => pass_bound bs env batch q wq hf hw n s h, ?_, ?_⟩
  · intro h24
    rw [F32.ofNat_exact _ h24] at hw
    cases hw
    rfl
  · intro fuel hfu
    unfold search
    cases hinit : searchInit bs env batch with
    | none => simp
    | some s0 =>
      exact searchLoop_ne_outOfFuel bs env batch fuel 0 s0 hinit (hend fuel hfu)
  · intro hwf hsc hids fuel hfu
    obtain ⟨hs, hhs⟩ := newHistories_isSome bs batch hids
    have hinit : ∃ s0, searchInit bs env batch = some s0 := by
      simp [searchInit, hhs]
    obtain ⟨s0, hs0⟩ := hinit
    unfold search
    rw [hs0]
    refine searchLoop_done bs env batch ?_ fuel 0 s0 hs0 (hend fuel hfu)
    intro m s hm
    have hinv := stateBefore_inv bs env batch m s hm
    obtain ⟨nb, hnb⟩ := unprunedBeams_isSome bs env batch m s hinv hwf hsc
    obtain ⟨s1, hs1, _⟩ := searchStep_facts bs env batch m s hinv nb hnb
    exact ⟨s1, hs1⟩

/-- C5, the statement as given fails: with a length factor of 0 the bound
`⌈maxLengthFactor * batchWidth⌉` is 0, yet the `do` loop runs one pass, after
which each history holds the seed snapshot and one more. And the factor counts
as the `float` it is stored in: with the option 0.6 and a batch width of 25 the
bound over the decimal numbers is `⌈0.6 * 25⌉ = 15`, but the cap test of line
229 is still negative at history length 15. -/
theorem search_pass_bound_counterexample :
    zeroFactorSearch.options.maxLengthFactor = F32.fin 0 ∧
    F32.ofNat sampleBatch.batchWidth = F32.fin 1 ∧
    Nat.ceil ((0 : ℚ) * 1) = 0 ∧
    (search zeroFactorSearch sampleEnv sampleBatch 1).histories.map (List.map History.size)
      = some [2, 2] ∧
    ¬ (∀ n s, stateBefore zeroFactorSearch sampleEnv sampleBatch n = some s →
        n + 1 ≤ Nat.ceil ((0 : ℚ) * 1)) ∧
    Nat.ceil ((6 / 10 : ℚ) * 25) = 15 ∧
    F32.ofRat (6 / 10) = F32.fin (5033165 / 8388608) ∧
    capReached (F32.ofRat (6 / 10)) 25 15 = false := by
  have hc : Nat.ceil ((0 : ℚ) * 1) = 0 := by simp
  refine ⟨by with_unfolding_all decide, by with_unfolding_all decide, hc,
    by with_unfolding_all decide, ?_,
    by rw [show (6 / 10 : ℚ) * 25 = ((15 : Nat) : ℚ) by norm_num, Nat.ceil_natCast],
    by with_unfolding_all decide, by with_unfolding_all decide⟩
  intro h
  obtain ⟨s, hs⟩ := Option.isSome_iff_exists.mp
    (show (stateBefore zeroFactorSearch sampleEnv sampleBatch 0).isSome = true by
      with_unfolding_all decide)
  have := h 0 s hs
  rw [hc] at this
  omega

/-! ### The sample selector respects the selector contract -/

theorem nthElementCPU_fold (scores : Tensor) (first : Bool) (beamSizes : List Nat)
    (acc : Nat × Nat × List (F32 × Nat)) :
    (beamSizes.foldl
      (fun (acc : Nat × Nat × List (F32 × Nat)) k =>
        (acc.1 + 1, acc.2.1 + k,
          acc.2.2 ++ (sortDesc ((List.range ((if first then 1 else k) * scores.d3)).map
            (fun o => (scores.flat ((if first then acc.1 else acc.2.1) * scores.d3 + o),
              (if first then acc.1 else acc.2.1) * scores.d3 + o)))).take k))
      acc).2.2.length ≤ acc.2.2.length + beamSizes.sum ∧
    (scores.d3 = 0 →
      (beamSizes.foldl
        (fun (acc : Nat × Nat × List (F32 × Nat)) k =>
          (acc.1 + 1, acc.2.1 + k,
            acc.2.2 ++ (sortDesc ((List.range ((if first then 1 else k) * scores.d3)).map
              (fun o => (scores.flat ((if first then acc.1 else acc.2.1) * scores.d3 + o),
                (if first then acc.1 else acc.2.1) * scores.d3 + o)))).take k))
        acc).2.2 = acc.2.2) := by
  induction beamSizes generalizing acc with
  | nil => simp
  | cons k ks ih =>
    simp only [List.foldl_cons, List.sum_cons]
    obtain ⟨h1, h2⟩ := ih (acc.1 + 1, acc.2.1 + k,
          acc.2.2 ++ (sortDesc ((List.range ((if first then 1 else k) * scores.d3)).map
            (fun o => (scores.flat ((if first then acc.1 else acc.2.1) * scores.d3 + o),
              (if first then acc.1 else acc.2.1) * scores.d3 + o)))).take k)
    constructor
    · refine le_trans h1 ?_
      simp only [List.length_append, List.length_take]
      omega
    · intro h0
      rw [h2 h0]
      simp [h0, sortDesc]

theorem sampleEnv_wellFormed : WellFormedSelector sampleEnv := by
  intro beamSize dimBatch beamSizes scores first
  have h := nthElementCPU_fold scores first beamSizes (0, 0, [])
  simp only [sampleEnv, nthElementCPU, List.length_map, le_refl, true_and]
  refine ⟨by simpa using h.1, ?_⟩
  intro hne h0
  apply hne
  rw [h.2 h0]
  rfl

/-! ### Instances on the sample data -/

/-- Instance of C2 on the sample search, at the start of the second pass. -/
theorem search_beam_occupancy_witness :
    ∃ s, stateBefore sampleSearch sampleEnv sampleBatch 1 = some s ∧
      (∀ beam ∈ s.beams, beam.length ≤ sampleSearch.beamSize) ∧
      ∀ nb, unprunedBeams sampleSearch sampleEnv sampleBatch s = some nb →
        (∀ beam ∈ nb, beam.length ≤ sampleSearch.beamSize) ∧
        (∀ beam ∈ pruneBeam sampleSearch.trgEosId nb, beam.length ≤ sampleSearch.beamSize) ∧
        ∀ (j : Nat) (b pb : Beam), nb[j]? = some b →
          (pruneBeam sampleSearch.trgEosId nb)[j]? = some pb → pb.length ≤ b.length := by
  obtain ⟨s, hs⟩ := Option.isSome_iff_exists.mp
    (show (stateBefore sampleSearch sampleEnv sampleBatch 1).isSome = true by
      with_unfolding_all decide)
  exact ⟨s, hs, search_beam_occupancy sampleSearch sampleEnv sampleBatch 1 s hs⟩

/-- Instance of C3: sentence 0 has two candidates and a previous beam of one
hypothesis; the call returns two beams. -/
theorem toHyps_occupancy_witness :
    ∃ nb, toHyps [sampleScorer 1 5 sampleTable] false [3, 4, 7, 9] sampleCosts 5
        [[sampleEnv.newHypothesis], [sampleEnv.newHypothesis, sampleEnv.newHypothesis]] [] 2
        false = some nb ∧ nb.length = 2 := by
  have t := toHyps_occupancy [sampleScorer 1 5 sampleTable] false [3, 4, 7, 9] sampleCosts 5
    [[sampleEnv.newHypothesis], [sampleEnv.newHypothesis, sampleEnv.newHypothesis]] [] 2 false
  obtain ⟨nb, hnb⟩ := t.1 (List.cons_ne_nil _ _) (by decide) (by decide) (by decide) (by decide)
  exact ⟨nb, hnb, (t.2 nb hnb).1⟩

/-- Instance of C4 on the sample search in which sentence 1 finishes in the
first pass. -/
theorem search_final_is_last_witness :
    ∃ s hist, stateBefore earlySearch sampleEnv sampleBatch 1 = some s ∧
      s.histories[1]? = some hist ∧ (∃ snap ∈ hist.snapshots, snap.2 = true) ∧
      ∀ m s', stateBefore earlySearch sampleEnv sampleBatch (1 + m) = some s' →
        s'.histories[1]? = some hist ∧ s'.beams[1]? = some [] ∧
        ∀ s'', searchStep earlySearch sampleEnv sampleBatch s' = some s'' →
          s''.histories[1]? = some hist ∧ s''.beams[1]? = some [] := by
  have hd : (((stateBefore earlySearch sampleEnv sampleBatch 1).bind
      (fun s => s.histories[1]?)).bind
        (fun hist => hist.snapshots.find? (fun snap => snap.2))).isSome = true := by
    with_unfolding_all decide
  obtain ⟨snap, hsnap⟩ := Option.isSome_iff_exists.mp hd
  obtain ⟨hist, hhist, hfind⟩ := Option.bind_eq_some.mp hsnap
  obtain ⟨s, hs, hh⟩ := Option.bind_eq_some.mp hhist
  have hfin : ∃ snap ∈ hist.snapshots, snap.2 = true :=
    ⟨snap, List.mem_of_find?_eq_some hfind, by simpa using List.find?_some hfind⟩
  exact ⟨s, hist, hs, hh, hfin,
    search_final_is_last earlySearch sampleEnv sampleBatch 1 s hs 1 hist hh hfin⟩

/-- Instance of C5 on the sample search: three passes are enough. -/
theorem search_pass_bound_witness :
    sampleSearch.options.maxLengthFactor = F32.fin 3 ∧
    F32.ofNat sampleBatch.batchWidth = F32.fin 1 ∧
    ∃ hs last, search sampleSearch sampleEnv sampleBatch 3 = Outcome.done hs last := by
  have hf : sampleSearch.options.maxLengthFactor = F32.fin 3 := by with_unfolding_all decide
  have hw : F32.ofNat sampleBatch.batchWidth = F32.fin 1 := by with_unfolding_all decide
  have t := (search_pass_bound sampleSearch sampleEnv sampleBatch 3 1 hf hw).2.2.2
    sampleEnv_wellFormed (List.cons_ne_nil _ _) (by decide) 3
  refine ⟨hf, hw, t ?_⟩
  have : Nat.ceil ((3 : ℚ) * 1) = 3 := by
    rw [mul_one]
    exact Nat.ceil_natCast 3
  rw [this]
  decide

/-- Instance of C6: a first-step call on two seed beams. -/
theorem toHyps_first_step_witness :
    ∃ nb, toHyps [sampleScorer 1 5 sampleTable] false [3, 4, 7, 9] sampleCosts 5
        [[sampleEnv.newHypothesis, sampleEnv.newHypothesis],
         [sampleEnv.newHypothesis, sampleEnv.newHypothesis]] [] 2 true = some nb ∧
      ∃ nbj, nb[1]? = some nbj ∧
        List.Forall₂
          (fun i hyp => ∃ key seed, [3, 4, 7, 9][i]? = some key ∧
            [sampleEnv.newHypothesis, sampleEnv.newHypothesis][0]? = some seed ∧
            hyp.GetPrevStateIndex = key / 5 ∧
            hyp.GetPrevHyp = some (touch false ([] : List ScorerState).length seed) ∧
            (false = false → hyp.GetPrevHyp = some seed))
          (accepted 2 [3, 4, 7, 9].length 1
            [sampleEnv.newHypothesis, sampleEnv.newHypothesis].length) nbj := by
  obtain ⟨nb, hnb⟩ := Option.isSome_iff_exists.mp
    (show (toHyps [sampleScorer 1 5 sampleTable] false [3, 4, 7, 9] sampleCosts 5
        [[sampleEnv.newHypothesis, sampleEnv.newHypothesis],
         [sampleEnv.newHypothesis, sampleEnv.newHypothesis]] [] 2 true).isSome = true by decide)
  exact ⟨nb, hnb, toHyps_first_step _ _ _ _ _ _ _ _ nb hnb 1 _ rfl⟩

/-- Instance of C7: a call with a shortlist that maps local id `j` to `j + 100`. -/
theorem toHyps_token_witness :
    ∃ nb, toHyps [{ sampleScorer 1 5 sampleTable with getShortlist := some (fun j => j + 100) }]
        false [3, 4, 7, 9] sampleCosts 5
        [[sampleEnv.newHypothesis, sampleEnv.newHypothesis],
         [sampleEnv.newHypothesis, sampleEnv.newHypothesis]] [] 2 false = some nb ∧
      nb.map (List.map Hypothesis.GetWord) = [[103, 104], [102, 104]] ∧
      ∃ nbj, nb[0]? = some nbj ∧
        List.Forall₂
          (fun i hyp => ∃ key scorer0, [3, 4, 7, 9][i]? = some key ∧
            [{ sampleScorer 1 5 sampleTable with
                getShortlist := some (fun j => j + 100) }][0]? = some scorer0 ∧
            (scorer0.getShortlist = none → hyp.GetWord = key % 5) ∧
            (∀ reverseMap, scorer0.getShortlist = some reverseMap →
              hyp.GetWord = reverseMap (key % 5)))
          (accepted 2 [3, 4, 7, 9].length 0
            [sampleEnv.newHypothesis, sampleEnv.newHypothesis].length) nbj := by
  have hd : (toHyps [{ sampleScorer 1 5 sampleTable with
        getShortlist := some (fun j => j + 100) }]
        false [3, 4, 7, 9] sampleCosts 5
        [[sampleEnv.newHypothesis, sampleEnv.newHypothesis],
         [sampleEnv.newHypothesis, sampleEnv.newHypothesis]] [] 2 false).map
        (List.map (List.map Hypothesis.GetWord)) = some [[103, 104], [102, 104]] := by decide
  obtain ⟨nb, hnb, hw⟩ := Option.map_eq_some'.mp hd
  exact ⟨nb, hnb, hw, toHyps_token _ _ _ _ _ _ _ _ _ nb hnb 0 _ rfl⟩

/-- Instance of C8 on the sample search in which sentence 1 finishes in the
first pass, at the first pass. -/
theorem search_history_update_witness :
    ∃ s nb s1, stateBefore earlySearch sampleEnv sampleBatch 0 = some s ∧
      unprunedBeams earlySearch sampleEnv sampleBatch s = some nb ∧
      searchStep earlySearch sampleEnv sampleBatch s = some s1 ∧
      ∀ (i : Nat) (beam : Beam), nb[i]? = some beam →
        ∃ hist pb hist1, s.histories[i]? = some hist ∧
          (pruneBeam earlySearch.trgEosId nb)[i]? = some pb ∧
          s1.histories[i]? = some hist1 ∧
          (beam ≠ [] →
            hist1.snapshots = hist.snapshots ++
              [(beam, pb.isEmpty ||
                  capReached earlySearch.options.maxLengthFactor sampleBatch.batchWidth
                    hist.size)] ∧
            hist1.sentId = hist.sentId) ∧
          (beam = [] → hist1 = hist) := by
  have hd : ((stateBefore earlySearch sampleEnv sampleBatch 0).bind
      (unprunedBeams earlySearch sampleEnv sampleBatch)).isSome = true := by
    with_unfolding_all decide
  obtain ⟨nb, hnb⟩ := Option.isSome_iff_exists.mp hd
  obtain ⟨s, hs, hu⟩ := Option.bind_eq_some.mp hnb
  obtain ⟨s1, hs1, hrest⟩ := search_history_update earlySearch sampleEnv sampleBatch 0 s hs nb hu
  exact ⟨s, nb, s1, hs, hu, hs1, hrest⟩

/-- C8, the statement as given fails: the cap test is a `float` comparison.
With the option 0.1 (the `float` `13421773 / 134217728`) and a batch width of
10 the first pass marks its snapshot final at history length 1, although the
pruned beam is not empty and 1 is below the exact product; with the option 0.6
and a batch width of 25 the test is negative at history length 15, although
`15 ≥ 0.6 * 25`. -/
theorem search_history_update_counterexample :
    tenthFactorSearch.options.maxLengthFactor = F32.fin (13421773 / 134217728) ∧
    ¬ ((1 : ℚ) ≥ 13421773 / 134217728 * 10) ∧
    ((searchInit tenthFactorSearch sampleEnv wideBatch).bind
        (fun s => (searchStep tenthFactorSearch sampleEnv wideBatch s).map
          (fun s1 => (s.histories.map History.size, s1.beams.map List.length,
            s1.histories.map (fun hist => hist.snapshots.map Prod.snd)))))
      = some ([1], [1], [[false, true]]) ∧
    capReached (F32.ofRat (6 / 10)) 25 15 = false ∧ (15 : ℚ) ≥ 6 / 10 * 25 := by
  refine ⟨by with_unfolding_all decide, by norm_num, by with_unfolding_all decide,
    by with_unfolding_all decide, by norm_num⟩

/-! ### The cost tensor of a pass -/

theorem bcast_of_lt (d i : Nat) (h : i < d) : bcast d i = i := by
  unfold bcast
  split
  · omega
  · rfl

theorem max_one_or (a D : Nat) (h : a = 1 ∨ a = D) (hD : 0 < D) : max a D = D := by
  rcases h with h | h
  · rw [h]; exact Nat.max_eq_right hD
  · rw [h]; exact Nat.max_self D

theorem stepScorers_length (hI eI : List Nat) (N K : Nat) (scorers : List Scorer)
    (states : List ScorerState) (T : Tensor) :
    (stepScorers hI eI N K scorers states T).1.length = states.length := by
  induction scorers generalizing states T with
  | nil => cases states <;> simp [stepScorers]
  | cons sc scs ih =>
    cases states with
    | nil => simp [stepScorers]
    | cons st sts => simp [stepScorers, ih]

/-- Adding the scores of one scorer to a running total whose axes have extent 1
or the extent of the score tensor. -/
theorem add_scores_get (D0 D2 D3 b s v : Nat) (hb : b < D0) (hs : s < D2) (hv : v < D3)
    (w : F32) (P T : Tensor)
    (hP : P.d0 = D0 ∧ P.d1 = 1 ∧ P.d2 = D2 ∧ P.d3 = D3)
    (hT : (T.d0 = 1 ∨ T.d0 = D0) ∧ T.d1 = 1 ∧ (T.d2 = 1 ∨ T.d2 = D2) ∧ (T.d3 = 1 ∨ T.d3 = D3)) :
    ((if w ≠ F32.fin 1 then T.add (Tensor.scale w P) else T.add P).d0 = D0 ∧
     (if w ≠ F32.fin 1 then T.add (Tensor.scale w P) else T.add P).d1 = 1 ∧
     (if w ≠ F32.fin 1 then T.add (Tensor.scale w P) else T.add P).d2 = D2 ∧
     (if w ≠ F32.fin 1 then T.add (Tensor.scale w P) else T.add P).d3 = D3) ∧
    (if w ≠ F32.fin 1 then T.add (Tensor.scale w P) else T.add P).get b 0 s v
      = (if w ≠ F32.fin 1
         then F32.add (T.get (bcast T.d0 b) 0 (bcast T.d2 s) (bcast T.d3 v))
           (F32.mul w (P.get b 0 s v))
         else F32.add (T.get (bcast T.d0 b) 0 (bcast T.d2 s) (bcast T.d3 v))
           (P.get b 0 s v)) := by
  obtain ⟨p0, p1, p2, p3⟩ := hP
  obtain ⟨t0, t1, t2, t3⟩ := hT
  have hbc1 : bcast T.d1 0 = 0 := by unfold bcast; split <;> rfl
  have hb1 : bcast 1 0 = 0 := rfl
  have e0 := max_one_or T.d0 D0 t0 (by omega)
  have e2 := max_one_or T.d2 D2 t2 (by omega)
  have e3 := max_one_or T.d3 D3 t3 (by omega)
  by_cases hw : w ≠ F32.fin 1
  · rw [if_pos hw, if_pos hw]
    simp only [Tensor.add, Tensor.scale, p0, p1, p2, p3, t1,
      e0, e2, e3, hb1, bcast_of_lt _ _ hb, bcast_of_lt _ _ hs, bcast_of_lt _ _ hv, Nat.max_self,
      and_self, true_and]
  · rw [if_neg hw, if_neg hw]
    simp only [Tensor.add, p0, p1, p2, p3, t1,
      e0, e2, e3, hb1, bcast_of_lt _ _ hb, bcast_of_lt _ _ hs, bcast_of_lt _ _ hv, Nat.max_self,
      and_self, true_and]

/-- Entries of the summed tensor when the running total already has the shape
of the score tensors. -/
theorem stepScorers_get_same (hI eI : List Nat) (N K : Nat) (D0 D2 D3 b s v : Nat)
    (hb : b < D0) (hs : s < D2) (hv : v < D3)
    (scorers : List Scorer) (states : List ScorerState) (T : Tensor)
    (hdims : ∀ st ∈ (stepScorers hI eI N K scorers states T).1,
      st.getProbs.d0 = D0 ∧ st.getProbs.d1 = 1 ∧ st.getProbs.d2 = D2 ∧ st.getProbs.d3 = D3)
    (hT : T.d0 = D0 ∧ T.d1 = 1 ∧ T.d2 = D2 ∧ T.d3 = D3) :
    (stepScorers hI eI N K scorers states T).2.get b 0 s v
      = addScores scorers (stepScorers hI eI N K scorers states T).1 b s v (T.get b 0 s v) ∧
    ((stepScorers hI eI N K scorers states T).2.d0 = D0 ∧
      (stepScorers hI eI N K scorers states T).2.d1 = 1 ∧
      (stepScorers hI eI N K scorers states T).2.d2 = D2 ∧
      (stepScorers hI eI N K scorers states T).2.d3 = D3) := by
  induction scorers generalizing states T with
  | nil =>
    cases states <;> simp [stepScorers, addScores, hT]
  | cons sc scs ih =>
    cases states with
    | nil => simp [stepScorers, addScores, hT]
    | cons st sts =>
      simp only [stepScorers] at hdims ⊢
      have hP := hdims (sc.step st hI eI N K) (by simp)
      obtain ⟨a1, a2⟩ := add_scores_get D0 D2 D3 b s v hb hs hv sc.getWeight
        (sc.step st hI eI N K).getProbs T hP
        ⟨Or.inr hT.1, hT.2.1, Or.inr hT.2.2.1, Or.inr hT.2.2.2⟩
      obtain ⟨g1, g2⟩ := ih sts _ (fun st' hm => hdims st' (List.mem_cons_of_mem _ hm)) a1
      refine ⟨?_, g2⟩
      rw [g1, a2, hT.1, hT.2.2.1, hT.2.2.2, bcast_of_lt _ _ hb, bcast_of_lt _ _ hs,
        bcast_of_lt _ _ hv]
      simp only [addScores]

/-- Entries of the summed tensor of a pass with at least one scorer: the
previous cost, read with broadcasting, to which the scorers have added their
weighted scores one after the other. -/
theorem stepScorers_get (hI eI : List Nat) (N K : Nat) (D0 D2 D3 b s v : Nat)
    (hb : b < D0) (hs : s < D2) (hv : v < D3)
    (scorers : List Scorer) (states : List ScorerState) (T : Tensor)
    (hne : scorers ≠ []) (hne2 : states ≠ [])
    (hdims : ∀ st ∈ (stepScorers hI eI N K scorers states T).1,
      st.getProbs.d0 = D0 ∧ st.getProbs.d1 = 1 ∧ st.getProbs.d2 = D2 ∧ st.getProbs.d3 = D3)
    (hT : (T.d0 = 1 ∨ T.d0 = D0) ∧ T.d1 = 1 ∧ (T.d2 = 1 ∨ T.d2 = D2) ∧ (T.d3 = 1 ∨ T.d3 = D3)) :
    (stepScorers hI eI N K scorers states T).2.get b 0 s v
      = addScores scorers (stepScorers hI eI N K scorers states T).1 b s v
          (T.get (bcast T.d0 b) 0 (bcast T.d2 s) (bcast T.d3 v)) ∧
    ((stepScorers hI eI N K scorers states T).2.d0 = D0 ∧
      (stepScorers hI eI N K scorers states T).2.d1 = 1 ∧
      (stepScorers hI eI N K scorers states T).2.d2 = D2 ∧
      (stepScorers hI eI N K scorers states T).2.d3 = D3) := by
  cases scorers with
  | nil => exact absurd rfl hne
  | cons sc scs =>
    cases states with
    | nil => exact absurd rfl hne2
    | cons st sts =>
      simp only [stepScorers] at hdims ⊢
      have hP := hdims (sc.step st hI eI N K) (by simp)
      obtain ⟨a1, a2⟩ := add_scores_get D0 D2 D3 b s v hb hs hv sc.getWeight
        (sc.step st hI eI N K).getProbs T hP hT
      obtain ⟨g1, g2⟩ := stepScorers_get_same hI eI N K D0 D2 D3 b s v hb hs hv scs sts _
        (fun st' hm => hdims st' (List.mem_cons_of_mem _ hm)) a1
      refine ⟨?_, g2⟩
      rw [g1, a2]
      simp only [addScores]

theorem flat_decode (T : Tensor) (Ke N V key : Nat)
    (hT : T.d0 = Ke ∧ T.d1 = 1 ∧ T.d2 = N ∧ T.d3 = V) (hkey : key < N * Ke * V)
    (tr : Prop) [Decidable tr] (htr : ¬ tr → N ≤ 1 ∨ Ke ≤ 1) :
    (if tr then T.transpose2103 else T).flat key
      = T.get (key / V % Ke) 0 (key / V / Ke) (key % V) := by
  obtain ⟨h0, h1, h2, h3⟩ := hT
  have hV : 0 < V := by
    rcases Nat.eq_zero_or_pos V with h | h
    · rw [h] at hkey; simp at hkey
    · exact h
  have hdiv : key / V < N * Ke := (Nat.div_lt_iff_lt_mul hV).mpr hkey
  by_cases h : tr
  · rw [if_pos h]
    simp only [Tensor.flat, Tensor.transpose2103, h0, h1, h2, h3, Nat.mod_one, one_mul]
    rw [Nat.div_div_eq_div_mul, Nat.mul_comm V Ke]
  · rw [if_neg h]
    simp only [Tensor.flat, h0, h1, h2, h3, Nat.mod_one, one_mul]
    rcases htr h with hN | hK
    · have hN1 : N = 1 := by
        rcases Nat.eq_zero_or_pos N with h' | h'
        · rw [h'] at hdiv; simp at hdiv
        · omega
      subst hN1
      rw [Nat.one_mul] at hdiv ⊢
      rw [Nat.mod_one, Nat.mod_eq_of_lt hdiv, Nat.div_eq_of_lt hdiv]
    · have hK1 : Ke = 1 := by
        rcases Nat.eq_zero_or_pos Ke with h' | h'
        · rw [h'] at hdiv; simp at hdiv
        · omega
      subst hK1
      rw [Nat.mul_one] at hdiv hkey
      rw [Nat.mod_one, Nat.div_one, Nat.mod_eq_of_lt hdiv, Nat.div_eq_of_lt hkey]

/-- The three vectors of the cost assembly, slot by slot. -/
theorem costAssembly_inner (i : Nat) (beams : Beams) (acc : List Nat × List Nat × List F32) :
    beams.foldl
        (fun acc beam =>
          match beam[i]? with
          | some hyp =>
            (acc.1 ++ [hyp.GetPrevStateIndex], acc.2.1 ++ [hyp.GetWord],
              acc.2.2 ++ [hyp.GetCost])
          | none => (acc.1 ++ [0], acc.2.1 ++ [0], acc.2.2 ++ [F32.fin (-9999)]))
        acc
      = (acc.1 ++ beams.map (fun beam => match beam[i]? with
            | some hyp => hyp.GetPrevStateIndex
            | none => 0),
         acc.2.1 ++ beams.map (fun beam => match beam[i]? with
            | some hyp => hyp.GetWord
            | none => 0),
         acc.2.2 ++ beams.map (fun beam => match beam[i]? with
            | some hyp => hyp.GetCost
            | none => F32.fin (-9999))) := by
  induction beams generalizing acc with
  | nil => simp
  | cons b t ih =>
    simp only [List.foldl_cons, List.map_cons]
    rw [ih]
    cases b[i]? <;> simp

theorem costAssembly_succ (K : Nat) (beams : Beams) :
    costAssembly (K + 1) beams
      = ((costAssembly K beams).1 ++ beams.map (fun beam => match beam[K]? with
            | some hyp => hyp.GetPrevStateIndex
            | none => 0),
         (costAssembly K beams).2.1 ++ beams.map (fun beam => match beam[K]? with
            | some hyp => hyp.GetWord
            | none => 0),
         (costAssembly K beams).2.2 ++ beams.map (fun beam => match beam[K]? with
            | some hyp => hyp.GetCost
            | none => F32.fin (-9999))) := by
  simp only [costAssembly, List.range_succ, List.foldl_append, List.foldl_cons, List.foldl_nil]
  exact costAssembly_inner K beams _

theorem costAssembly_length (K : Nat) (beams : Beams) :
    (costAssembly K beams).1.length = K * beams.length ∧
    (costAssembly K beams).2.1.length = K * beams.length ∧
    (costAssembly K beams).2.2.length = K * beams.length := by
  induction K with
  | zero => simp [costAssembly]
  | succ K ih =>
    rw [costAssembly_succ]
    simp only [List.length_append, List.length_map, ih]
    refine ⟨?_, ?_, ?_⟩ <;> ring

/-- The previous cost at position `b * N + s` of `beamCosts`: the cost of
hypothesis `b` of sentence `s`, or the sentinel of a dummy hypothesis. -/
theorem costAssembly_cost (K : Nat) (beams : Beams) (b s : Nat) (hb : b < K)
    (beam : Beam) (hs : beams[s]? = some beam) :
    (costAssembly K beams).2.2.getD (b * beams.length + s) (F32.fin 0)
      = (match beam[b]? with
          | some hyp => hyp.GetCost
          | none => F32.fin (-9999)) := by
  have hsl : s < beams.length := (List.getElem?_eq_some_iff.mp hs).1
  induction K with
  | zero => omega
  | succ K ih =>
    rw [costAssembly_succ]
    simp only
    have hlen := (costAssembly_length K beams).2.2
    by_cases hbK : b < K
    · have hidx : b * beams.length + s < (costAssembly K beams).2.2.length := by
        rw [hlen]
        calc b * beams.length + s < b * beams.length + beams.length := by omega
          _ = (b + 1) * beams.length := by ring
          _ ≤ K * beams.length := Nat.mul_le_mul_right _ hbK
      rw [List.getD_append _ _ _ _ hidx]
      exact ih hbK
    · have hbe : b = K := by omega
      subst hbe
      rw [List.getD_append_right _ _ _ _ (by rw [hlen]; omega), hlen]
      simp only [Nat.add_sub_cancel_left]
      rw [List.getD_eq_getElem?_getD, List.getElem?_map, hs]
      rfl

/-! ### The cost of a new hypothesis -/

theorem searchStep_states (bs : BeamSearch) (env : Collaborators) (batch : Batch)
    (s s1 : SearchState) (h : searchStep bs env batch s = some s1) :
    s1.states = (steppedCosts bs batch s).1 := by
  unfold searchStep at h
  simp only at h
  split at h
  · exact absurd h (by simp)
  · split at h
    · exact absurd h (by simp)
    · cases h
      rfl

theorem stateBefore_states_length (bs : BeamSearch) (env : Collaborators) (batch : Batch)
    (n : Nat) (s : SearchState) (h : stateBefore bs env batch n = some s) :
    s.states.length = bs.scorers.length := by
  induction n generalizing s with
  | zero =>
    simp only [stateBefore, searchInit] at h
    split at h
    · exact absurd h (by simp)
    · cases h; simp
  | succ n ih =>
    obtain ⟨s0, hs0, hstep, _⟩ := stateBefore_succ bs env batch n s h
    rw [searchStep_states bs env batch s0 s hstep]
    simp only [steppedCosts]
    rw [stepScorers_length]
    exact ih s0 hs0

theorem stateBefore_zero_seed (bs : BeamSearch) (env : Collaborators) (batch : Batch)
    (s : SearchState) (h : stateBefore bs env batch 0 = some s) :
    ∀ beam ∈ s.beams, ∀ hyp ∈ beam, hyp = env.newHypothesis := by
  simp only [stateBefore, searchInit] at h
  split at h
  · exact absurd h (by simp)
  · cases h
    intro beam hb hyp hh
    simp only [List.mem_replicate] at hb
    rw [hb.2] at hh
    exact (List.mem_replicate.mp hh).2

theorem steppedCosts_dims_get (bs : BeamSearch) (env : Collaborators) (batch : Batch) (n : Nat)
    (s : SearchState) (h : stateBefore bs env batch n = some s) (V : Nat)
    (hsc : bs.scorers ≠ [])
    (hdims : ∀ st ∈ (steppedCosts bs batch s).1,
      st.getProbs.d0 = effectiveSlots s ∧ st.getProbs.d1 = 1 ∧ st.getProbs.d2 = batch.size ∧
        st.getProbs.d3 = V)
    (b j v : Nat) (hb : b < effectiveSlots s) (hj : j < batch.size) (hv : v < V) :
    ((steppedCosts bs batch s).2.d0 = effectiveSlots s ∧ (steppedCosts bs batch s).2.d1 = 1 ∧
      (steppedCosts bs batch s).2.d2 = batch.size ∧ (steppedCosts bs batch s).2.d3 = V) ∧
    (steppedCosts bs batch s).2.get b 0 j v
      = addScores bs.scorers (steppedCosts bs batch s).1 b j v
          (if s.first then F32.fin 0
           else (costAssembly s.localBeamSize s.beams).2.2.getD (b * batch.size + j)
             (F32.fin 0)) := by
  have hst : s.states ≠ [] := by
    intro h0
    have := stateBefore_states_length bs env batch n s h
    rw [h0] at this
    exact hsc (List.length_eq_zero.mp this.symm)
  unfold steppedCosts at hdims ⊢
  simp only at hdims ⊢
  by_cases hf : s.first = true
  · simp only [prevCostsOf, hf, if_true] at hdims ⊢
    obtain ⟨g1, g2⟩ := stepScorers_get [] [] batch.size s.localBeamSize (effectiveSlots s)
      batch.size V b j v hb hj hv bs.scorers s.states (Tensor.fromValue (F32.fin 0)) hsc hst hdims
      ⟨Or.inl rfl, rfl, Or.inl rfl, Or.inl rfl⟩
    refine ⟨g2, ?_⟩
    rw [g1]
    simp [Tensor.fromValue]
  · have hK : effectiveSlots s = s.localBeamSize := by simp [effectiveSlots, hf]
    simp only [prevCostsOf, hf, Bool.false_eq_true, if_false] at hdims ⊢
    obtain ⟨g1, g2⟩ := stepScorers_get (costAssembly s.localBeamSize s.beams).1
      (costAssembly s.localBeamSize s.beams).2.1 batch.size s.localBeamSize (effectiveSlots s)
      batch.size V b j v hb hj hv bs.scorers s.states
      (Tensor.fromVector s.localBeamSize 1 batch.size 1
        (costAssembly s.localBeamSize s.beams).2.2) hsc hst hdims
      ⟨Or.inr hK.symm, rfl, Or.inr rfl, Or.inl rfl⟩
    refine ⟨g2, ?_⟩
    rw [g1]
    simp only [Tensor.fromVector]
    rw [bcast_of_lt _ _ (by rw [← hK]; exact hb), bcast_of_lt _ _ hj]
    have hb1 : bcast 1 v = 0 := rfl
    simp [hb1]

theorem foldl_inPlace_d3 (states : List ScorerState) (t : Tensor) :
    (states.foldl (fun t state => inPlace state.blacklist t) t).d3 = t.d3 := by
  induction states generalizing t with
  | nil => rfl
  | cons st sts ih => rw [List.foldl_cons, ih]; rfl

/-- Masking writes entries in place: the vocabulary axis of the tensor handed to
the selector is the one of the summed cost tensor. -/
theorem maskedCosts_d3 (bs : BeamSearch) (env : Collaborators) (batch : Batch)
    (s : SearchState) :
    (maskedCosts bs env batch s).d3 = (transposedCosts bs batch s).d3 := by
  unfold maskedCosts
  simp only
  rw [foldl_inPlace_d3]
  split <;> rfl

theorem toHyps_scorers_ne_nil (scorers : List Scorer) (nBest : Bool) (keys : List Nat)
    (costs : List F32) (vocabSize : Nat) (beams : Beams) (states : List ScorerState)
    (beamSize : Nat) (first : Bool) (nb : Beams)
    (h : toHyps scorers nBest keys costs vocabSize beams states beamSize first = some nb)
    (hk : keys ≠ []) : scorers ≠ [] := by
  intro h0
  subst h0
  obtain ⟨n, hn⟩ := Nat.exists_eq_succ_of_ne_zero (fun h0 => hk (List.length_eq_zero.mp h0))
  unfold toHyps at h
  rw [hn, toHypsLoop_succ] at h
  obtain ⟨st, hst, _⟩ := Option.map_eq_some'.mp h
  obtain ⟨st0, _, h1⟩ := Option.bind_eq_some.mp hst
  rw [toHypsBody_no_scorer [] (by simp)] at h1
  exact absurd h1 (by simp)

/-- The hypothesis built in a pass of `search` for an accepted rank that
satisfies the selector contract: its parent is the hypothesis in the selected
slot, and its cost is the cost of that parent plus the combined score. -/
theorem search_child_facts (bs : BeamSearch) (env : Collaborators) (batch : Batch) (n : Nat)
    (s : SearchState) (h : stateBefore bs env batch n = some s) (nb : Beams)
    (hnb : unprunedBeams bs env batch s = some nb) (V : Nat)
    (hdims : ∀ st ∈ (steppedCosts bs batch s).1,
      st.getProbs.d0 = effectiveSlots s ∧ st.getProbs.d1 = 1 ∧ st.getProbs.d2 = batch.size ∧
        st.getProbs.d3 = V)
    (hseed : env.newHypothesis.GetCost = F32.fin 0)
    (j : Nat) (beam : Beam) (hj : s.beams[j]? = some beam) :
    ∃ nbj, nb[j]? = some nbj ∧
      List.Forall₂
        (fun i hyp => rankContract bs env batch s V j beam.length i = true →
          ∃ key parent, (selectStep bs env batch s).2.1.2[i]? = some key ∧
            beam[key / V % effectiveSlots s]? = some parent ∧
            hyp = Hypothesis.mk
              (some (touch bs.options.nBest (steppedCosts bs batch s).1.length parent))
              (embIdxOf (firstShortlist bs.scorers) key V)
              (hypIdxTrans (key / V) s.localBeamSize s.beams.length s.first)
              (addScores bs.scorers (steppedCosts bs batch s).1
                (key / V % effectiveSlots s) j (key % V) parent.GetCost)
              (if bs.options.nBest then
                breakDownOf (steppedCosts bs batch s).1
                  (embIdxOf (firstShortlist bs.scorers) key V
                    + hypIdxTrans (key / V) s.localBeamSize s.beams.length s.first * V)
                  (resize parent.GetCostBreakdown (steppedCosts bs batch s).1.length)
               else []))
        (accepted s.localBeamSize (selectStep bs env batch s).2.1.2.length j beam.length)
        nbj := by
  have hinv := stateBefore_inv bs env batch n s h
  unfold unprunedBeams at hnb
  simp only at hnb
  have hS : (selectStep bs env batch s).1 = (steppedCosts bs batch s).1 := rfl
  rw [hS] at hnb
  obtain ⟨nbj, hnbj, hF⟩ := (toHyps_built _ _ _ _ _ _ _ _ _ nb hnb).2 j beam hj
  refine ⟨nbj, hnbj, ?_⟩
  have hmem : ∀ i ∈ accepted s.localBeamSize (selectStep bs env batch s).2.1.2.length j
      beam.length, i / s.localBeamSize = j := by
    intro i hi
    have := List.mem_of_mem_take hi
    simpa using (List.mem_filter.mp this).2
  refine List.Forall₂.imp ?_ ((List.forall₂_and_left _ _).mpr ⟨hmem, hF⟩)
  rintro i hyp ⟨hij, key, cost, beam', parent, hk, hc, hb', hp, hhyp⟩ hcon
  rw [hij, hj] at hb'
  cases hb'
  -- the selector contract for this rank
  unfold rankContract at hcon
  rw [hk, hc] at hcon
  simp only [Bool.and_eq_true, decide_eq_true_eq] at hcon
  obtain ⟨⟨⟨hrange, hsent⟩, hslot⟩, hcost⟩ := hcon
  have hsc : bs.scorers ≠ [] := toHyps_scorers_ne_nil _ _ _ _ _ _ _ _ _ nb hnb
    (by intro h0; rw [h0] at hk; simp at hk)
  have hVpos : 0 < V := by
    rcases Nat.eq_zero_or_pos V with h0 | h0
    · rw [h0] at hrange; simp at hrange
    · exact h0
  have hdiv : key / V < batch.size * effectiveSlots s := (Nat.div_lt_iff_lt_mul hVpos).mpr hrange
  have hKe : 0 < effectiveSlots s := by
    rcases Nat.eq_zero_or_pos (effectiveSlots s) with h0 | h0
    · rw [h0] at hdiv; simp at hdiv
    · exact h0
  have hb : key / V % effectiveSlots s < effectiveSlots s := Nat.mod_lt _ hKe
  have hjN : j < batch.size := by
    rw [← hinv.lenB]; exact (List.getElem?_eq_some_iff.mp hj).1
  have hv : key % V < V := Nat.mod_lt _ hVpos
  obtain ⟨hTd, hget⟩ := steppedCosts_dims_get bs env batch n s h V hsc hdims
    (key / V % effectiveSlots s) j (key % V) hb hjN hv
  -- the vocabulary size that `toHyps` receives is the one of the score tensors
  have hVV : (selectStep bs env batch s).2.2 = V := by
    show (maskedCosts bs env batch s).d3 = V
    rw [maskedCosts_d3]
    unfold transposedCosts
    simp only
    split
    · exact hTd.2.2.2
    · exact hTd.2.2.2
  rw [hVV] at hp hhyp
  subst hhyp
  have hflat : (transposedCosts bs batch s).flat key
      = (steppedCosts bs batch s).2.get (key / V % effectiveSlots s) 0 j (key % V) := by
    unfold transposedCosts
    simp only
    rw [flat_decode (steppedCosts bs batch s).2 (effectiveSlots s) batch.size V key hTd hrange
      (batch.size > 1 ∧ s.localBeamSize > 1) ?_, hsent]
    intro hno
    by_cases hf : s.first = true
    · right; simp [effectiveSlots, hf]
    · simp only [effectiveSlots, hf, Bool.false_eq_true, if_false]
      by_cases hN : batch.size ≤ 1
      · exact Or.inl hN
      · right
        by_contra hK
        exact hno ⟨by omega, by omega⟩
  -- the slot of the parent and its cost
  have hparent : beamHypIdx (key / V) s.localBeamSize beam.length s.first
      = key / V % effectiveSlots s := by
    by_cases hf : s.first = true
    · simp [beamHypIdx, effectiveSlots, hf, Nat.mod_one]
    · have hK : effectiveSlots s = s.localBeamSize := by simp [effectiveSlots, hf]
      rw [hK] at hslot ⊢
      simp only [beamHypIdx, hf, Bool.false_eq_true, if_false]
      rw [if_neg (by omega)]
  rw [hparent] at hp
  have hprev : (if s.first then F32.fin 0
      else (costAssembly s.localBeamSize s.beams).2.2.getD
        (key / V % effectiveSlots s * batch.size + j) (F32.fin 0)) = parent.GetCost := by
    by_cases hf : s.first = true
    · rw [if_pos hf]
      have hn0 : n = 0 := by
        have := hinv.first
        rw [hf] at this
        simpa using this.symm
      subst hn0
      rw [stateBefore_zero_seed bs env batch s h beam (List.getElem?_mem hj) parent
        (List.getElem?_mem hp), hseed]
    · rw [if_neg hf]
      have hK : effectiveSlots s = s.localBeamSize := by simp [effectiveSlots, hf]
      have := costAssembly_cost s.localBeamSize s.beams (key / V % effectiveSlots s) j
        (by rw [← hK]; exact hb) beam hj
      rw [hinv.lenB, hp] at this
      exact this
  refine ⟨key, parent, hk, hp, ?_⟩
  rw [hcost, hflat, hget, hprev]

theorem F32.round_zero : F32.round 0 = F32.fin 0 := by
  simp [F32.round]

theorem F32.add_zero_of_isValue (x : F32) (h : x.IsValue) : F32.add x (F32.fin 0) = x := by
  cases x with
  | fin q =>
    simp only [F32.add, add_zero]
    exact h
  | pinf => rfl
  | ninf => rfl
  | nan => rfl

theorem F32.fin_zero_ne_one : F32.fin 0 ≠ F32.fin 1 := by
  intro h
  injection h with h
  exact absurd h (by norm_num)

theorem addScores_zero_weights (scorers : List Scorer) (states : List ScorerState)
    (b s v : Nat) (total : F32) (hw : ∀ scorer ∈ scorers, scorer.getWeight = F32.fin 0)
    (hfin : ∀ state ∈ states, (state.getProbs.get b 0 s v).isFinite = true)
    (hv : total.IsValue) : addScores scorers states b s v total = total := by
  induction scorers generalizing states with
  | nil => cases states <;> simp [addScores]
  | cons sc scs ih =>
    cases states with
    | nil => simp [addScores]
    | cons st sts =>
      have h1 := hw sc (by simp)
      have h2 := hfin st (by simp)
      simp only [addScores]
      rw [h1, if_pos F32.fin_zero_ne_one]
      cases hsc : st.getProbs.get b 0 s v with
      | fin x =>
        have hm : F32.mul (F32.fin 0) (F32.fin x) = F32.fin 0 := by
          simp [F32.mul, F32.round_zero]
        rw [hm, F32.add_zero_of_isValue total hv]
        exact ih sts (fun x hx => hw x (List.mem_cons_of_mem _ hx))
          (fun x hx => hfin x (List.mem_cons_of_mem _ hx))
      | pinf => rw [hsc] at h2; exact absurd h2 (by simp [F32.isFinite])
      | ninf => rw [hsc] at h2; exact absurd h2 (by simp [F32.isFinite])
      | nan => rw [hsc] at h2; exact absurd h2 (by simp [F32.isFinite])

/-- C9 (amended): in a pass of `search` in which every scorer returns a score
tensor of the shape of the pass and the seed hypothesis has cost 0, every
hypothesis built for an accepted rank that meets the selector contract (key
inside the block of its sentence, in a slot that holds a hypothesis, returned
cost equal to the unmasked entry of the summed cost tensor) has the hypothesis
of that slot as parent, and its cost is the `float` that lines 185-195 compute
from the parent's cost: scorer after scorer, the product of the weight and the
score of the selected candidate is added to the running total, each product and
each sum rounded to `float`, a weight of 1 not multiplied in. With one scorer
this is the rounded sum of the parent's cost and the rounded product
`weight * score`; with all weights zero and finite scores the hypothesis costs
what its parent costs. -/
theorem search_child_cost (bs : BeamSearch) (env : Collaborators) (batch : Batch) (n : Nat)
    (s : SearchState) (h : stateBefore bs env batch n = some s) (nb : Beams)
    (hnb : unprunedBeams bs env batch s = some nb) (V : Nat)
    (hdims : ∀ st ∈ (steppedCosts bs batch s).1,
      st.getProbs.d0 = effectiveSlots s ∧ st.getProbs.d1 = 1 ∧ st.getProbs.d2 = batch.size ∧
        st.getProbs.d3 = V)
    (hseed : env.newHypothesis.GetCost = F32.fin 0)
    (j : Nat) (beam : Beam) (hj : s.beams[j]? = some beam) :
    ∃ nbj, nb[j]? = some nbj ∧
      List.Forall₂
        (fun i hyp => rankContract bs env batch s V j beam.length i = true →
          ∃ key slotHyp parent, (selectStep bs env batch s).2.1.2[i]? = some key ∧
            beam[key / V % effectiveSlots s]? = some slotHyp ∧
            hyp.GetPrevHyp = some parent ∧
            parent = touch bs.options.nBest (steppedCosts bs batch s).1.length slotHyp ∧
            parent.GetCost = slotHyp.GetCost ∧
            hyp.GetCost = addScores bs.scorers (steppedCosts bs batch s).1
              (key / V % effectiveSlots s) j (key % V) parent.GetCost ∧
            (∀ scorer state, bs.scorers = [scorer] → (steppedCosts bs batch s).1 = [state] →
              hyp.GetCost = F32.add parent.GetCost
                (if scorer.getWeight ≠ F32.fin 1
                 then F32.mul scorer.getWeight
                   (state.getProbs.get (key / V % effectiveSlots s) 0 j (key % V))
                 else state.getProbs.get (key / V % effectiveSlots s) 0 j (key % V))) ∧
            ((∀ scorer ∈ bs.scorers, scorer.getWeight = F32.fin 0) →
              (∀ state ∈ (steppedCosts bs batch s).1,
                (state.getProbs.get (key / V % effectiveSlots s) 0 j (key % V)).isFinite
                  = true) →
              parent.GetCost.IsValue → hyp.GetCost = parent.GetCost))
        (accepted s.localBeamSize (selectStep bs env batch s).2.1.2.length j beam.length)
        nbj := by
  obtain ⟨nbj, hnbj, hF⟩ := search_child_facts bs env batch n s h nb hnb V hdims hseed j
    beam hj
  refine ⟨nbj, hnbj, List.Forall₂.imp ?_ hF⟩
  intro i hyp hi hcon
  obtain ⟨key, slotHyp, hk, hp, rfl⟩ := hi hcon
  have htc : (touch bs.options.nBest (steppedCosts bs batch s).1.length slotHyp).GetCost
      = slotHyp.GetCost := by
    cases slotHyp with
    | mk p w ix c bd =>
      cases bs.options.nBest <;> simp [touch, Hypothesis.resizeBreakdown, Hypothesis.GetCost]
  refine ⟨key, slotHyp, _, hk, hp, rfl, rfl, htc, ?_, ?_, ?_⟩
  · rw [htc]; rfl
  · intro scorer state h1 h2
    rw [htc]
    simp only [Hypothesis.GetCost, h1, h2, addScores]
    split <;> rfl
  · intro hz hfin hval
    rw [htc] at hval ⊢
    simp only [Hypothesis.GetCost]
    exact addScores_zero_weights _ _ _ _ _ _ hz hfin hval

theorem some_getD_of_isSome {α : Type} (o : Option α) (d : α) (h : o.isSome = true) :
    o = some (o.getD d) := by
  cases o with
  | none => exact absurd h (by simp)
  | some x => rfl

/-- Instance of C9 on the sample search, second pass, sentence 0: the one
accepted rank meets the contract and the new hypothesis costs what the scorer
adds to its parent's cost. -/
theorem search_child_cost_witness :
    ∃ nb hyp parent key, stateBefore sampleSearch sampleEnv sampleBatch 1
        = some sampleSecondPass ∧
      unprunedBeams sampleSearch sampleEnv sampleBatch sampleSecondPass = some nb ∧
      nb[0]? = some [hyp] ∧
      (selectStep sampleSearch sampleEnv sampleBatch sampleSecondPass).2.1.2[0]? = some key ∧
      hyp.GetPrevHyp = some parent ∧
      hyp.GetCost = addScores sampleSearch.scorers
        (steppedCosts sampleSearch sampleBatch sampleSecondPass).1
        (key / 3 % effectiveSlots sampleSecondPass) 0 (key % 3) parent.GetCost := by
  have hs : stateBefore sampleSearch sampleEnv sampleBatch 1 = some sampleSecondPass :=
    some_getD_of_isSome _ _ (by with_unfolding_all decide)
  obtain ⟨nb, hnb⟩ := Option.isSome_iff_exists.mp
    (show (unprunedBeams sampleSearch sampleEnv sampleBatch sampleSecondPass).isSome = true by
      with_unfolding_all decide)
  have hbeam : sampleSecondPass.beams[0]? = some (sampleSecondPass.beams[0]?.getD []) :=
    some_getD_of_isSome _ _ (by with_unfolding_all decide)
  obtain ⟨nbj, hnbj, hF⟩ := search_child_cost sampleSearch sampleEnv sampleBatch 1 _ hs nb hnb 3
    (by with_unfolding_all decide) rfl 0 _ hbeam
  have hacc : accepted sampleSecondPass.localBeamSize
      (selectStep sampleSearch sampleEnv sampleBatch sampleSecondPass).2.1.2.length 0
      (sampleSecondPass.beams[0]?.getD []).length = [0] := by
    with_unfolding_all decide
  rw [hacc] at hF
  obtain ⟨hyp, rest, hR, hrest, rfl⟩ := List.forall₂_cons_left_iff.mp hF
  cases List.forall₂_nil_left_iff.mp hrest
  obtain ⟨key, slotHyp, parent, hk, _, hpar, _, _, hcost, _⟩ := hR
    (by with_unfolding_all decide)
  exact ⟨nb, hyp, parent, key, hs, hnb, hnbj, hk, hpar, hcost⟩

/-- C9, the statement as given fails: in the second pass of the sample search
with `padTable` the beam holds one hypothesis of cost `-20000` while the working
width is 2; the best candidate lies in the dummy slot (previous cost `-9999`),
the wrap of line 69 resolves its parent to the hypothesis of slot 0, and the new
hypothesis costs `-10000`, not the `-20001` that the scorer would add up from
the parent's `-20000` for the selected candidate. And a sum is rounded: the
`float` sum of `-33554430` and `-16777215` is `-50331644`. -/
theorem search_child_cost_counterexample :
    (∃ parent key, stateBefore padSearch sampleEnv padBatch 1 = some padSecondPass ∧
      unprunedBeams padSearch sampleEnv padBatch padSecondPass = some padSecondBeams ∧
      padSecondBeams[0]? = some [padChild] ∧
      (selectStep padSearch sampleEnv padBatch padSecondPass).2.1.2[0]? = some key ∧
      padChild.GetPrevHyp = some parent ∧
      padChild.GetCost = F32.fin (-10000) ∧ parent.GetCost = F32.fin (-20000) ∧
      addScores padSearch.scorers (steppedCosts padSearch padBatch padSecondPass).1
        (key / 2 % effectiveSlots padSecondPass) (key / 2 / effectiveSlots padSecondPass)
        (key % 2) parent.GetCost = F32.fin (-20001) ∧
      padChild.GetCost ≠ addScores padSearch.scorers
        (steppedCosts padSearch padBatch padSecondPass).1
        (key / 2 % effectiveSlots padSecondPass) (key / 2 / effectiveSlots padSecondPass)
        (key % 2) parent.GetCost) ∧
    F32.add (F32.fin (-33554430)) (F32.fin (-16777215)) = F32.fin (-50331644) ∧
    (-33554430 : ℚ) + -16777215 = -50331645 := by
  have hpar : padChild.GetPrevHyp
      = some (padChild.GetPrevHyp.getD sampleEnv.newHypothesis) :=
    some_getD_of_isSome _ _ (by with_unfolding_all decide)
  refine ⟨⟨padChild.GetPrevHyp.getD sampleEnv.newHypothesis, 2,
    some_getD_of_isSome _ _ (by with_unfolding_all decide),
    some_getD_of_isSome _ _ (by with_unfolding_all decide), ?_, ?_, hpar, ?_, ?_, ?_, ?_⟩,
    by with_unfolding_all decide, by norm_num⟩
  · have h1 : padSecondBeams[0]? = some (padSecondBeams[0]?.getD []) :=
      some_getD_of_isSome _ _ (by with_unfolding_all decide)
    have h2 : (padSecondBeams[0]?.getD []).length = 1 := by with_unfolding_all decide
    rw [h1]
    congr 1
    unfold padChild
    cases hb : padSecondBeams[0]?.getD [] with
    | nil => rw [hb] at h2; simp at h2
    | cons x t =>
      rw [hb] at h2
      have ht : t = [] := List.length_eq_zero.mp (by simpa using h2)
      subst ht
      simp
  · with_unfolding_all decide
  · with_unfolding_all decide
  · with_unfolding_all decide
  · with_unfolding_all decide
  · with_unfolding_all decide

/-! ### The cost breakdown of a new hypothesis -/

theorem F32.within_spec (M : ℚ) (x : F32) (h : F32.within M x = true) :
    ∃ q, x = F32.fin q ∧ |q| ≤ M := by
  cases x with
  | fin q =>
    simp only [F32.within, F32.isFinite, F32.toRat, Bool.true_and, decide_eq_true_eq] at h
    exact ⟨q, rfl, h⟩
  | pinf => simp [F32.within, F32.isFinite] at h
  | ninf => simp [F32.within, F32.isFinite] at h
  | nan => simp [F32.within, F32.isFinite] at h

theorem F32.allowance_nonneg (M : ℚ) (hM : 0 ≤ M) : 0 ≤ F32.allowance M := by
  unfold F32.allowance
  positivity

theorem F32.add_error (a b : F32) (M : ℚ) (h : F32.within M (F32.add a b) = true) :
    ∃ x y r, a = F32.fin x ∧ b = F32.fin y ∧ F32.add a b = F32.fin r ∧
      |r - (x + y)| ≤ F32.allowance M := by
  obtain ⟨r, hr, hrM⟩ := F32.within_spec M _ h
  obtain ⟨x, y, hx, hy, hround⟩ := F32.add_eq_fin a b r hr
  refine ⟨x, y, r, hx, hy, hr, ?_⟩
  have := F32.round_error (x + y) r hround
  unfold F32.allowance
  have : |r| / 2 ^ 24 ≤ M / 2 ^ 24 := div_le_div_of_nonneg_right hrM (by positivity)
  linarith

theorem F32.mul_error (a b : F32) (M : ℚ) (h : F32.within M (F32.mul a b) = true) :
    ∃ x y r, a = F32.fin x ∧ b = F32.fin y ∧ F32.mul a b = F32.fin r ∧
      |r - x * y| ≤ F32.allowance M := by
  obtain ⟨r, hr, hrM⟩ := F32.within_spec M _ h
  obtain ⟨x, y, hx, hy, hround⟩ := F32.mul_eq_fin a b r hr
  refine ⟨x, y, r, hx, hy, hr, ?_⟩
  have := F32.round_error (x * y) r hround
  unfold F32.allowance
  have : |r| / 2 ^ 24 ≤ M / 2 ^ 24 := div_le_div_of_nonneg_right hrM (by positivity)
  linarith

/-- The running total after all scorers differs from the exact sum of the
starting total and the weighted scores by at most two rounding allowances per
scorer. -/
theorem addScores_error (M : ℚ) (hM : 0 ≤ M) (scorers : List Scorer)
    (states : List ScorerState) (b s v : Nat) (total : F32) (t : ℚ)
    (ht : total = F32.fin t)
    (hres : ∀ x ∈ addScoresResults scorers states b s v total, F32.within M x = true) :
    ∃ r, addScores scorers states b s v total = F32.fin r ∧
      |r - t - (List.zipWith
          (fun scorer state => scorer.getWeight.toRat * (state.getProbs.get b 0 s v).toRat)
          scorers states).sum| ≤ 2 * (scorers.length : ℚ) * F32.allowance M := by
  have hal := F32.allowance_nonneg M hM
  induction scorers generalizing states total t with
  | nil =>
    refine ⟨t, by cases states <;> simp [addScores, ht], ?_⟩
    simp
  | cons sc scs ih =>
    cases states with
    | nil =>
      refine ⟨t, by simp [addScores, ht], ?_⟩
      simp only [List.zipWith_nil_right, List.sum_nil, sub_self, sub_zero, abs_zero]
      positivity
    | cons st sts =>
      simp only [addScores, addScoresResults] at hres ⊢
      by_cases hw : sc.getWeight ≠ F32.fin 1
      · rw [if_pos hw] at hres ⊢
        obtain ⟨wq, sq, pq, hwq, hsq, hp, hpe⟩ := F32.mul_error sc.getWeight
          (st.getProbs.get b 0 s v) M (hres _ (List.mem_cons_self _ _))
        obtain ⟨x, y, tq, hx, hy, htq, hte⟩ := F32.add_error total
          (F32.mul sc.getWeight (st.getProbs.get b 0 s v)) M
          (hres _ (List.mem_cons_of_mem _ (List.mem_cons_self _ _)))
        rw [ht] at hx
        injection hx with hx
        rw [hp] at hy
        injection hy with hy
        subst hx hy
        obtain ⟨r, hr, hre⟩ := ih sts _ tq htq
          (fun z hz => hres z (List.mem_cons_of_mem _ (List.mem_cons_of_mem _ hz)))
        refine ⟨r, hr, ?_⟩
        have e1 : sc.getWeight.toRat = wq := by rw [hwq]; rfl
        have e2 : (st.getProbs.get b 0 s v).toRat = sq := by rw [hsq]; rfl
        simp only [List.zipWith_cons_cons, List.sum_cons, List.length_cons, e1, e2]
        push_cast
        rw [abs_le] at hre hpe hte ⊢
        constructor <;> linarith [hre.1, hre.2, hpe.1, hpe.2, hte.1, hte.2]
      · rw [if_neg hw] at hres ⊢
        have hw1 : sc.getWeight = F32.fin 1 := by
          by_contra hne; exact hw hne
        obtain ⟨x, sq, tq, hx, hsq, htq, hte⟩ := F32.add_error total
          (st.getProbs.get b 0 s v) M (hres _ (List.mem_cons_self _ _))
        rw [ht] at hx
        injection hx with hx
        subst hx
        obtain ⟨r, hr, hre⟩ := ih sts _ tq htq
          (fun z hz => hres z (List.mem_cons_of_mem _ hz))
        refine ⟨r, hr, ?_⟩
        have e1 : sc.getWeight.toRat = 1 := by rw [hw1]; rfl
        have e2 : (st.getProbs.get b 0 s v).toRat = sq := by rw [hsq]; rfl
        simp only [List.zipWith_cons_cons, List.sum_cons, List.length_cons, e1, e2, one_mul]
        push_cast
        rw [abs_le] at hre hte ⊢
        constructor <;> linarith [hre.1, hre.2, hte.1, hte.2]
theorem flat_untransposed (T : Tensor) (Ke N V b j v : Nat)
    (hT : T.d0 = Ke ∧ T.d1 = 1 ∧ T.d2 = N ∧ T.d3 = V) (hj : j < N) (hv : v < V) :
    T.flat (v + (j + b * N) * V) = T.get b 0 j v := by
  obtain ⟨h0, h1, h2, h3⟩ := hT
  have hV : 0 < V := by omega
  have hN : 0 < N := by omega
  have e1 : (v + (j + b * N) * V) / V = j + b * N := by
    rw [Nat.add_mul_div_right _ _ hV, Nat.div_eq_of_lt hv, Nat.zero_add]
  have e2 : (v + (j + b * N) * V) % V = v := by
    rw [Nat.add_mul_mod_self_right, Nat.mod_eq_of_lt hv]
  have e3 : (v + (j + b * N) * V) / (N * V) = b := by
    rw [Nat.mul_comm N V, ← Nat.div_div_eq_div_mul, e1, Nat.add_mul_div_right _ _ hN,
      Nat.div_eq_of_lt hj, Nat.zero_add]
  have e4 : (j + b * N) % N = j := by
    rw [Nat.add_mul_mod_self_right, Nat.mod_eq_of_lt hj]
  simp only [Tensor.flat, h1, h2, h3, Nat.mod_one, one_mul, e1, e2, e3, e4]

theorem zipWith_congr_mem {α β γ : Type} (f g : α → β → γ) (l1 : List α) (l2 : List β)
    (h : ∀ b ∈ l2, ∀ a, f a b = g a b) : List.zipWith f l1 l2 = List.zipWith g l1 l2 := by
  induction l1 generalizing l2 with
  | nil => simp
  | cons a t ih =>
    cases l2 with
    | nil => simp
    | cons b t2 =>
      simp only [List.zipWith_cons_cons]
      rw [h b (by simp) a, ih t2 (fun b' hb' => h b' (List.mem_cons_of_mem _ hb'))]

theorem zipWith_congr_mem_left {α β γ : Type} (f g : α → β → γ) (l1 : List α) (l2 : List β)
    (h : ∀ a ∈ l1, ∀ b, f a b = g a b) : List.zipWith f l1 l2 = List.zipWith g l1 l2 := by
  induction l1 generalizing l2 with
  | nil => simp
  | cons a t ih =>
    cases l2 with
    | nil => simp
    | cons b t2 =>
      simp only [List.zipWith_cons_cons]
      rw [h a (by simp) b, ih t2 (fun a' ha' => h a' (List.mem_cons_of_mem _ ha'))]

theorem forall₂_mem_right {α β : Type} {R : α → β → Prop} {l1 : List α} {l2 : List β}
    (h : List.Forall₂ R l1 l2) : ∀ b ∈ l2, ∃ a ∈ l1, R a b := by
  induction h with
  | nil => intro b hb; simp at hb
  | cons hab _ ih =>
    intro b hb
    rcases List.mem_cons.mp hb with hb | hb
    · subst hb; exact ⟨_, by simp, hab⟩
    · obtain ⟨a, ha, hr⟩ := ih b hb
      exact ⟨a, List.mem_cons_of_mem _ ha, hr⟩

theorem getCostBreakdown_mk (p : Option Hypothesis) (w i : Nat) (c : F32) (b : List F32) :
    (Hypothesis.mk p w i c b).GetCostBreakdown = b := rfl

theorem getCost_mk (p : Option Hypothesis) (w i : Nat) (c : F32) (b : List F32) :
    (Hypothesis.mk p w i c b).GetCost = c := rfl

theorem rankContract_spec (bs : BeamSearch) (env : Collaborators) (batch : Batch)
    (s : SearchState) (V j beamLen i : Nat)
    (h : rankContract bs env batch s V j beamLen i = true) :
    ∃ key cost, (selectStep bs env batch s).2.1.2[i]? = some key ∧
      (selectStep bs env batch s).2.1.1[i]? = some cost ∧
      key < batch.size * effectiveSlots s * V ∧ key / V / effectiveSlots s = j ∧
      key / V % effectiveSlots s < beamLen ∧ cost = (transposedCosts bs batch s).flat key := by
  unfold rankContract at h
  split at h
  · rename_i key cost hk hc
    simp only [Bool.and_eq_true, decide_eq_true_eq] at h
    exact ⟨key, cost, hk, hc, h.1.1.1, h.1.1.2, h.1.2, h.2⟩
  · exact absurd h (by simp)


theorem weightedSum_resize (scorers : List Scorer) (bd : List F32) :
    weightedSum scorers (resize bd scorers.length) = weightedSum scorers bd := by
  induction scorers generalizing bd with
  | nil => simp [weightedSum]
  | cons sc scs ih =>
    cases bd with
    | nil =>
      have := ih []
      simp only [weightedSum, resize, List.take_nil, List.length_nil, Nat.sub_zero,
        List.nil_append, List.zipWith_nil_right, List.sum_nil, List.length_cons,
        List.replicate_succ, List.zipWith_cons_cons, List.sum_cons, F32.toRat, mul_zero,
        zero_add] at this ⊢
      exact this
    | cons x xs =>
      have := ih xs
      simp only [weightedSum, resize, List.length_cons, List.take_succ_cons, List.cons_append,
        List.zipWith_cons_cons, List.sum_cons, Nat.add_sub_add_right] at this ⊢
      rw [this]

theorem weightedSum_ones (scorers : List Scorer) (bd : List F32)
    (hw : ∀ scorer ∈ scorers, scorer.getWeight = F32.fin 1) (hl : bd.length ≤ scorers.length) :
    weightedSum scorers bd = (bd.map F32.toRat).sum := by
  induction scorers generalizing bd with
  | nil =>
    have : bd = [] := List.length_eq_zero.mp (by simpa using hl)
    subst this
    simp [weightedSum]
  | cons sc scs ih =>
    cases bd with
    | nil => simp [weightedSum]
    | cons x xs =>
      have h1 := hw sc (by simp)
      have := ih xs (fun y hy => hw y (List.mem_cons_of_mem _ hy)) (by simpa using hl)
      have e1 : sc.getWeight.toRat = 1 := by rw [h1]; rfl
      simp only [weightedSum, List.zipWith_cons_cons, List.sum_cons, List.map_cons] at this ⊢
      rw [this, e1, one_mul]

/-- The weighted sum of the new breakdown differs from the exact sum of the
weighted sum of the parent's breakdown and the weighted scores by at most one
rounding allowance per entry, scaled by the weight. -/
theorem breakdown_error (M W : ℚ) (scorers : List Scorer) (states : List ScorerState)
    (pbd : List F32) (f : ScorerState → F32)
    (hw : ∀ scorer ∈ scorers, |scorer.getWeight.toRat| ≤ W)
    (hres : ∀ x ∈ List.zipWith (fun st pb => F32.add (f st) pb) states pbd,
      F32.within M x = true)
    (hl1 : states.length = scorers.length) (hl2 : pbd.length = scorers.length) :
    |weightedSum scorers (List.zipWith (fun st pb => F32.add (f st) pb) states pbd)
        - weightedSum scorers pbd
        - (List.zipWith (fun scorer state => scorer.getWeight.toRat * (f state).toRat)
            scorers states).sum| ≤ (scorers.length : ℚ) * (W * F32.allowance M) := by
  induction scorers generalizing states pbd with
  | nil => simp [weightedSum]
  | cons sc scs ih =>
    cases states with
    | nil => simp at hl1
    | cons st sts =>
      cases pbd with
      | nil => simp at hl2
      | cons pb pbs =>
        simp only [List.zipWith_cons_cons] at hres
        obtain ⟨a, c, r, ha, hc, hr, he⟩ := F32.add_error (f st) pb M
          (hres _ (List.mem_cons_self _ _))
        have ih' := ih sts pbs (fun x hx => hw x (List.mem_cons_of_mem _ hx))
          (fun x hx => hres x (List.mem_cons_of_mem _ hx)) (by simpa using hl1)
          (by simpa using hl2)
        have hwb := hw sc (by simp)
        have e1 : (F32.add (f st) pb).toRat = r := by rw [hr]; rfl
        have e2 : (f st).toRat = a := by rw [ha]; rfl
        have e3 : pb.toRat = c := by rw [hc]; rfl
        simp only [weightedSum, List.zipWith_cons_cons, List.sum_cons, List.length_cons, e1, e2,
          e3] at ih' ⊢
        push_cast
        have hprod : |sc.getWeight.toRat * (r - (a + c))| ≤ W * F32.allowance M := by
          rw [abs_mul]
          exact mul_le_mul hwb he (abs_nonneg _) (le_trans (abs_nonneg _) hwb)
        rw [abs_le] at ih' hprod ⊢
        constructor <;> nlinarith [ih'.1, ih'.2, hprod.1, hprod.2]

/-- In a pass that meets `PassContract` and `PassBounded`, with n-best output
and without a shortlist, a new hypothesis has one breakdown entry per scorer
and a finite cost, and the amount by which the weighted sum of its breakdown
exceeds its cost differs from that of the hypothesis in the selected slot by at
most the rounding allowances of the pass. -/
theorem search_child_breakdown (bs : BeamSearch) (env : Collaborators) (batch : Batch) (n : Nat)
    (s : SearchState) (h : stateBefore bs env batch n = some s) (nb : Beams)
    (hnb : unprunedBeams bs env batch s = some nb) (V : Nat) (M W : ℚ) (hM : 0 ≤ M)
    (hpc : PassContract bs env batch s V) (hpb : PassBounded M bs env batch s V)
    (hW : ∀ scorer ∈ bs.scorers, |scorer.getWeight.toRat| ≤ W)
    (hn : bs.options.nBest = true)
    (hsl : firstShortlist bs.scorers = none) (hseed : env.newHypothesis.GetCost = F32.fin 0)
    (j : Nat) (beam nbj : Beam) (hj : s.beams[j]? = some beam) (hnbj : nb[j]? = some nbj) :
    ∀ hyp ∈ nbj, ∃ slotHyp ∈ beam,
      hyp.GetCostBreakdown.length = bs.scorers.length ∧
      (slotHyp.GetCost.isFinite = true →
        hyp.GetCost.isFinite = true ∧
        |(weightedSum bs.scorers hyp.GetCostBreakdown - hyp.GetCost.toRat)
            - (weightedSum bs.scorers slotHyp.GetCostBreakdown - slotHyp.GetCost.toRat)|
          ≤ (bs.scorers.length : ℚ) * ((W + 2) * F32.allowance M)) := by
  obtain ⟨hst, hranks⟩ := hpc
  obtain ⟨hbr, hbb⟩ := hpb
  have hinv := stateBefore_inv bs env batch n s h
  obtain ⟨nbj', hnbj', hF⟩ := search_child_facts bs env batch n s h nb hnb V
    (fun st hm => (hst st hm).1) hseed j beam hj
  rw [hnbj] at hnbj'
  cases hnbj'
  have hm : (steppedCosts bs batch s).1.length = bs.scorers.length := by
    simp only [steppedCosts]
    rw [stepScorers_length]
    exact stateBefore_states_length bs env batch n s h
  intro hyp hmem
  have hbdw := hbb nb hnb nbj (List.getElem?_mem hnbj) hyp hmem
  obtain ⟨i, hi, hR⟩ := forall₂_mem_right hF hyp hmem
  have hcon := hranks j beam hj i hi
  have hbnd := hbr j beam hj i hi
  obtain ⟨key, slotHyp, hk, hp, rfl⟩ := hR hcon
  obtain ⟨key', cost, hk', _, hrange, hsent, hslot, _⟩ := rankContract_spec _ _ _ _ _ _ _ _ hcon
  rw [hk] at hk'
  cases hk'
  have hVpos : 0 < V := by
    rcases Nat.eq_zero_or_pos V with h0 | h0
    · rw [h0] at hrange; simp at hrange
    · exact h0
  have hjN : j < batch.size := by
    rw [← hinv.lenB]; exact (List.getElem?_eq_some_iff.mp hj).1
  have hv : key % V < V := Nat.mod_lt _ hVpos
  have htrans : hypIdxTrans (key / V) s.localBeamSize s.beams.length s.first
      = j + key / V % effectiveSlots s * batch.size := by
    rw [hinv.lenB]
    by_cases hf : s.first = true
    · simp only [effectiveSlots, hf, if_true, Nat.div_one, Nat.mod_one] at hsent ⊢
      simp [hypIdxTrans, hf, hsent]
    · simp only [effectiveSlots, hf, Bool.false_eq_true, if_false] at hsent ⊢
      simp [hypIdxTrans, hf, hsent]
  have hbd : breakDownOf (steppedCosts bs batch s).1
      (embIdxOf (firstShortlist bs.scorers) key V
        + hypIdxTrans (key / V) s.localBeamSize s.beams.length s.first * V)
      (resize slotHyp.GetCostBreakdown (steppedCosts bs batch s).1.length)
      = List.zipWith
          (fun st pb =>
            F32.add (st.getProbs.get (key / V % effectiveSlots s) 0 j (key % V)) pb)
          (steppedCosts bs batch s).1
          (resize slotHyp.GetCostBreakdown (steppedCosts bs batch s).1.length) := by
    unfold breakDownOf
    apply zipWith_congr_mem_left
    intro st hstm pb
    rw [(hst st hstm).2, hsl, htrans]
    simp only [embIdxOf]
    rw [flat_untransposed st.getProbs (effectiveSlots s) batch.size V _ j (key % V)
      (hst st hstm).1 hjN hv]
  refine ⟨slotHyp, List.getElem?_mem hp, ?_, ?_⟩
  · rw [getCostBreakdown_mk, if_pos hn, hbd, List.length_zipWith, resize_length, Nat.min_self,
      hm]
  · intro hfin
    obtain ⟨t, ht⟩ : ∃ t, slotHyp.GetCost = F32.fin t := by
      cases hc : slotHyp.GetCost with
      | fin t => exact ⟨t, rfl⟩
      | pinf => rw [hc] at hfin; simp [F32.isFinite] at hfin
      | ninf => rw [hc] at hfin; simp [F32.isFinite] at hfin
      | nan => rw [hc] at hfin; simp [F32.isFinite] at hfin
    have hres : ∀ x ∈ addScoresResults bs.scorers (steppedCosts bs batch s).1
        (key / V % effectiveSlots s) j (key % V) slotHyp.GetCost, F32.within M x = true := by
      unfold rankBounded at hbnd
      rw [hk] at hbnd
      simp only [hp] at hbnd
      exact List.all_eq_true.mp hbnd
    obtain ⟨r, hr, hre⟩ := addScores_error M hM bs.scorers (steppedCosts bs batch s).1
      (key / V % effectiveSlots s) j (key % V) slotHyp.GetCost t ht hres
    rw [getCostBreakdown_mk, if_pos hn, hbd] at hbdw
    have hbe := breakdown_error M W bs.scorers (steppedCosts bs batch s).1
      (resize slotHyp.GetCostBreakdown (steppedCosts bs batch s).1.length)
      (fun st => st.getProbs.get (key / V % effectiveSlots s) 0 j (key % V)) hW hbdw hm
      (by rw [resize_length, hm])
    rw [hm, weightedSum_resize] at hbe
    rw [getCostBreakdown_mk, getCost_mk, if_pos hn, hbd, hr, ht, hm]
    refine ⟨rfl, ?_⟩
    simp only [F32.toRat]
    rw [abs_le] at hre hbe ⊢
    constructor <;> nlinarith [hre.1, hre.2, hbe.1, hbe.2]

/-- C10 (amended): with n-best output, no shortlist, a seed hypothesis of cost 0
and empty breakdown, weights of magnitude at most `W`, and every pass meeting
`PassContract` (in particular each `breakDown(k)` returns the scorer's score at
flat index `k`) and `PassBounded` (no overflow: the `float`s computed are
numbers of magnitude at most `M`), every hypothesis in a beam of `search`,
before and after pruning, has one breakdown entry per scorer or none and a
finite cost, and the exact weighted sum `Σ weight_i * breakdown_i` of its
breakdown differs from its cost by at most the rounding allowances of the
passes that built it: `scorers * (W + 2) * (M / 2 ^ 24 + 1 / 2 ^ 150)` for each
pass; when every weight is 1 the same holds for the plain sum of its
breakdown. -/
theorem search_breakdown_sum (bs : BeamSearch) (env : Collaborators) (batch : Batch) (V : Nat)
    (M W : ℚ) (hM : 0 ≤ M)
    (hn : bs.options.nBest = true) (hsl : firstShortlist bs.scorers = none)
    (hseed : env.newHypothesis.GetCost = F32.fin 0)
    (hseedbd : env.newHypothesis.GetCostBreakdown = [])
    (hW : ∀ scorer ∈ bs.scorers, |scorer.getWeight.toRat| ≤ W)
    (hpc : ∀ n s, stateBefore bs env batch n = some s →
      PassContract bs env batch s V ∧ PassBounded M bs env batch s V)
    (n : Nat) (s : SearchState) (h : stateBefore bs env batch n = some s) :
    (∀ beam ∈ s.beams, ∀ hyp ∈ beam,
      hyp.GetCostBreakdown.length ≤ bs.scorers.length ∧ hyp.GetCost.isFinite = true ∧
      |weightedSum bs.scorers hyp.GetCostBreakdown - hyp.GetCost.toRat|
        ≤ (n : ℚ) * ((bs.scorers.length : ℚ) * ((W + 2) * F32.allowance M))) ∧
    ∀ nb, unprunedBeams bs env batch s = some nb → ∀ beam ∈ nb, ∀ hyp ∈ beam,
      hyp.GetCostBreakdown.length = bs.scorers.length ∧ hyp.GetCost.isFinite = true ∧
      |weightedSum bs.scorers hyp.GetCostBreakdown - hyp.GetCost.toRat|
        ≤ ((n : ℚ) + 1) * ((bs.scorers.length : ℚ) * ((W + 2) * F32.allowance M)) ∧
      ((∀ scorer ∈ bs.scorers, scorer.getWeight = F32.fin 1) →
        |(hyp.GetCostBreakdown.map F32.toRat).sum - hyp.GetCost.toRat|
          ≤ ((n : ℚ) + 1) * ((bs.scorers.length : ℚ) * ((W + 2) * F32.allowance M))) := by
  have hstep : ∀ m (t : SearchState), stateBefore bs env batch m = some t →
      (∀ beam ∈ t.beams, ∀ hyp ∈ beam,
        hyp.GetCostBreakdown.length ≤ bs.scorers.length ∧ hyp.GetCost.isFinite = true ∧
        |weightedSum bs.scorers hyp.GetCostBreakdown - hyp.GetCost.toRat|
          ≤ (m : ℚ) * ((bs.scorers.length : ℚ) * ((W + 2) * F32.allowance M))) →
      ∀ nb, unprunedBeams bs env batch t = some nb → ∀ beam ∈ nb, ∀ hyp ∈ beam,
        hyp.GetCostBreakdown.length = bs.scorers.length ∧ hyp.GetCost.isFinite = true ∧
        |weightedSum bs.scorers hyp.GetCostBreakdown - hyp.GetCost.toRat|
          ≤ ((m : ℚ) + 1) * ((bs.scorers.length : ℚ) * ((W + 2) * F32.allowance M)) := by
    intro m t ht hbeams nb hnb beam hbm hyp hhm
    obtain ⟨j, hjl, hget⟩ := List.getElem_of_mem hbm
    have hle := toHyps_length_le _ _ _ _ _ _ _ _ _ nb hnb
    have hjB : j < t.beams.length := by rw [← hle.1]; exact hjl
    obtain ⟨slotHyp, hsm, hlen, hdiff⟩ := search_child_breakdown bs env batch m t ht nb hnb V
      M W hM (hpc m t ht).1 (hpc m t ht).2 hW hn hsl hseed j _ beam
      (List.getElem?_eq_getElem hjB)
      (by rw [← hget]; exact List.getElem?_eq_getElem hjl) hyp hhm
    obtain ⟨_, hpf, hpg⟩ := hbeams _ (List.getElem_mem hjB) slotHyp hsm
    obtain ⟨hcf, hcd⟩ := hdiff hpf
    refine ⟨hlen, hcf, ?_⟩
    rw [abs_le] at hpg hcd ⊢
    constructor <;> linarith [hpg.1, hpg.2, hcd.1, hcd.2]
  have hall : ∀ m (t : SearchState), stateBefore bs env batch m = some t →
      ∀ beam ∈ t.beams, ∀ hyp ∈ beam,
        hyp.GetCostBreakdown.length ≤ bs.scorers.length ∧ hyp.GetCost.isFinite = true ∧
        |weightedSum bs.scorers hyp.GetCostBreakdown - hyp.GetCost.toRat|
          ≤ (m : ℚ) * ((bs.scorers.length : ℚ) * ((W + 2) * F32.allowance M)) := by
    intro m
    induction m with
    | zero =>
      intro t ht beam hb hyp hh
      rw [stateBefore_zero_seed bs env batch t ht beam hb hyp hh, hseedbd, hseed]
      simp [weightedSum, F32.isFinite, F32.toRat]
    | succ m ih =>
      intro t ht beam hb hyp hh
      obtain ⟨t0, ht0, hstp, _⟩ := stateBefore_succ bs env batch m t ht
      obtain ⟨nb, hnb⟩ : ∃ nb, unprunedBeams bs env batch t0 = some nb := by
        cases hu : unprunedBeams bs env batch t0 with
        | none => simp [searchStep, hu] at hstp
        | some nb => exact ⟨nb, rfl⟩
      obtain ⟨t', ht', hbeams, _⟩ := searchStep_facts bs env batch m t0
        (stateBefore_inv bs env batch m t0 ht0) nb hnb
      rw [hstp] at ht'
      cases ht'
      rw [hbeams, pruneBeam_eq_map_filter] at hb
      obtain ⟨b0, hb0, rfl⟩ := List.mem_map.mp hb
      have hh0 : hyp ∈ b0 := (List.mem_filter.mp hh).1
      obtain ⟨h1, h2, h3⟩ := hstep m t0 ht0 (ih t0 ht0) nb hnb b0 hb0 hyp hh0
      refine ⟨le_of_eq h1, h2, ?_⟩
      push_cast
      exact h3
  refine ⟨hall n s h, ?_⟩
  intro nb hnb beam hb hyp hh
  obtain ⟨h1, h2, h3⟩ := hstep n s h (hall n s h) nb hnb beam hb hyp hh
  refine ⟨h1, h2, h3, ?_⟩
  intro hw
  rw [← weightedSum_ones _ _ hw (le_of_eq h1)]
  exact h3
theorem stateBefore_none_succ (bs : BeamSearch) (env : Collaborators) (batch : Batch) (n : Nat)
    (h : stateBefore bs env batch n = none) (m : Nat) :
    stateBefore bs env batch (n + m) = none := by
  induction m with
  | zero => exact h
  | succ m ih =>
    rw [← Nat.add_assoc]
    simp [stateBefore, ih]

theorem sampleState_breakDown (slots dimBatch vocab : Nat) (table : Nat → Nat → Nat → Int)
    (k : Nat) :
    (sampleState slots dimBatch vocab table).breakDown k
      = (sampleState slots dimBatch vocab table).getProbs.flat k := rfl


theorem weighted_states (n : Nat) (s : SearchState)
    (h : stateBefore weightedSearch sampleEnv sampleBatch n = some s) :
    s = weightedFirstPass ∨ s = weightedSecondPass := by
  have h2 : stateBefore weightedSearch sampleEnv sampleBatch 2 = none := by
    cases hh : stateBefore weightedSearch sampleEnv sampleBatch 2 with
    | none => rfl
    | some x =>
      have : (stateBefore weightedSearch sampleEnv sampleBatch 2).isSome = false := by
        with_unfolding_all decide
      rw [hh] at this
      exact absurd this (by simp)
  rcases Nat.lt_or_ge n 2 with hlt | hge
  · interval_cases n
    · left
      have hsome := some_getD_of_isSome (stateBefore weightedSearch sampleEnv sampleBatch 0)
        emptyState (by with_unfolding_all decide)
      exact Option.some.inj (h.symm.trans hsome)
    · right
      have hsome := some_getD_of_isSome (stateBefore weightedSearch sampleEnv sampleBatch 1)
        emptyState (by with_unfolding_all decide)
      exact Option.some.inj (h.symm.trans hsome)
  · obtain ⟨m, rfl⟩ : ∃ m, n = 2 + m := ⟨n - 2, by omega⟩
    rw [stateBefore_none_succ _ _ _ 2 h2 m] at h
    exact absurd h (by simp)

theorem weighted_passContract (n : Nat) (s : SearchState)
    (h : stateBefore weightedSearch sampleEnv sampleBatch n = some s) :
    PassContract weightedSearch sampleEnv sampleBatch s 3 := by
  rcases weighted_states n s h with rfl | rfl
  · refine ⟨?_, ?_⟩
    · have hL : (steppedCosts weightedSearch sampleBatch weightedFirstPass).1
          = [sampleState 1 2 3 sampleTable] := by with_unfolding_all rfl
      rw [hL]
      intro st hm
      rw [List.mem_singleton.mp hm]
      exact ⟨by with_unfolding_all decide, sampleState_breakDown _ _ _ _⟩
    · intro j beam hj
      have hjlt : j < weightedFirstPass.beams.length := (List.getElem?_eq_some_iff.mp hj).1
      have hlen : weightedFirstPass.beams.length = 2 := by with_unfolding_all decide
      rw [hlen] at hjlt
      interval_cases j
      · have hb := some_getD_of_isSome (weightedFirstPass.beams[0]?) []
          (by with_unfolding_all decide)
        rw [Option.some.inj (hj.symm.trans hb)]
        with_unfolding_all decide
      · have hb := some_getD_of_isSome (weightedFirstPass.beams[1]?) []
          (by with_unfolding_all decide)
        rw [Option.some.inj (hj.symm.trans hb)]
        with_unfolding_all decide
  · refine ⟨?_, ?_⟩
    · have hL : (steppedCosts weightedSearch sampleBatch weightedSecondPass).1
          = [sampleState 1 2 3 sampleTable] := by with_unfolding_all rfl
      rw [hL]
      intro st hm
      rw [List.mem_singleton.mp hm]
      exact ⟨by with_unfolding_all decide, sampleState_breakDown _ _ _ _⟩
    · intro j beam hj
      have hjlt : j < weightedSecondPass.beams.length := (List.getElem?_eq_some_iff.mp hj).1
      have hlen : weightedSecondPass.beams.length = 2 := by with_unfolding_all decide
      rw [hlen] at hjlt
      interval_cases j
      · have hb := some_getD_of_isSome (weightedSecondPass.beams[0]?) []
          (by with_unfolding_all decide)
        rw [Option.some.inj (hj.symm.trans hb)]
        with_unfolding_all decide
      · have hb := some_getD_of_isSome (weightedSecondPass.beams[1]?) []
          (by with_unfolding_all decide)
        rw [Option.some.inj (hj.symm.trans hb)]
        with_unfolding_all decide

theorem weighted_passBounded (n : Nat) (s : SearchState)
    (h : stateBefore weightedSearch sampleEnv sampleBatch n = some s) :
    PassBounded 8 weightedSearch sampleEnv sampleBatch s 3 := by
  rcases weighted_states n s h with rfl | rfl
  · refine ⟨?_, ?_⟩
    · intro j beam hj
      have hjlt : j < weightedFirstPass.beams.length := (List.getElem?_eq_some_iff.mp hj).1
      have hlen : weightedFirstPass.beams.length = 2 := by with_unfolding_all decide
      rw [hlen] at hjlt
      interval_cases j
      · have hb := some_getD_of_isSome (weightedFirstPass.beams[0]?) []
          (by with_unfolding_all decide)
        rw [Option.some.inj (hj.symm.trans hb)]
        with_unfolding_all decide
      · have hb := some_getD_of_isSome (weightedFirstPass.beams[1]?) []
          (by with_unfolding_all decide)
        rw [Option.some.inj (hj.symm.trans hb)]
        with_unfolding_all decide
    · intro nb hnb
      have hb := some_getD_of_isSome
        (unprunedBeams weightedSearch sampleEnv sampleBatch weightedFirstPass) []
        (by with_unfolding_all decide)
      rw [Option.some.inj (hnb.symm.trans hb)]
      with_unfolding_all decide
  · refine ⟨?_, ?_⟩
    · intro j beam hj
      have hjlt : j < weightedSecondPass.beams.length := (List.getElem?_eq_some_iff.mp hj).1
      have hlen : weightedSecondPass.beams.length = 2 := by with_unfolding_all decide
      rw [hlen] at hjlt
      interval_cases j
      · have hb := some_getD_of_isSome (weightedSecondPass.beams[0]?) []
          (by with_unfolding_all decide)
        rw [Option.some.inj (hj.symm.trans hb)]
        with_unfolding_all decide
      · have hb := some_getD_of_isSome (weightedSecondPass.beams[1]?) []
          (by with_unfolding_all decide)
        rw [Option.some.inj (hj.symm.trans hb)]
        with_unfolding_all decide
    · intro nb hnb
      have hb := some_getD_of_isSome
        (unprunedBeams weightedSearch sampleEnv sampleBatch weightedSecondPass) []
        (by with_unfolding_all decide)
      rw [Option.some.inj (hnb.symm.trans hb)]
      with_unfolding_all decide

/-- Instance of C10 on the sample search with one scorer of weight 2, second
pass, with `M = 8` and `W = 2`: every new hypothesis has one breakdown entry, a
finite cost, and the weighted sum of its breakdown is within two rounding
allowances of its cost. -/
theorem search_breakdown_sum_witness :
    ∃ nb, stateBefore weightedSearch sampleEnv sampleBatch 1 = some weightedSecondPass ∧
      unprunedBeams weightedSearch sampleEnv sampleBatch weightedSecondPass = some nb ∧
      nb.map (List.map Hypothesis.GetCost) = [[F32.fin (-4)], [F32.fin (-4)]] ∧
      ∀ beam ∈ nb, ∀ hyp ∈ beam,
        hyp.GetCostBreakdown.length = weightedSearch.scorers.length ∧
        hyp.GetCost.isFinite = true ∧
        |weightedSum weightedSearch.scorers hyp.GetCostBreakdown - hyp.GetCost.toRat|
          ≤ (((1 : Nat) : ℚ) + 1)
            * ((weightedSearch.scorers.length : ℚ) * ((2 + 2) * F32.allowance 8)) ∧
        ((∀ scorer ∈ weightedSearch.scorers, scorer.getWeight = F32.fin 1) →
          |(hyp.GetCostBreakdown.map F32.toRat).sum - hyp.GetCost.toRat|
            ≤ (((1 : Nat) : ℚ) + 1)
              * ((weightedSearch.scorers.length : ℚ) * ((2 + 2) * F32.allowance 8))) := by
  have hs : stateBefore weightedSearch sampleEnv sampleBatch 1 = some weightedSecondPass :=
    some_getD_of_isSome _ _ (by with_unfolding_all decide)
  have hd : (unprunedBeams weightedSearch sampleEnv sampleBatch weightedSecondPass).map
      (List.map (List.map Hypothesis.GetCost)) = some [[F32.fin (-4)], [F32.fin (-4)]] := by
    with_unfolding_all decide
  obtain ⟨nb, hnb, hcosts⟩ := Option.map_eq_some'.mp hd
  exact ⟨nb, hs, hnb, hcosts,
    (search_breakdown_sum weightedSearch sampleEnv sampleBatch 3 8 2 (by norm_num)
      rfl rfl rfl rfl (by with_unfolding_all decide)
      (fun n s h => ⟨weighted_passContract n s h, weighted_passBounded n s h⟩)
      1 weightedSecondPass hs).2 nb hnb⟩

/-- C10, the statement as given fails twice. With one scorer of weight 2 the
first new hypothesis of sentence 0 costs `-2` (twice the score `-1`) and its
breakdown is `[-1]`, the unweighted score. With two scorers of weight 1 that
score `-(2 ^ 24)` and `-1` the cost is the rounded `float` sum `-(2 ^ 24)` and
the breakdown is `[-(2 ^ 24), -1]`, whose entries sum to `-(2 ^ 24) - 1`. In both
searches every `breakDown(k)` returns the score at flat index `k`. -/
theorem search_breakdown_sum_counterexample :
    (weightedSearch.options.nBest = true ∧
      stateBefore weightedSearch sampleEnv sampleBatch 0 = some weightedFirstPass ∧
      unprunedBeams weightedSearch sampleEnv sampleBatch weightedFirstPass
        = some weightedFirstBeams ∧
      weightedFirstBeams[0]? = some [weightedChild] ∧
      (∀ st ∈ (steppedCosts weightedSearch sampleBatch weightedFirstPass).1,
        ∀ k, st.breakDown k = st.getProbs.flat k) ∧
      weightedChild.GetCost = F32.fin (-2) ∧
      weightedChild.GetCostBreakdown = [F32.fin (-1)] ∧
      (weightedChild.GetCostBreakdown.map F32.toRat).sum ≠ weightedChild.GetCost.toRat) ∧
    (roundingSearch.options.nBest = true ∧
      (∀ scorer ∈ roundingSearch.scorers, scorer.getWeight = F32.fin 1) ∧
      (stateBefore roundingSearch sampleEnv padBatch 0).bind
          (unprunedBeams roundingSearch sampleEnv padBatch) = some roundingFirstBeams ∧
      roundingFirstBeams[0]? = some [roundingChild] ∧
      roundingChild.GetCost = F32.fin (-16777216) ∧
      roundingChild.GetCostBreakdown = [F32.fin (-16777216), F32.fin (-1)] ∧
      F32.add (F32.add (F32.fin 0) (F32.fin (-16777216))) (F32.fin (-1))
        = F32.fin (-16777216) ∧
      (-16777216 : ℚ) + -1 ≠ -16777216) := by
  refine ⟨⟨rfl, some_getD_of_isSome _ _ (by with_unfolding_all decide),
    some_getD_of_isSome _ _ (by with_unfolding_all decide), ?_, ?_,
    by with_unfolding_all decide, by with_unfolding_all decide,
    by with_unfolding_all decide⟩,
    ⟨rfl, by with_unfolding_all decide, ?_, ?_, by with_unfolding_all decide,
      by with_unfolding_all decide, by with_unfolding_all decide, by norm_num⟩⟩
  · have h1 : weightedFirstBeams[0]? = some (weightedFirstBeams[0]?.getD []) :=
      some_getD_of_isSome _ _ (by with_unfolding_all decide)
    rw [h1]
    have h2 : (weightedFirstBeams[0]?.getD []).length = 1 := by with_unfolding_all decide
    congr 1
    match hb : weightedFirstBeams[0]?.getD [], h2 with
    | [x], _ =>
      have : weightedChild = x := by
        show ((weightedFirstBeams[0]?.getD [])[0]?).getD sampleEnv.newHypothesis = x
        rw [hb]
        rfl
      rw [this]
  · have hL : (steppedCosts weightedSearch sampleBatch weightedFirstPass).1
        = [sampleState 1 2 3 sampleTable] := by with_unfolding_all rfl
    rw [hL]
    intro st hm k
    rw [List.mem_singleton.mp hm]
    exact sampleState_breakDown _ _ _ _ k
  · have h0 := some_getD_of_isSome (stateBefore roundingSearch sampleEnv padBatch 0) emptyState
      (by with_unfolding_all decide)
    rw [h0]
    exact some_getD_of_isSome _ _ (by with_unfolding_all decide)
  · have h1 : roundingFirstBeams[0]? = some (roundingFirstBeams[0]?.getD []) :=
      some_getD_of_isSome _ _ (by with_unfolding_all decide)
    rw [h1]
    have h2 : (roundingFirstBeams[0]?.getD []).length = 1 := by with_unfolding_all decide
    congr 1
    match hb : roundingFirstBeams[0]?.getD [], h2 with
    | [x], _ =>
      have : roundingChild = x := by
        show ((roundingFirstBeams[0]?.getD [])[0]?).getD sampleEnv.newHypothesis = x
        rw [hb]
        rfl
      rw [this]

/-! ### Reconstruction after the first step -/

theorem beamHypIdx_not_first (hypIdx beamSize beamLen : Nat) :
    beamHypIdx hypIdx beamSize beamLen false = hypIdx % beamSize % beamLen := by
  unfold beamHypIdx
  simp only [Bool.false_eq_true, if_false]
  split
  · rfl
  · rename_i h
    exact (Nat.mod_eq_of_lt (Nat.lt_of_not_ge h)).symm

/-- C13: with the first-step flag unset, the hypothesis built for an accepted
rank `i` of sentence `j = i / beamSize`, with `raw = keys[i] / vocabSize`, has
back-pointer `raw / beamSize + raw % beamSize * N` (`N` the number of beams), its
parent is the hypothesis in slot `raw % beamSize % |beams[j]|` of the previous
beam of sentence `j` (with the breakdown resized to the number of scorer states
when n-best is on, as line 77 does in place; the very same value when n-best is
off), and its cost is `costs[i]`. -/
theorem toHyps_later_step (scorers : List Scorer) (nBest : Bool) (keys : List Nat)
    (costs : List F32) (vocabSize : Nat) (beams : Beams) (states : List ScorerState)
    (beamSize : Nat) (nb : Beams)
    (h : toHyps scorers nBest keys costs vocabSize beams states beamSize false = some nb) :
    ∀ j beam, beams[j]? = some beam → ∃ nbj, nb[j]? = some nbj ∧
      List.Forall₂
        (fun i hyp => ∃ key cost parent, keys[i]? = some key ∧ costs[i]? = some cost ∧
          i / beamSize = j ∧
          beam[key / vocabSize % beamSize % beam.length]? = some parent ∧
          hyp.GetPrevStateIndex
            = key / vocabSize / beamSize + key / vocabSize % beamSize * beams.length ∧
          hyp.GetPrevHyp = some (touch nBest states.length parent) ∧
          (nBest = false → hyp.GetPrevHyp = some parent) ∧
          hyp.GetCost = cost)
        (accepted beamSize keys.length j beam.length) nbj := by
  intro j beam hj
  obtain ⟨nbj, hnbj, hF⟩ := (toHyps_built scorers nBest keys costs vocabSize beams states
    beamSize false nb h).2 j beam hj
  refine ⟨nbj, hnbj, ?_⟩
  have hmem : ∀ i ∈ accepted beamSize keys.length j beam.length, i / beamSize = j := by
    intro i hi
    have := List.mem_of_mem_take hi
    simpa using (List.mem_filter.mp this).2
  refine List.Forall₂.imp ?_ ((List.forall₂_and_left _ _).mpr ⟨hmem, hF⟩)
  rintro i hyp ⟨hij, key, cost, beam', parent, hk, hc, hb, hp, rfl⟩
  rw [hij, hj] at hb
  cases hb
  rw [beamHypIdx_not_first] at hp
  refine ⟨key, cost, parent, hk, hc, hij, hp, ?_, rfl, ?_, rfl⟩
  · simp [Hypothesis.GetPrevStateIndex, hypIdxTrans]
  · intro hn; subst hn; simp [Hypothesis.GetPrevHyp, touch]

/-- Instance of C13: a call on beams of one and two hypotheses with width 2; the
second candidate of sentence 1 comes from raw slot 3, wrapped to slot 1. -/
theorem toHyps_later_step_witness :
    ∃ nb, toHyps [sampleScorer 1 5 sampleTable] false [3, 4, 12, 19] sampleCosts 5
        [[sampleEnv.newHypothesis], [sampleEnv.newHypothesis, sampleEnv.newHypothesis]] [] 2
        false = some nb ∧
      nb.map (List.map Hypothesis.GetPrevStateIndex) = [[0], [1, 3]] ∧
      ∃ nbj, nb[1]? = some nbj ∧
        List.Forall₂
          (fun i hyp => ∃ key cost parent, [3, 4, 12, 19][i]? = some key ∧
            sampleCosts[i]? = some cost ∧ i / 2 = 1 ∧
            [sampleEnv.newHypothesis, sampleEnv.newHypothesis][key / 5 % 2 %
              [sampleEnv.newHypothesis, sampleEnv.newHypothesis].length]? = some parent ∧
            hyp.GetPrevStateIndex
              = key / 5 / 2 + key / 5 % 2 *
                [[sampleEnv.newHypothesis],
                 [sampleEnv.newHypothesis, sampleEnv.newHypothesis]].length ∧
            hyp.GetPrevHyp = some (touch false ([] : List ScorerState).length parent) ∧
            (false = false → hyp.GetPrevHyp = some parent) ∧
            hyp.GetCost = cost)
          (accepted 2 [3, 4, 12, 19].length 1
            [sampleEnv.newHypothesis, sampleEnv.newHypothesis].length) nbj := by
  have hd : (toHyps [sampleScorer 1 5 sampleTable] false [3, 4, 12, 19] sampleCosts 5
        [[sampleEnv.newHypothesis], [sampleEnv.newHypothesis, sampleEnv.newHypothesis]] [] 2
        false).map (List.map (List.map Hypothesis.GetPrevStateIndex))
      = some [[0], [1, 3]] := by decide
  obtain ⟨nb, hnb, hw⟩ := Option.map_eq_some'.mp hd
  exact ⟨nb, hnb, hw, toHyps_later_step _ _ _ _ _ _ _ _ nb hnb 1 _ rfl⟩

/-! ### The previous beams after `toHyps` -/

theorem resize_self (l : List F32) : resize l l.length = l := by
  simp [resize]

theorem touch_fields (nBest : Bool) (n : Nat) (h : Hypothesis) :
    (touch nBest n h).GetWord = h.GetWord ∧
    (touch nBest n h).GetPrevStateIndex = h.GetPrevStateIndex ∧
    (touch nBest n h).GetCost = h.GetCost ∧
    (touch nBest n h).GetPrevHyp = h.GetPrevHyp ∧
    (touch nBest n h).GetCostBreakdown
      = (if nBest then resize h.GetCostBreakdown n else h.GetCostBreakdown) := by
  cases h with
  | mk p w i c b =>
    cases nBest <;>
      simp [touch, Hypothesis.resizeBreakdown, Hypothesis.GetWord,
        Hypothesis.GetPrevStateIndex, Hypothesis.GetCost, Hypothesis.GetPrevHyp,
        Hypothesis.GetCostBreakdown]

theorem touch_of_length (nBest : Bool) (h : Hypothesis)
    (hl : h.GetCostBreakdown.length = n) : touch nBest n h = h := by
  cases h with
  | mk p w i c b =>
    simp only [Hypothesis.GetCostBreakdown] at hl
    subst hl
    cases nBest <;> simp [touch, Hypothesis.resizeBreakdown, resize_self]

/-- C12 (amended): after `toHyps` every hypothesis of the previous beams has the
token, back-pointer, cost and parent it had before; its breakdown is the one it
had before or, with n-best output, that breakdown resized to one entry per
scorer state (line 77); nothing at all changes with n-best output disabled, nor
for a hypothesis whose breakdown already has one entry per scorer state. -/
theorem toHyps_previous_beams (scorers : List Scorer) (nBest : Bool) (keys : List Nat)
    (costs : List F32) (vocabSize : Nat) (beams : Beams) (states : List ScorerState)
    (beamSize : Nat) (first : Bool) (pb : Beams)
    (h : toHypsPrev scorers nBest keys costs vocabSize beams states beamSize first = some pb) :
    List.Forall₂
      (List.Forall₂ (fun hyp hyp' =>
        hyp'.GetWord = hyp.GetWord ∧ hyp'.GetPrevStateIndex = hyp.GetPrevStateIndex ∧
        hyp'.GetCost = hyp.GetCost ∧ hyp'.GetPrevHyp = hyp.GetPrevHyp ∧
        (hyp'.GetCostBreakdown = hyp.GetCostBreakdown ∨
          (nBest = true ∧
            hyp'.GetCostBreakdown = resize hyp.GetCostBreakdown states.length)) ∧
        (nBest = false → hyp' = hyp) ∧
        (hyp.GetCostBreakdown.length = states.length → hyp' = hyp)))
      beams pb := by
  unfold toHypsPrev at h
  obtain ⟨st, hst, rfl⟩ := Option.map_eq_some'.mp h
  have hinv := toHypsLoop_inv_general scorers nBest keys costs vocabSize beams states beamSize
    first keys.length st hst
  refine List.Forall₂.imp ?_ hinv.prev
  intro b b' hbb
  refine List.Forall₂.imp ?_ hbb
  intro hyp hyp' hh
  rcases hh with rfl | rfl
  · exact ⟨rfl, rfl, rfl, rfl, Or.inl rfl, fun _ => rfl, fun _ => rfl⟩
  · obtain ⟨t1, t2, t3, t4, t5⟩ := touch_fields nBest states.length hyp
    refine ⟨t1, t2, t3, t4, ?_, ?_, ?_⟩
    · cases nBest with
      | false => left; simpa using t5
      | true => right; exact ⟨rfl, by simpa using t5⟩
    · intro hn; subst hn; rfl
    · intro hl; exact touch_of_length nBest hyp hl

/-- Instance of C12: a first-step call with n-best output disabled leaves the
seed beams as they were. -/
theorem toHyps_previous_beams_witness :
    ∃ pb, toHypsPrev [sampleScorer 1 5 sampleTable] false [3, 4] [F32.fin 10, F32.fin 9] 5
        [[sampleEnv.newHypothesis, sampleEnv.newHypothesis]] [echoState] 2 true = some pb ∧
      pb.map List.length = [2] ∧
      List.Forall₂
        (List.Forall₂ (fun hyp hyp' =>
          hyp'.GetWord = hyp.GetWord ∧ hyp'.GetPrevStateIndex = hyp.GetPrevStateIndex ∧
          hyp'.GetCost = hyp.GetCost ∧ hyp'.GetPrevHyp = hyp.GetPrevHyp ∧
          (hyp'.GetCostBreakdown = hyp.GetCostBreakdown ∨
            (false = true ∧
              hyp'.GetCostBreakdown = resize hyp.GetCostBreakdown [echoState].length)) ∧
          (false = false → hyp' = hyp) ∧
          (hyp.GetCostBreakdown.length = [echoState].length → hyp' = hyp)))
        [[sampleEnv.newHypothesis, sampleEnv.newHypothesis]] pb := by
  have hd : (toHypsPrev [sampleScorer 1 5 sampleTable] false [3, 4] [F32.fin 10, F32.fin 9] 5
        [[sampleEnv.newHypothesis, sampleEnv.newHypothesis]] [echoState] 2 true).map
        (List.map List.length) = some [2] := by decide
  obtain ⟨pb, hpb, hl⟩ := Option.map_eq_some'.mp hd
  exact ⟨pb, hpb, hl, toHyps_previous_beams _ _ _ _ _ _ _ _ _ pb hpb⟩

/-- C12, the statement as given fails: a first-step call with n-best output and
one scorer state resizes the breakdown of the seed hypothesis in slot 0, the
parent of the new hypotheses, from no entry to one entry. -/
theorem toHyps_previous_beams_counterexample :
    [[sampleEnv.newHypothesis, sampleEnv.newHypothesis]].map
        (List.map Hypothesis.GetCostBreakdown) = [[[], []]] ∧
    (toHypsPrev [sampleScorer 1 5 sampleTable] true [3, 4] [F32.fin 10, F32.fin 9] 5
        [[sampleEnv.newHypothesis, sampleEnv.newHypothesis]] [echoState] 2 true).map
        (List.map (List.map Hypothesis.GetCostBreakdown)) = some [[[F32.fin 0], []]] := by
  constructor <;> with_unfolding_all decide

/-! ### Index safety of `toHyps` -/

/-- C20 (amended): under the documented preconditions (positive beam size and
vocabulary size, at least as many costs as keys, at most sentences × beamSize
keys), at every rank `i` that the loop of `toHyps` reaches, with the first-step
flag set or unset: the key and the cost of the rank exist, the sentence index
`i / beamSize` is below the number of beams (of the previous and of the new
beams), and when the guard of line 55 lets the rank through, the previous beam
is non-empty (so the modulo of line 70 has a non-zero divisor) and the parent
slot finally used is below the size of that beam. With a non-empty scorer
vector the body of the loop completes at every rank and the call returns: no
index is out of range and nothing is divided by zero. With an empty scorer
vector and at least one key, line 51 reads `scorers_[0]` out of range. -/
theorem toHyps_indices_in_range (scorers : List Scorer) (nBest : Bool) (keys : List Nat)
    (costs : List F32) (vocabSize : Nat) (beams : Beams) (states : List ScorerState)
    (beamSize : Nat) (first : Bool)
    (hV : 0 < vocabSize) (hK : 0 < beamSize) (hc : keys.length ≤ costs.length)
    (hN : keys.length ≤ beams.length * beamSize) :
    (∀ i st, i < keys.length →
      toHypsLoop scorers nBest keys costs vocabSize beams states beamSize first i = some st →
      i / beamSize < beams.length ∧
      (∃ key cost newBeam beam, keys[i]? = some key ∧ costs[i]? = some cost ∧
        st.2[i / beamSize]? = some newBeam ∧ st.1[i / beamSize]? = some beam ∧
        (newBeam.length < beam.length →
          0 < beam.length ∧
          beamHypIdx (key / vocabSize) beamSize beam.length first < beam.length ∧
          ∃ parent, beam[beamHypIdx (key / vocabSize) beamSize beam.length first]?
            = some parent)) ∧
      (scorers ≠ [] → ∃ st1,
        toHypsBody scorers nBest keys costs vocabSize states beamSize first st i
          = some st1)) ∧
    (scorers ≠ [] →
      ∃ nb, toHyps scorers nBest keys costs vocabSize beams states beamSize first = some nb) ∧
    (scorers = [] → keys ≠ [] →
      toHyps scorers nBest keys costs vocabSize beams states beamSize first = none) := by
  refine ⟨?_, fun hS => toHyps_isSome scorers nBest keys costs vocabSize beams states beamSize
    first hS (by omega) (by omega) hc hN, ?_⟩
  swap
  · intro hS hk
    cases hres : toHyps scorers nBest keys costs vocabSize beams states beamSize first with
    | none => rfl
    | some nb =>
      exact absurd hS (toHyps_scorers_ne_nil scorers nBest keys costs vocabSize beams states
        beamSize first nb hres hk)
  intro i st hi hst
  have hinv := toHypsLoop_inv_general scorers nBest keys costs vocabSize beams states beamSize
    first i st hst
  have hdiv : i / beamSize < beams.length := by
    apply Nat.div_lt_of_lt_mul
    rw [Nat.mul_comm]
    omega
  have hlen1 : st.1.length = beams.length := hinv.prev.length_eq.symm
  have hlen2 : st.2.length = beams.length := hinv.len
  refine ⟨hdiv, ⟨keys[i], costs[i], st.2[i / beamSize], st.1[i / beamSize],
    List.getElem?_eq_getElem hi, List.getElem?_eq_getElem (by omega),
    List.getElem?_eq_getElem (by omega), List.getElem?_eq_getElem (by omega), ?_⟩, ?_⟩
  · intro hg
    have hpos : 0 < (st.1[i / beamSize]).length := by omega
    have hslot := beamHypIdx_lt (keys[i] / vocabSize) beamSize (st.1[i / beamSize]).length
      first hpos
    exact ⟨hpos, hslot, _, List.getElem?_eq_getElem hslot⟩
  · intro hS
    obtain ⟨sc, hsc⟩ : ∃ sc, scorers[0]? = some sc := by
      cases scorers with
      | nil => exact absurd rfl hS
      | cons a t => exact ⟨a, by simp⟩
    exact toHypsBody_isSome scorers sc hsc nBest keys costs vocabSize beams states beamSize
      first i st
      (toHypsLoop_inv scorers sc hsc nBest keys costs vocabSize beams states beamSize first i
        st hst)
      (by omega) (by omega) hi (by omega) hdiv

/-- Instance of C20: rank 3 of a later step over two sentences with beam size
2, reached after the ranks 0, 1 and 2. -/
theorem toHyps_indices_in_range_witness :
    ∃ st, toHypsLoop [sampleScorer 1 5 sampleTable] false [3, 4, 12, 19] sampleCosts 5
        [[sampleEnv.newHypothesis], [sampleEnv.newHypothesis, sampleEnv.newHypothesis]] [] 2
        false 3 = some st ∧
      3 / 2 < [[sampleEnv.newHypothesis],
        [sampleEnv.newHypothesis, sampleEnv.newHypothesis]].length ∧
      (∃ key cost newBeam beam, [3, 4, 12, 19][3]? = some key ∧
        sampleCosts[3]? = some cost ∧
        st.2[3 / 2]? = some newBeam ∧ st.1[3 / 2]? = some beam ∧
        (newBeam.length < beam.length →
          0 < beam.length ∧
          beamHypIdx (key / 5) 2 beam.length false < beam.length ∧
          ∃ parent, beam[beamHypIdx (key / 5) 2 beam.length false]? = some parent)) ∧
      ([sampleScorer 1 5 sampleTable] ≠ [] → ∃ st1,
        toHypsBody [sampleScorer 1 5 sampleTable] false [3, 4, 12, 19] sampleCosts 5 [] 2
          false st 3 = some st1) := by
  have hd : ((toHypsLoop [sampleScorer 1 5 sampleTable] false [3, 4, 12, 19] sampleCosts 5
        [[sampleEnv.newHypothesis], [sampleEnv.newHypothesis, sampleEnv.newHypothesis]] [] 2
        false 3).map (fun st => st.2.map List.length)) = some [1, 1] := by decide
  obtain ⟨st, hst, _⟩ := Option.map_eq_some'.mp hd
  exact ⟨st, hst, (toHyps_indices_in_range _ _ _ _ _ _ _ _ _ (by decide) (by decide)
    (by decide) (by decide)).1 3 st (by decide) hst⟩

/-- C20, the statement as given fails: a call that meets the four preconditions
(beam size 1, vocabulary size 5, one key with its cost, one sentence) with an
empty scorer vector reads `scorers_[0]` out of range at line 51. -/
theorem toHyps_indices_in_range_counterexample :
    0 < 5 ∧ 0 < 1 ∧ [3].length ≤ [F32.fin 10].length ∧
    [3].length ≤ [[sampleEnv.newHypothesis]].length * 1 ∧
    ([] : List Scorer)[0]? = none ∧
    (toHyps [] false [3] [F32.fin 10] 5 [[sampleEnv.newHypothesis]] [] 1 true).isSome
      = false := by
  refine ⟨by decide, by decide, by decide, by decide, rfl, by decide⟩

/-! ### The three vectors of the cost assembly -/

theorem costAssembly_entry (K : Nat) (beams : Beams) (b s : Nat) (hb : b < K)
    (beam : Beam) (hs : beams[s]? = some beam) :
    (costAssembly K beams).1[b * beams.length + s]?
      = some (match beam[b]? with
          | some hyp => hyp.GetPrevStateIndex
          | none => 0) ∧
    (costAssembly K beams).2.1[b * beams.length + s]?
      = some (match beam[b]? with
          | some hyp => hyp.GetWord
          | none => 0) ∧
    (costAssembly K beams).2.2[b * beams.length + s]?
      = some (match beam[b]? with
          | some hyp => hyp.GetCost
          | none => F32.fin (-9999)) := by
  have hsl : s < beams.length := (List.getElem?_eq_some_iff.mp hs).1
  induction K with
  | zero => omega
  | succ K ih =>
    rw [costAssembly_succ]
    simp only
    obtain ⟨hl1, hl2, hl3⟩ := costAssembly_length K beams
    by_cases hbK : b < K
    · have hidx : b * beams.length + s < K * beams.length := by
        calc b * beams.length + s < b * beams.length + beams.length := by omega
          _ = (b + 1) * beams.length := by ring
          _ ≤ K * beams.length := Nat.mul_le_mul_right _ hbK
      rw [List.getElem?_append_left (by rw [hl1]; exact hidx),
        List.getElem?_append_left (by rw [hl2]; exact hidx),
        List.getElem?_append_left (by rw [hl3]; exact hidx)]
      exact ih hbK
    · have hbe : b = K := by omega
      subst hbe
      rw [List.getElem?_append_right (by rw [hl1]; omega),
        List.getElem?_append_right (by rw [hl2]; omega),
        List.getElem?_append_right (by rw [hl3]; omega), hl1, hl2, hl3]
      simp only [Nat.add_sub_cancel_left, List.getElem?_map, hs, Option.map_some']
      exact ⟨trivial, trivial, trivial⟩

/-- C17: at the start of every pass of `search` after the first, with working
width `K = localBeamSize` and `N = batch->size()` sentences, the vectors
`hypIndices`, `embIndices` and `beamCosts` (the last one becomes `prevCosts` of
shape `{K, 1, N, 1}`) each have length `K * N`, and for every slot `i < K` and
sentence `j < N` the entries at position `i * N + j` are the back-pointer, the
token and the cost of hypothesis `i` of the beam of sentence `j` when that beam
has more than `i` hypotheses, and `0`, `0` and `-9999` otherwise. -/
theorem search_cost_vectors (bs : BeamSearch) (env : Collaborators) (batch : Batch) (n : Nat)
    (s : SearchState) (h : stateBefore bs env batch n = some s) (hn : 0 < n) :
    ∃ hypIndices embIndices beamCosts,
      prevCostsOf batch s
        = (hypIndices, embIndices,
            Tensor.fromVector s.localBeamSize 1 batch.size 1 beamCosts) ∧
      hypIndices.length = s.localBeamSize * batch.size ∧
      embIndices.length = s.localBeamSize * batch.size ∧
      beamCosts.length = s.localBeamSize * batch.size ∧
      ∀ i j, i < s.localBeamSize → j < batch.size →
        ∃ beam, s.beams[j]? = some beam ∧
          (∀ hyp, beam[i]? = some hyp →
            hypIndices[i * batch.size + j]? = some hyp.GetPrevStateIndex ∧
            embIndices[i * batch.size + j]? = some hyp.GetWord ∧
            beamCosts[i * batch.size + j]? = some hyp.GetCost) ∧
          (beam.length ≤ i →
            hypIndices[i * batch.size + j]? = some 0 ∧
            embIndices[i * batch.size + j]? = some 0 ∧
            beamCosts[i * batch.size + j]? = some (F32.fin (-9999))) := by
  have hinv := stateBefore_inv bs env batch n s h
  have hfirst : s.first = false := by
    rw [hinv.first]
    exact decide_eq_false (by omega)
  have hlen := costAssembly_length s.localBeamSize s.beams
  rw [hinv.lenB] at hlen
  refine ⟨(costAssembly s.localBeamSize s.beams).1, (costAssembly s.localBeamSize s.beams).2.1,
    (costAssembly s.localBeamSize s.beams).2.2, ?_, hlen.1, hlen.2.1, hlen.2.2, ?_⟩
  · simp [prevCostsOf, hfirst]
  · intro i j hi hj
    have hjb : j < s.beams.length := by rw [hinv.lenB]; exact hj
    refine ⟨s.beams[j], List.getElem?_eq_getElem hjb, ?_, ?_⟩
    · intro hyp hhyp
      have e := costAssembly_entry s.localBeamSize s.beams i j hi s.beams[j]
        (List.getElem?_eq_getElem hjb)
      rw [hhyp, hinv.lenB] at e
      exact e
    · intro hle
      have e := costAssembly_entry s.localBeamSize s.beams i j hi s.beams[j]
        (List.getElem?_eq_getElem hjb)
      rw [List.getElem?_eq_none hle, hinv.lenB] at e
      exact e

/-- Instance of C17: the second pass of the sample search with `padTable` runs
at width 2 over one sentence whose beam holds one hypothesis, so the vectors
have two entries and position 1 holds the padding triple. -/
theorem search_cost_vectors_witness :
    stateBefore padSearch sampleEnv padBatch 1 = some padSecondPass ∧
    padSecondPass.localBeamSize = 2 ∧ padSecondPass.beams.map List.length = [1] ∧
    (prevCostsOf padBatch padSecondPass).1 = [0, 0] ∧
    ∃ hypIndices embIndices beamCosts,
      prevCostsOf padBatch padSecondPass
        = (hypIndices, embIndices,
            Tensor.fromVector padSecondPass.localBeamSize 1 padBatch.size 1 beamCosts) ∧
      hypIndices.length = padSecondPass.localBeamSize * padBatch.size ∧
      embIndices.length = padSecondPass.localBeamSize * padBatch.size ∧
      beamCosts.length = padSecondPass.localBeamSize * padBatch.size ∧
      ∀ i j, i < padSecondPass.localBeamSize → j < padBatch.size →
        ∃ beam, padSecondPass.beams[j]? = some beam ∧
          (∀ hyp, beam[i]? = some hyp →
            hypIndices[i * padBatch.size + j]? = some hyp.GetPrevStateIndex ∧
            embIndices[i * padBatch.size + j]? = some hyp.GetWord ∧
            beamCosts[i * padBatch.size + j]? = some hyp.GetCost) ∧
          (beam.length ≤ i →
            hypIndices[i * padBatch.size + j]? = some 0 ∧
            embIndices[i * padBatch.size + j]? = some 0 ∧
            beamCosts[i * padBatch.size + j]? = some (F32.fin (-9999))) := by
  have hs : stateBefore padSearch sampleEnv padBatch 1 = some padSecondPass :=
    some_getD_of_isSome _ _ (by with_unfolding_all decide)
  exact ⟨hs, by with_unfolding_all decide, by with_unfolding_all decide,
    by with_unfolding_all decide,
    search_cost_vectors padSearch sampleEnv padBatch 1 padSecondPass hs (by decide)⟩

/-! ### The un-interleaving map `hypIdxTrans` -/

theorem hypIdxTrans_false (r K N : Nat) : hypIdxTrans r K N false = r / K + r % K * N := by
  simp [hypIdxTrans]

theorem hypIdxTrans_slot (N K s b : Nat) (hb : b < K) :
    hypIdxTrans (s * K + b) K N false = b * N + s := by
  have hK : 0 < K := by omega
  rw [hypIdxTrans_false, Nat.mul_comm s K, Nat.mul_add_div hK, Nat.div_eq_of_lt hb,
    Nat.mul_add_mod, Nat.mod_eq_of_lt hb]
  omega

theorem hypIdxTrans_decompose (N K r : Nat) (hK : 0 < K) (hr : r < N * K) :
    r / K < N ∧ r % K < K ∧ r = r / K * K + r % K := by
  refine ⟨(Nat.div_lt_iff_lt_mul hK).mpr hr, Nat.mod_lt _ hK, ?_⟩
  have := Nat.div_add_mod r K
  rw [Nat.mul_comm] at this
  exact this.symm

theorem slot_position_lt (N K s b : Nat) (hs : s < N) (hb : b < K) : b * N + s < N * K := by
  calc b * N + s < b * N + N := by omega
    _ = N * (b + 1) := by ring
    _ ≤ N * K := Nat.mul_le_mul_left _ hb

/-- C19: for `N ≥ 1` sentences and beam width `K ≥ 1`, the map
`r ↦ r / K + (r % K) * N` of lines 62-63 sends the selector-side index
`s * K + b` to `b * N + s`, the position at which the cost assembly of `search`
writes slot `b` of sentence `s`; it maps `[0, N * K)` into itself, is injective
and surjective on that range, and is the identity there when `N = 1` or
`K = 1`, the cases in which `search` does not transpose the cost tensor. -/
theorem hypIdxTrans_bijection (N K : Nat) (hN : 1 ≤ N) (hK : 1 ≤ K) :
    (∀ s b, s < N → b < K → hypIdxTrans (s * K + b) K N false = b * N + s) ∧
    (∀ (beams : Beams) (s b : Nat) (beam : Beam), beams.length = N → b < K →
      beams[s]? = some beam →
      (costAssembly K beams).1[hypIdxTrans (s * K + b) K N false]?
          = some (match beam[b]? with
              | some hyp => hyp.GetPrevStateIndex
              | none => 0) ∧
      (costAssembly K beams).2.1[hypIdxTrans (s * K + b) K N false]?
          = some (match beam[b]? with
              | some hyp => hyp.GetWord
              | none => 0) ∧
      (costAssembly K beams).2.2[hypIdxTrans (s * K + b) K N false]?
          = some (match beam[b]? with
              | some hyp => hyp.GetCost
              | none => F32.fin (-9999))) ∧
    (∀ r, r < N * K → hypIdxTrans r K N false < N * K) ∧
    (∀ r r', r < N * K → r' < N * K →
      hypIdxTrans r K N false = hypIdxTrans r' K N false → r = r') ∧
    (∀ t, t < N * K → ∃ r, r < N * K ∧ hypIdxTrans r K N false = t) ∧
    (N = 1 ∨ K = 1 → ∀ r, r < N * K → hypIdxTrans r K N false = r) ∧
    (∀ (bs : BeamSearch) (batch : Batch) (st : SearchState), batch.size = N →
      st.localBeamSize = K → (N = 1 ∨ K = 1) →
      transposedCosts bs batch st = (steppedCosts bs batch st).2) := by
  have hK0 : 0 < K := hK
  have hN0 : 0 < N := hN
  refine ⟨fun s b _ hb => hypIdxTrans_slot N K s b hb, ?_, ?_, ?_, ?_, ?_, ?_⟩
  · intro beams s b beam hlen hb hs
    rw [hypIdxTrans_slot N K s b hb, ← hlen]
    exact costAssembly_entry K beams b s hb beam hs
  · intro r hr
    obtain ⟨h1, h2, h3⟩ := hypIdxTrans_decompose N K r hK0 hr
    rw [hypIdxTrans_false, Nat.add_comm]
    exact slot_position_lt N K (r / K) (r % K) h1 h2
  · intro r r' hr hr' he
    obtain ⟨h1, h2, h3⟩ := hypIdxTrans_decompose N K r hK0 hr
    obtain ⟨h1', h2', h3'⟩ := hypIdxTrans_decompose N K r' hK0 hr'
    rw [hypIdxTrans_false, hypIdxTrans_false] at he
    have eq : r / K = r' / K := by
      have := congrArg (fun x => x % N) he
      simp only [Nat.add_mul_mod_self_right] at this
      rwa [Nat.mod_eq_of_lt h1, Nat.mod_eq_of_lt h1'] at this
    have em : r % K = r' % K := by
      rw [eq] at he
      have h4 : r % K * N = r' % K * N := by omega
      exact Nat.eq_of_mul_eq_mul_right hN0 h4
    rw [h3, h3', eq, em]
  · intro t ht
    have htN : t / N < K := by
      apply (Nat.div_lt_iff_lt_mul hN0).mpr
      rw [Nat.mul_comm]
      exact ht
    have htm : t % N < N := Nat.mod_lt _ hN0
    refine ⟨t % N * K + t / N, ?_, ?_⟩
    · have := slot_position_lt K N (t / N) (t % N) htN htm
      rw [Nat.mul_comm K N] at this
      exact this
    · rw [hypIdxTrans_slot N K (t % N) (t / N) htN]
      have := Nat.div_add_mod t N
      rw [Nat.mul_comm] at this
      exact this
  · intro h1 r hr
    rw [hypIdxTrans_false]
    rcases h1 with h1 | h1
    · subst h1
      rw [Nat.one_mul] at hr
      rw [Nat.div_eq_of_lt hr, Nat.mod_eq_of_lt hr]
      omega
    · subst h1
      simp [Nat.mod_one]
  · intro bs batch st hb hl h1
    unfold transposedCosts
    simp only
    rw [if_neg]
    omega

/-- Instance of C19 for two sentences and beam width 3: selector-side index
`1 * 3 + 2` goes to position `2 * 2 + 1`. -/
theorem hypIdxTrans_bijection_witness :
    hypIdxTrans (1 * 3 + 2) 3 2 false = 2 * 2 + 1 ∧
    (List.range (2 * 3)).map (fun r => hypIdxTrans r 3 2 false) = [0, 2, 4, 1, 3, 5] := by
  refine ⟨(hypIdxTrans_bijection 2 3 (by decide) (by decide)).1 1 2 (by decide) (by decide), ?_⟩
  decide

/-! ### Adaptation of the working beam width -/

theorem maxBeamSize_foldl_ge (beams : Beams) (acc : Nat) :
    acc ≤ beams.foldl
        (fun maxBeam beam => if beam.length > maxBeam then beam.length else maxBeam) acc ∧
    ∀ beam ∈ beams, beam.length ≤ beams.foldl
        (fun maxBeam beam => if beam.length > maxBeam then beam.length else maxBeam) acc := by
  induction beams generalizing acc with
  | nil => simp
  | cons b t ih =>
    simp only [List.foldl_cons, List.mem_cons, forall_eq_or_imp]
    obtain ⟨h1, h2⟩ := ih (if b.length > acc then b.length else acc)
    refine ⟨?_, ?_, h2⟩
    · by_cases hgt : b.length > acc
      · rw [if_pos hgt] at h1 ⊢; omega
      · rw [if_neg hgt] at h1 ⊢; omega
    · by_cases hgt : b.length > acc
      · rw [if_pos hgt] at h1 ⊢; omega
      · rw [if_neg hgt] at h1 ⊢; omega

theorem maxBeamSize_foldl_attained (beams : Beams) (acc : Nat) :
    beams.foldl (fun maxBeam beam => if beam.length > maxBeam then beam.length else maxBeam) acc
      = acc ∨
    ∃ beam ∈ beams, beam.length = beams.foldl
        (fun maxBeam beam => if beam.length > maxBeam then beam.length else maxBeam) acc := by
  induction beams generalizing acc with
  | nil => simp
  | cons b t ih =>
    simp only [List.foldl_cons, List.mem_cons, exists_eq_or_imp]
    rcases ih (if b.length > acc then b.length else acc) with h | ⟨beam, hm, hl⟩
    · rw [h]
      split
      · right; left; rfl
      · left; rfl
    · right; right; exact ⟨beam, hm, hl⟩

theorem maxBeamSize_is_max (beams : Beams) :
    (∀ beam ∈ beams, beam.length ≤ maxBeamSize beams) ∧
    (maxBeamSize beams ≠ 0 → ∃ beam ∈ beams, beam.length = maxBeamSize beams) := by
  refine ⟨(maxBeamSize_foldl_ge beams 0).2, ?_⟩
  intro hne
  rcases maxBeamSize_foldl_attained beams 0 with h | h
  · exact absurd h hne
  · exact h

/-- C14 (amended): the pass that follows the first pass still runs at the
configured width `beamSize_`, because line 235 skips the adaptation while the
first-step flag is set; every pass after a pass that was not the first runs at
a width equal to the maximum occupancy of the pruned beams that the preceding
pass left: no pruned beam is larger and one of them has exactly that size. -/
theorem search_width_adaptation (bs : BeamSearch) (env : Collaborators) (batch : Batch)
    (n : Nat) (s : SearchState) (h : stateBefore bs env batch (n + 1) = some s) :
    ∃ s0 nb, stateBefore bs env batch n = some s0 ∧
      unprunedBeams bs env batch s0 = some nb ∧
      s.beams = pruneBeam bs.trgEosId nb ∧
      (n = 0 → s.localBeamSize = bs.beamSize) ∧
      (0 < n →
        s.localBeamSize = maxBeamSize (pruneBeam bs.trgEosId nb) ∧
        (∀ beam ∈ pruneBeam bs.trgEosId nb, beam.length ≤ s.localBeamSize) ∧
        ∃ beam ∈ pruneBeam bs.trgEosId nb, beam.length = s.localBeamSize) := by
  obtain ⟨s0, hs0, hstep, hcont⟩ := stateBefore_succ bs env batch n s h
  have hinv0 := stateBefore_inv bs env batch n s0 hs0
  obtain ⟨nb, hnb⟩ : ∃ nb, unprunedBeams bs env batch s0 = some nb := by
    cases hu : unprunedBeams bs env batch s0 with
    | none => simp [searchStep, hu] at hstep
    | some nb => exact ⟨nb, rfl⟩
  obtain ⟨s1, hs1, hbeams, _, hlbs, _⟩ := searchStep_facts bs env batch n s0 hinv0 nb hnb
  rw [hstep] at hs1
  cases hs1
  refine ⟨s0, nb, hs0, hnb, hbeams, ?_, ?_⟩
  · intro h0
    rw [hlbs, if_pos h0]
    exact hinv0.lbs1 (by omega)
  · intro hpos
    rw [if_neg (by omega)] at hlbs
    have hne : maxBeamSize (pruneBeam bs.trgEosId nb) ≠ 0 := by
      simp only [continues, Bool.and_eq_true, decide_eq_true_eq] at hcont
      rw [← hlbs]
      exact hcont.1
    obtain ⟨hmax, hatt⟩ := maxBeamSize_is_max (pruneBeam bs.trgEosId nb)
    rw [hlbs]
    exact ⟨rfl, hmax, hatt hne⟩

/-- Instance of C14: the third pass of the sample search runs at width 1, the
occupancy of both pruned beams after the second pass. -/
theorem search_width_adaptation_witness :
    sampleSearch.beamSize = 2 ∧ sampleThirdPass.localBeamSize = 1 ∧
    ∃ s0 nb, stateBefore sampleSearch sampleEnv sampleBatch 1 = some s0 ∧
      unprunedBeams sampleSearch sampleEnv sampleBatch s0 = some nb ∧
      sampleThirdPass.beams = pruneBeam sampleSearch.trgEosId nb ∧
      (1 = 0 → sampleThirdPass.localBeamSize = sampleSearch.beamSize) ∧
      (0 < 1 →
        sampleThirdPass.localBeamSize = maxBeamSize (pruneBeam sampleSearch.trgEosId nb) ∧
        (∀ beam ∈ pruneBeam sampleSearch.trgEosId nb,
          beam.length ≤ sampleThirdPass.localBeamSize) ∧
        ∃ beam ∈ pruneBeam sampleSearch.trgEosId nb,
          beam.length = sampleThirdPass.localBeamSize) :=
  ⟨rfl, by with_unfolding_all decide,
    search_width_adaptation sampleSearch sampleEnv sampleBatch 1 sampleThirdPass
      (some_getD_of_isSome _ _ (by with_unfolding_all decide))⟩

/-- C14, the statement as given fails: when the first pass of the sample search
has completed, the pruned beams hold one hypothesis each, and the second pass
still runs at the configured width 2. -/
theorem search_width_adaptation_counterexample :
    stateBefore sampleSearch sampleEnv sampleBatch 1 = some sampleSecondPass ∧
    sampleSecondPass.first = false ∧
    sampleSecondPass.beams.map List.length = [1, 1] ∧
    maxBeamSize sampleSecondPass.beams = 1 ∧
    sampleSecondPass.localBeamSize = 2 :=
  ⟨some_getD_of_isSome _ _ (by with_unfolding_all decide), by with_unfolding_all decide,
    by with_unfolding_all decide, by with_unfolding_all decide, by with_unfolding_all decide⟩

/-! ### The end of the loop of `search` -/

theorem searchLoop_last_pass (bs : BeamSearch) (env : Collaborators) (batch : Batch)
    (fuel n : Nat) (s : SearchState) (hs : stateBefore bs env batch n = some s)
    (hists : List History) (last : SearchState)
    (h : searchLoop bs env batch fuel s = Outcome.done hists last) :
    ∃ m s0, stateBefore bs env batch m = some s0 ∧ searchStep bs env batch s0 = some last ∧
      continues last = false ∧ hists = last.histories := by
  induction fuel generalizing n s with
  | zero => simp [searchLoop] at h
  | succ fuel ih =>
    simp only [searchLoop] at h
    cases hstep : searchStep bs env batch s with
    | none => simp [hstep] at h
    | some s1 =>
      simp only [hstep] at h
      by_cases hc : continues s1 = true
      · rw [if_pos hc] at h
        have hs1 : stateBefore bs env batch (n + 1) = some s1 := by
          simp [stateBefore, hs, hstep, hc]
        exact ih (n + 1) s1 hs1 h
      · rw [if_neg hc] at h
        cases h
        exact ⟨n, s, hs, hstep, by simpa using hc, rfl⟩

theorem last_pass_beams_empty (bs : BeamSearch) (env : Collaborators) (batch : Batch)
    (m : Nat) (s0 last : SearchState) (nb : Beams)
    (hs0 : stateBefore bs env batch m = some s0)
    (hnb : unprunedBeams bs env batch s0 = some nb)
    (hstep : searchStep bs env batch s0 = some last) (hc : continues last = false)
    (hf : last.final = false) :
    ∀ beam ∈ pruneBeam bs.trgEosId nb, beam = [] := by
  have hinv := stateBefore_inv bs env batch m s0 hs0
  obtain ⟨s1, hs1, hbeams, _, hlbs, _⟩ := searchStep_facts bs env batch m s0 hinv nb hnb
  rw [hstep] at hs1
  cases hs1
  have hz : last.localBeamSize = 0 := by
    simp only [continues, hf, Bool.not_false, Bool.and_true, decide_eq_false_iff_not,
      ne_eq, not_not] at hc
    exact hc
  by_cases h0 : m = 0
  · rw [hlbs, if_pos h0, hinv.lbs1 (by omega)] at hz
    have hle := toHyps_length_le _ _ _ _ _ _ _ _ _ nb hnb
    intro beam hm
    obtain ⟨j, hj, hbj⟩ := List.getElem_of_mem hm
    have hpj : (pruneBeam bs.trgEosId nb)[j]? = some beam := by
      rw [List.getElem?_eq_getElem hj, hbj]
    obtain ⟨b, hb, hlb⟩ := pruneBeam_getElem?_le bs.trgEosId nb j beam hpj
    have hjn : j < s0.beams.length := by
      rw [← hle.1]
      exact (List.getElem?_eq_some_iff.mp hb).1
    have h1 := hle.2 j s0.beams[j] b (List.getElem?_eq_getElem hjn) hb
    have h2 := hinv.width s0.beams[j] (List.getElem_mem hjn)
    exact List.length_eq_zero.mp (by omega)
  · rw [hlbs, if_neg h0] at hz
    exact (maxBeamSize_eq_zero _).mp hz

/-- C15: after a pass of the loop of `search` the loop ends exactly when the
working beam width is zero or the length-cap flag `final` is set, and then
`search` returns the histories of that pass; and whenever `search` returns with
`final` unset, every pruned beam of the last pass is empty. -/
theorem search_loop_end (bs : BeamSearch) (env : Collaborators) (batch : Batch) :
    (∀ n s s1, stateBefore bs env batch n = some s → searchStep bs env batch s = some s1 →
      ((stateBefore bs env batch (n + 1) = none ∧
          ∀ fuel, searchLoop bs env batch (fuel + 1) s = Outcome.done s1.histories s1)
        ↔ (s1.localBeamSize = 0 ∨ s1.final = true))) ∧
    (∀ fuel hists last, search bs env batch fuel = Outcome.done hists last →
      ∃ m s0 nb, stateBefore bs env batch m = some s0 ∧
        unprunedBeams bs env batch s0 = some nb ∧
        searchStep bs env batch s0 = some last ∧
        last.beams = pruneBeam bs.trgEosId nb ∧ hists = last.histories ∧
        (last.localBeamSize = 0 ∨ last.final = true) ∧
        (last.final = false → ∀ beam ∈ last.beams, beam = [])) := by
  have hcont : ∀ s1 : SearchState,
      continues s1 = false ↔ (s1.localBeamSize = 0 ∨ s1.final = true) := by
    intro s1
    cases hfin : s1.final <;> simp [continues, hfin]
  constructor
  · intro n s s1 hs hstep
    rw [← hcont]
    constructor
    · rintro ⟨hnone, _⟩
      cases hc : continues s1 with
      | false => rfl
      | true => simp [stateBefore, hs, hstep, hc] at hnone
    · intro hc
      refine ⟨by simp [stateBefore, hs, hstep, hc], ?_⟩
      intro fuel
      simp [searchLoop, hstep, hc]
  · intro fuel hists last h
    unfold search at h
    cases hinit : searchInit bs env batch with
    | none => simp [hinit] at h
    | some sInit =>
      simp only [hinit] at h
      obtain ⟨m, s0, hs0, hstep, hc, hh⟩ :=
        searchLoop_last_pass bs env batch fuel 0 sInit hinit hists last h
      obtain ⟨nb, hnb⟩ : ∃ nb, unprunedBeams bs env batch s0 = some nb := by
        cases hu : unprunedBeams bs env batch s0 with
        | none => simp [searchStep, hu] at hstep
        | some nb => exact ⟨nb, rfl⟩
      have hinv := stateBefore_inv bs env batch m s0 hs0
      obtain ⟨s1, hs1, hbeams, _, _, _⟩ := searchStep_facts bs env batch m s0 hinv nb hnb
      rw [hstep] at hs1
      cases hs1
      refine ⟨m, s0, nb, hs0, hnb, hstep, hbeams, hh, (hcont last).mp hc, ?_⟩
      intro hf
      rw [hbeams]
      exact last_pass_beams_empty bs env batch m s0 last nb hs0 hnb hstep hc hf

/-- Instance of C15: in the sample search in which every sentence picks the
end-of-sequence token in the first pass, the second pass adapts the width to 0
and `search` returns with `final` unset and every beam empty. -/
theorem search_loop_end_witness :
    ∃ hists last, search eosSearch sampleEnv sampleBatch 3 = Outcome.done hists last ∧
      last.final = false ∧ last.localBeamSize = 0 ∧ hists.map History.size = [2, 2] ∧
      ∀ beam ∈ last.beams, beam = [] := by
  have hd : (search eosSearch sampleEnv sampleBatch 3).lastState.map
      (fun last => (last.final, last.localBeamSize, last.histories.map History.size))
      = some (false, 0, [2, 2]) := by with_unfolding_all decide
  cases h : search eosSearch sampleEnv sampleBatch 3 with
  | done hists last =>
    rw [h] at hd
    simp only [Outcome.lastState, Option.map_some', Option.some.injEq, Prod.mk.injEq] at hd
    obtain ⟨m, s0, nb, _, _, _, _, hh, _, hempty⟩ :=
      (search_loop_end eosSearch sampleEnv sampleBatch).2 3 hists last h
    exact ⟨hists, last, rfl, hd.1, hd.2.1, by rw [hh]; exact hd.2.2, hempty hd.1⟩
  | undefinedBehaviour => rw [h] at hd; simp [Outcome.lastState] at hd
  | outOfFuel => rw [h] at hd; simp [Outcome.lastState] at hd

/-! ### The counts requested from the selector -/

/-- C16 (amended): in every pass of `search` the selector is called with the
vector `beamSizes(dimBatch, localBeamSize)`: one requested count per sentence,
the same working width for all of them. The occupancy of the beam of a sentence
is at most its requested count, not the other way round. -/
theorem search_requested_counts (bs : BeamSearch) (env : Collaborators) (batch : Batch)
    (n : Nat) (s : SearchState) (h : stateBefore bs env batch n = some s) :
    (selectStep bs env batch s).2.1
      = env.newNthElement bs.beamSize batch.size (beamSizes batch s)
          (maskedCosts bs env batch s) s.first ∧
    (beamSizes batch s).length = batch.size ∧
    ∀ j, j < batch.size →
      (beamSizes batch s)[j]? = some s.localBeamSize ∧
      ∃ beam, s.beams[j]? = some beam ∧ beam.length ≤ s.localBeamSize := by
  have hinv := stateBefore_inv bs env batch n s h
  refine ⟨rfl, by simp [beamSizes], ?_⟩
  intro j hj
  have hjb : j < s.beams.length := by rw [hinv.lenB]; exact hj
  refine ⟨by simp [beamSizes, hj], s.beams[j], List.getElem?_eq_getElem hjb, ?_⟩
  by_cases h1 : n ≤ 1
  · rw [hinv.lbs1 h1]
    exact hinv.width _ (List.getElem_mem hjb)
  · rw [hinv.lbs2 (by omega)]
    exact (maxBeamSize_is_max s.beams).1 _ (List.getElem_mem hjb)

/-- Instance of C16 on the second pass of the sample search `earlySearch`. -/
theorem search_requested_counts_witness :
    (selectStep earlySearch sampleEnv sampleBatch earlySecondPass).2.1
      = sampleEnv.newNthElement earlySearch.beamSize sampleBatch.size
          (beamSizes sampleBatch earlySecondPass)
          (maskedCosts earlySearch sampleEnv sampleBatch earlySecondPass)
          earlySecondPass.first ∧
    (beamSizes sampleBatch earlySecondPass).length = sampleBatch.size ∧
    ∀ j, j < sampleBatch.size →
      (beamSizes sampleBatch earlySecondPass)[j]? = some earlySecondPass.localBeamSize ∧
      ∃ beam, earlySecondPass.beams[j]? = some beam ∧
        beam.length ≤ earlySecondPass.localBeamSize :=
  search_requested_counts earlySearch sampleEnv sampleBatch 1 earlySecondPass
    (some_getD_of_isSome _ _ (by with_unfolding_all decide))

/-- C16, the statement as given fails: at the start of the second pass of the
sample search `earlySearch` the beam of sentence 1 is empty, and the count
requested for it is the shared width 1, the same as for sentence 0. -/
theorem search_requested_counts_counterexample :
    stateBefore earlySearch sampleEnv sampleBatch 1 = some earlySecondPass ∧
    earlySecondPass.beams.map List.length = [1, 0] ∧
    beamSizes sampleBatch earlySecondPass = [1, 1] ∧
    (selectStep earlySearch sampleEnv sampleBatch earlySecondPass).2.1
      = sampleEnv.newNthElement earlySearch.beamSize sampleBatch.size [1, 1]
          (maskedCosts earlySearch sampleEnv sampleBatch earlySecondPass)
          earlySecondPass.first := by
  have hb : beamSizes sampleBatch earlySecondPass = [1, 1] := by with_unfolding_all decide
  refine ⟨some_getD_of_isSome _ _ (by with_unfolding_all decide), by with_unfolding_all decide,
    hb, ?_⟩
  rw [← hb]
  rfl

/-! ### A search with a beam width of zero -/

theorem toHypsBody_zero_vocab (scorers : List Scorer)
    (nBest : Bool) (keys : List Nat) (costs : List F32)
    (states : List ScorerState) (beamSize : Nat) (first : Bool) (i : Nat) (st : Beams × Beams) :
    toHypsBody scorers nBest keys costs 0 states beamSize first st i = none := by
  unfold toHypsBody
  split
  · rfl
  · simp

theorem toHyps_zero_vocab (scorers : List Scorer) (nBest : Bool) (keys : List Nat)
    (costs : List F32) (beams : Beams) (states : List ScorerState) (beamSize : Nat)
    (first : Bool) :
    toHyps scorers nBest keys costs 0 beams states beamSize first
      = if keys = [] then some (List.replicate beams.length []) else none := by
  cases keys with
  | nil => simp [toHyps, toHypsLoop]
  | cons k t =>
    simp only [toHyps, List.length_cons, toHypsLoop_succ, reduceCtorEq, if_false]
    cases toHypsLoop scorers nBest (k :: t) costs 0 beams states beamSize first t.length with
    | none => rfl
    | some st => simp [toHypsBody_zero_vocab]

theorem searchStep_no_keys (bs : BeamSearch) (env : Collaborators) (batch : Batch) (n : Nat)
    (s : SearchState) (hinv : LoopInv bs batch n s)
    (hk : (selectStep bs env batch s).2.1.2 = []) :
    ∃ s1, searchStep bs env batch s = some s1 ∧ s1.histories = s.histories ∧
      (∀ beam ∈ s1.beams, beam = []) ∧
      s1.localBeamSize = (if n = 0 then s.localBeamSize else 0) := by
  have hnb : unprunedBeams bs env batch s = some (List.replicate s.beams.length []) := by
    unfold unprunedBeams
    simp only [hk]
    simp [toHyps, toHypsLoop]
  obtain ⟨s1, hs1, hbeams, _, hlbs, hH⟩ := searchStep_facts bs env batch n s hinv _ hnb
  have hempty : ∀ beam ∈ pruneBeam bs.trgEosId (List.replicate s.beams.length []),
      beam = [] := by
    intro beam hm
    rw [pruneBeam_eq_map_filter] at hm
    simp only [List.map_replicate, List.filter_nil] at hm
    exact (List.mem_replicate.mp hm).2
  refine ⟨s1, hs1, ?_, ?_, ?_⟩
  · apply List.ext_getElem?
    intro i
    by_cases hi : i < s.histories.length
    · have hiN : i < batch.size := by rw [← hinv.lenH]; exact hi
      have hiB : i < s.beams.length := by rw [hinv.lenB]; exact hiN
      have hp : i < (pruneBeam bs.trgEosId (List.replicate s.beams.length [])).length := by
        rw [pruneBeam_length, List.length_replicate]; exact hiB
      have := hH.hist i [] s.histories[i] _ (by simp [hiB]) (List.getElem?_eq_getElem hi)
        (List.getElem?_eq_getElem hp)
      simp only [List.length_nil, Nat.lt_irrefl, and_false, if_false] at this
      rw [this, List.getElem?_eq_getElem hi]
    · have h1 : s1.histories.length = s.histories.length := hH.len
      rw [List.getElem?_eq_none (by omega), List.getElem?_eq_none (by omega)]
  · rw [hbeams]; exact hempty
  · rw [hlbs]
    by_cases h0 : n = 0
    · simp [h0]
    · simp only [h0, if_false]
      exact (maxBeamSize_eq_zero _).mpr hempty

/-- C11 (amended): neither the constructor nor `search` checks the beam width or
the vocabulary size. The set-up before the loop succeeds whenever every
sentence has an id, whatever the beam width. With a beam width of zero and a
selector that respects its contract, the loop runs one pass that creates no
hypothesis and adds no snapshot, and `search` returns the histories as the
set-up left them. The vocabulary size is first used inside the loop, by
`toHyps`: with a vocabulary size of zero it returns empty beams when the
selector gave no key and divides by zero (line 45) otherwise. -/
theorem search_zero_width (bs : BeamSearch) (env : Collaborators) (batch : Batch)
    (hids : batch.size ≤ batch.getSentenceIds.length) :
    ∃ s0, searchInit bs env batch = some s0 ∧ s0.localBeamSize = bs.beamSize ∧
      s0.first = true ∧ s0.histories.length = batch.size ∧
      (bs.beamSize = 0 → WellFormedSelector env →
        ∃ s1, searchStep bs env batch s0 = some s1 ∧ s1.histories = s0.histories ∧
          (∀ beam ∈ s1.beams, beam = []) ∧
          ∀ fuel, search bs env batch (fuel + 1) = Outcome.done s0.histories s1) ∧
      (∀ nBest keys costs beams states beamSize first,
        toHyps bs.scorers nBest keys costs 0 beams states beamSize first
          = if keys = [] then some (List.replicate beams.length []) else none) := by
  obtain ⟨hs, hhs⟩ := newHistories_isSome bs batch hids
  obtain ⟨s0, hinit⟩ : ∃ s0, searchInit bs env batch = some s0 := by
    simp [searchInit, hhs]
  have hinv := loopInv_init bs env batch s0 hinit
  refine ⟨s0, hinit, hinv.lbs1 (by omega), by simp [hinv.first], hinv.lenH, ?_, ?_⟩
  · intro hK hwf
    have hlbs0 : s0.localBeamSize = 0 := by rw [hinv.lbs1 (by omega), hK]
    have hk : (selectStep bs env batch s0).2.1.2 = [] := by
      obtain ⟨_, h2, _⟩ := hwf bs.beamSize batch.size
        (List.replicate batch.size s0.localBeamSize) (maskedCosts bs env batch s0) s0.first
      simp only [List.sum_replicate, smul_eq_mul, hlbs0, Nat.mul_zero, Nat.le_zero] at h2
      simp only [selectStep, hlbs0]
      exact List.length_eq_zero.mp h2
    obtain ⟨s1, hstep, hhist, hempty, hlbs⟩ := searchStep_no_keys bs env batch 0 s0 hinv hk
    refine ⟨s1, hstep, hhist, hempty, ?_⟩
    intro fuel
    have hc : continues s1 = false := by
      simp [continues, hlbs, hlbs0]
    simp [search, hinit, searchLoop, hstep, hc, hhist]
  · intro nBest keys costs beams states beamSize first
    exact toHyps_zero_vocab bs.scorers nBest keys costs beams states beamSize first

/-- Instance of C11: the sample search with a beam width of zero. -/
theorem search_zero_width_witness :
    ∃ s0 s1, searchInit zeroWidthSearch sampleEnv sampleBatch = some s0 ∧
      searchStep zeroWidthSearch sampleEnv sampleBatch s0 = some s1 ∧
      s1.histories = s0.histories ∧ s0.histories.length = 2 ∧
      search zeroWidthSearch sampleEnv sampleBatch 1 = Outcome.done s0.histories s1 := by
  obtain ⟨s0, hinit, _, _, hlen, hz, _⟩ :=
    search_zero_width zeroWidthSearch sampleEnv sampleBatch (by decide)
  obtain ⟨s1, hstep, hhist, _, hret⟩ := hz rfl sampleEnv_wellFormed
  exact ⟨s0, s1, hinit, hstep, hhist, hlen, hret 0⟩

/-- C11, the statement as given fails: the sample search with a beam width of
zero raises no error; it returns one history per sentence, each holding the
seed snapshot only. -/
theorem search_zero_width_counterexample :
    zeroWidthSearch.beamSize = 0 ∧
    (search zeroWidthSearch sampleEnv sampleBatch 1).histories.map (List.map History.size)
      = some [1, 1] :=
  ⟨rfl, by with_unfolding_all decide⟩

/-! ### The breakdown index under a shortlist -/

set_option maxRecDepth 4000 in
/-- C18: evaluation of `toHyps` with n-best output on one sentence with beam
size 2, vocabulary size 5 and the key 7 (candidate token 2 of hypothesis 1),
with a scorer state whose `breakDown(k)` is `k`. Without a shortlist the
breakdown entry is read at `7 % 5 + 1 * 5 = 7`, the flat index of the
candidate. With a shortlist that maps token 2 to 102, line 79 reads it at
`102 + 1 * 5 = 107`: the remapped token of line 53 is used with the stride of
the shortlisted vocabulary. -/
theorem toHyps_breakdown_shortlist :
    (toHyps [sampleScorer 1 5 sampleTable] true [7] [F32.fin (-3)] 5
        [[sampleEnv.newHypothesis, sampleEnv.newHypothesis]] [echoState] 2 false).map
      (List.map (List.map (fun hyp =>
        (hyp.GetWord, hyp.GetPrevStateIndex, hyp.GetCostBreakdown))))
      = some [[(2, 1, [F32.fin 7])]] ∧
    (toHyps [shortlistScorer] true [7] [F32.fin (-3)] 5
        [[sampleEnv.newHypothesis, sampleEnv.newHypothesis]] [echoState] 2 false).map
      (List.map (List.map (fun hyp =>
        (hyp.GetWord, hyp.GetPrevStateIndex, hyp.GetCostBreakdown))))
      = some [[(102, 1, [F32.fin 107])]] ∧
    F32.add (echoState.breakDown (7 % 5 + 1 * 5)) (F32.fin 0) = F32.fin 7 := by
  refine ⟨by with_unfolding_all decide, by with_unfolding_all decide,
    by with_unfolding_all decide⟩

end Marian
